import Mathlib

/-!
Verification development for the beek calculator language
(parser / pretty-printer in src/language.rs and src/language/parser.rs,
environment in src/interpreter/env.rs, evaluator in src/interpreter.rs).

The snapshot contains two coexisting designs:
 * src/interpreter.rs and src/repl.rs hold the older symbolic design
   (NamedValue bindings holding expressions, LazyAssignment /
   ImmediateAssignment statements, eval_expr returning a partially
   reduced Expression); it is embedded below in namespace `Interp`.
 * src/language.rs, src/language/parser.rs and src/interpreter/env.rs hold
   the newer design (Field/Function/NamedItem environment, Expression with
   Function calls); the environment is embedded in namespace `EnvM`.
   The newer design's evaluator itself is not part of the snapshot; where a
   claim depends on it, it is modelled from the specification (see the
   definitions whose doc comments start with `Modelled from the spec:`).

Numbers: the program computes with IEEE f64.  The embedding models an f64
as an exact rational together with the three non-finite classes, plus one
abstract marker `irrat` standing for a finite real value that is not
tracked exactly by the rational model (results of transcendental
operations).  f64 overflow of exact rational arithmetic to infinity is not
modelled; none of the verified claims depends on it.  Rationals are
carried by `MRat`, an explicit normalized numerator/denominator pair whose
arithmetic is kernel-computable.
-/

/-- Exact rational: normalized numerator/denominator pair.  All
constructions below go through `MRat.norm`, which keeps values in lowest
terms with a positive denominator, so structural equality is value
equality. -/
structure MRat where
  num : ℤ
  den : ℕ
deriving DecidableEq

namespace MRat

/-- Normalize a fraction with a natural denominator (`0` denominator maps
to the canonical zero, matching `mkRat`-style conventions; it is never
reached by the evaluators, which guard division by zero). -/
def norm (n : ℤ) (d : ℕ) : MRat :=
  if d = 0 then ⟨0, 1⟩ else
  let g : ℕ := n.gcd d
  ⟨n.tdiv g, d / g⟩

/-- Normalize a fraction with an integer denominator. -/
def normI (n d : ℤ) : MRat :=
  if 0 ≤ d then norm n d.toNat else norm (-n) (-d).toNat

instance (n : ℕ) : OfNat MRat n := ⟨⟨n, 1⟩⟩

/-- Integer as a rational. -/
def ofInt (n : ℤ) : MRat := ⟨n, 1⟩

def add (x y : MRat) : MRat :=
  norm (x.num * (y.den : ℤ) + y.num * (x.den : ℤ)) (x.den * y.den)

def neg (x : MRat) : MRat := ⟨-x.num, x.den⟩

def sub (x y : MRat) : MRat := add x (neg y)

def mul (x y : MRat) : MRat := norm (x.num * y.num) (x.den * y.den)

def div (x y : MRat) : MRat := normI (x.num * (y.den : ℤ)) ((x.den : ℤ) * y.num)

def inv (x : MRat) : MRat := normI (x.den : ℤ) x.num

/-- Order by cross-multiplication (denominators are positive by the
normalization invariant). -/
def lt (x y : MRat) : Prop := x.num * (y.den : ℤ) < y.num * (x.den : ℤ)

def le (x y : MRat) : Prop := x.num * (y.den : ℤ) ≤ y.num * (x.den : ℤ)

instance : LT MRat := ⟨lt⟩
instance : LE MRat := ⟨le⟩

instance (x y : MRat) : Decidable (x < y) :=
  inferInstanceAs (Decidable (x.num * (y.den : ℤ) < y.num * (x.den : ℤ)))

instance (x y : MRat) : Decidable (x ≤ y) :=
  inferInstanceAs (Decidable (x.num * (y.den : ℤ) ≤ y.num * (x.den : ℤ)))

/-- Truncation toward zero, mirroring `f64::trunc`. -/
def trunc (x : MRat) : ℤ := x.num.tdiv (x.den : ℤ)

/-- Structural natural power (kernel-reducible). -/
def npow (q : MRat) : ℕ → MRat
  | 0 => 1
  | n + 1 => (npow q n).mul q

/-- Integer power (for exact integer exponents of `powf`). -/
def zpow (q : MRat) (z : ℤ) : MRat :=
  if 0 ≤ z then npow q z.toNat else (npow q (-z).toNat).inv

end MRat

/-- Model of an IEEE f64 value: an exact rational, an abstract finite
value outside the rational model, or one of the non-finite classes. -/
inductive F64 where
  | finite (q : MRat)
  | irrat
  | inf
  | negInf
  | nan
deriving DecidableEq

namespace F64

/-- Mirrors `f64::is_finite`: true for `finite` rationals and for the
abstract finite marker, false for the non-finite classes. -/
def isFinite : F64 → Bool
  | finite _ => true
  | irrat => true
  | _ => false

/-- Negation (`-x` on f64). -/
def neg : F64 → F64
  | finite q => finite q.neg
  | irrat => irrat
  | inf => negInf
  | negInf => inf
  | nan => nan

/-- Addition (`a + b` on f64).  `inf + (-inf)` is NaN; a sum involving the
abstract finite marker is abstract again. -/
def add : F64 → F64 → F64
  | nan, _ => nan
  | _, nan => nan
  | inf, negInf => nan
  | negInf, inf => nan
  | inf, _ => inf
  | _, inf => inf
  | negInf, _ => negInf
  | _, negInf => negInf
  | irrat, _ => irrat
  | _, irrat => irrat
  | finite a, finite b => finite (a.add b)

/-- Subtraction (`a - b` on f64), defined as addition of the negation,
which agrees with IEEE semantics on the modelled classes. -/
def sub (a b : F64) : F64 := add a (neg b)

/-- Multiplication (`a * b` on f64).  `inf * 0` is NaN.  A product of an
infinity with the abstract finite marker has unknown sign and is mapped to
NaN (it is non-finite either way, which is all the development uses). -/
def mul : F64 → F64 → F64
  | nan, _ => nan
  | _, nan => nan
  | inf, finite q => if q = 0 then nan else if 0 < q.num then inf else negInf
  | finite q, inf => if q = 0 then nan else if 0 < q.num then inf else negInf
  | negInf, finite q => if q = 0 then nan else if 0 < q.num then negInf else inf
  | finite q, negInf => if q = 0 then nan else if 0 < q.num then negInf else inf
  | inf, inf => inf
  | inf, negInf => negInf
  | negInf, inf => negInf
  | negInf, negInf => inf
  | inf, irrat => nan
  | irrat, inf => nan
  | negInf, irrat => nan
  | irrat, negInf => nan
  | irrat, finite q => if q = 0 then finite 0 else irrat
  | finite q, irrat => if q = 0 then finite 0 else irrat
  | irrat, irrat => irrat
  | finite a, finite b => finite (a.mul b)

/-- Division (`a / b` on f64): IEEE division, in particular `x / 0` is
`±inf` for finite `x ≠ 0` and `0 / 0` is NaN. -/
def div : F64 → F64 → F64
  | nan, _ => nan
  | _, nan => nan
  | finite a, finite b =>
      if b = 0 then
        if a = 0 then nan else if 0 < a.num then inf else negInf
      else finite (a.div b)
  | finite _, inf => finite 0
  | finite _, negInf => finite 0
  | irrat, inf => finite 0
  | irrat, negInf => finite 0
  | inf, finite b => if 0 ≤ b.num then inf else negInf
  | negInf, finite b => if 0 ≤ b.num then negInf else inf
  | inf, inf => nan
  | inf, negInf => nan
  | negInf, inf => nan
  | negInf, negInf => nan
  | irrat, finite b => if b = 0 then nan else irrat
  | finite _, irrat => irrat
  | irrat, irrat => irrat
  | inf, irrat => nan
  | negInf, irrat => nan

/-- Floating remainder (`a % b` on f64, truncated remainder). -/
def fmod : F64 → F64 → F64
  | nan, _ => nan
  | _, nan => nan
  | inf, _ => nan
  | negInf, _ => nan
  | finite a, finite b =>
      if b = 0 then nan else finite (a.sub (b.mul (MRat.ofInt ((a.div b).trunc))))
  | finite a, inf => finite a
  | finite a, negInf => finite a
  | irrat, inf => irrat
  | irrat, negInf => irrat
  | irrat, finite b => if b = 0 then nan else irrat
  | finite _, irrat => irrat
  | irrat, irrat => irrat

/-- Power (`a.powf(b)` on f64).  Integer exponents on rationals are exact;
a positive base with a fractional exponent yields the abstract finite
marker; a negative base with a fractional exponent is NaN (IEEE). -/
def powf (a b : F64) : F64 :=
  if b = finite 0 then finite 1
  else if a = finite 1 then finite 1
  else
    match a, b with
    | nan, _ => nan
    | _, nan => nan
    | finite q, finite r =>
        if r.den = 1 then
          if q = 0 then (if 0 < r.num then finite 0 else inf)
          else finite (q.zpow r.num)
        else
          if q.num < 0 then nan
          else if q = 0 then (if 0 < r.num then finite 0 else inf)
          else irrat
    | inf, finite r => if 0 < r.num then inf else finite 0
    | negInf, finite r =>
        if 0 < r.num then (if r.den = 1 ∧ r.num % 2 = 1 then negInf else inf)
        else finite 0
    | finite q, inf =>
        if q = ⟨-1, 1⟩ then finite 1
        else if q.num.natAbs < q.den then finite 0 else inf
    | finite q, negInf =>
        if q = ⟨-1, 1⟩ then finite 1
        else if q.num.natAbs < q.den then inf else finite 0
    | irrat, finite _ => irrat
    | irrat, _ => nan
    | _, irrat => nan
    | inf, inf => inf
    | inf, negInf => finite 0
    | negInf, inf => inf
    | negInf, negInf => finite 0

end F64

/-- Mirrors `struct Number(pub f64)` from src/language.rs (the newtype
wrapper is collapsed onto the f64 model itself). -/
abbrev Number := F64

/-- Mirrors `struct Identifier(pub String)` from src/language.rs (the
newtype wrapper is collapsed onto the string itself; equality and ordering
are by the string). -/
abbrev Identifier := String

/-- Unary operators of the AST (src/language.rs `enum UnaryOp`). -/
inductive UnaryOp where
  | Negate
  | Factorial
deriving DecidableEq

/-- Binary operators of the AST (src/language.rs `enum BinaryOp`). -/
inductive BinaryOp where
  | Add
  | Subtract
  | Multiply
  | Divide
  | Modulo
  | Power
deriving DecidableEq

/-- Precedence tiers from src/language.rs `BinaryOp::precedence`. -/
def BinaryOp.precedence : BinaryOp → ℕ
  | .Add | .Subtract => 0
  | .Multiply | .Divide | .Modulo => 1
  | .Power => 2

/-- Expression AST of the newer design (src/language.rs `enum
Expression`): literals, variable references, calls, unary and binary
operations. -/
inductive Expression where
  | Number (x : Number)
  | Variable (x : Identifier)
  | Function (name : Identifier) (args : List Expression)
  | UnaryOp (op : UnaryOp) (x : Expression)
  | BinaryOp (op : BinaryOp) (a : Expression) (b : Expression)

mutual

/-- Structural equality decision for `Expression` (the `deriving` handler
does not support the nested list). -/
def Expression.deq : (a b : Expression) → Decidable (a = b)
  | .Number x, .Number y =>
      match decEq x y with
      | isTrue h => isTrue (by rw [h])
      | isFalse h => isFalse (by intro hh; cases hh; exact h rfl)
  | .Variable x, .Variable y =>
      match decEq x y with
      | isTrue h => isTrue (by rw [h])
      | isFalse h => isFalse (by intro hh; cases hh; exact h rfl)
  | .Function n xs, .Function m ys =>
      match decEq n m with
      | isFalse h => isFalse (by intro hh; cases hh; exact h rfl)
      | isTrue h1 =>
        match Expression.deqList xs ys with
        | isTrue h2 => isTrue (by rw [h1, h2])
        | isFalse h2 => isFalse (by intro hh; cases hh; exact h2 rfl)
  | .UnaryOp o x, .UnaryOp p y =>
      match decEq o p with
      | isFalse h => isFalse (by intro hh; cases hh; exact h rfl)
      | isTrue h1 =>
        match Expression.deq x y with
        | isTrue h2 => isTrue (by rw [h1, h2])
        | isFalse h2 => isFalse (by intro hh; cases hh; exact h2 rfl)
  | .BinaryOp o a b, .BinaryOp p c d =>
      match decEq o p with
      | isFalse h => isFalse (by intro hh; cases hh; exact h rfl)
      | isTrue h1 =>
        match Expression.deq a c with
        | isFalse h2 => isFalse (by intro hh; cases hh; exact h2 rfl)
        | isTrue h2 =>
          match Expression.deq b d with
          | isTrue h3 => isTrue (by rw [h1, h2, h3])
          | isFalse h3 => isFalse (by intro hh; cases hh; exact h3 rfl)
  | .Number _, .Variable _ => isFalse (fun h => Expression.noConfusion h)
  | .Number _, .Function _ _ => isFalse (fun h => Expression.noConfusion h)
  | .Number _, .UnaryOp _ _ => isFalse (fun h => Expression.noConfusion h)
  | .Number _, .BinaryOp _ _ _ => isFalse (fun h => Expression.noConfusion h)
  | .Variable _, .Number _ => isFalse (fun h => Expression.noConfusion h)
  | .Variable _, .Function _ _ => isFalse (fun h => Expression.noConfusion h)
  | .Variable _, .UnaryOp _ _ => isFalse (fun h => Expression.noConfusion h)
  | .Variable _, .BinaryOp _ _ _ => isFalse (fun h => Expression.noConfusion h)
  | .Function _ _, .Number _ => isFalse (fun h => Expression.noConfusion h)
  | .Function _ _, .Variable _ => isFalse (fun h => Expression.noConfusion h)
  | .Function _ _, .UnaryOp _ _ => isFalse (fun h => Expression.noConfusion h)
  | .Function _ _, .BinaryOp _ _ _ => isFalse (fun h => Expression.noConfusion h)
  | .UnaryOp _ _, .Number _ => isFalse (fun h => Expression.noConfusion h)
  | .UnaryOp _ _, .Variable _ => isFalse (fun h => Expression.noConfusion h)
  | .UnaryOp _ _, .Function _ _ => isFalse (fun h => Expression.noConfusion h)
  | .UnaryOp _ _, .BinaryOp _ _ _ => isFalse (fun h => Expression.noConfusion h)
  | .BinaryOp _ _ _, .Number _ => isFalse (fun h => Expression.noConfusion h)
  | .BinaryOp _ _ _, .Variable _ => isFalse (fun h => Expression.noConfusion h)
  | .BinaryOp _ _ _, .Function _ _ => isFalse (fun h => Expression.noConfusion h)
  | .BinaryOp _ _ _, .UnaryOp _ _ => isFalse (fun h => Expression.noConfusion h)

/-- Structural equality decision for lists of expressions. -/
def Expression.deqList : (xs ys : List Expression) → Decidable (xs = ys)
  | [], [] => isTrue rfl
  | [], _ :: _ => isFalse (fun h => List.noConfusion h)
  | _ :: _, [] => isFalse (fun h => List.noConfusion h)
  | x :: xs, y :: ys =>
      match Expression.deq x y with
      | isFalse h => isFalse (by intro hh; cases hh; exact h rfl)
      | isTrue h1 =>
        match Expression.deqList xs ys with
        | isTrue h2 => isTrue (by rw [h1, h2])
        | isFalse h2 => isFalse (by intro hh; cases hh; exact h2 rfl)

end

instance : DecidableEq Expression := Expression.deq

/-- Mirrors `struct VariableAssignment` from src/language.rs. -/
structure VariableAssignment where
  name : Identifier
  expr : Expression

/-- Mirrors `struct FunctionDefinition` from src/language.rs. -/
structure FunctionDefinition where
  name : Identifier
  arg_names : List Identifier
  expr : Expression

/-- Statement AST of the newer design (src/language.rs `enum
Statement`). -/
inductive Statement where
  | Expression (expr : Expression)
  | VariableAssignment (assign : VariableAssignment)
  | FunctionDefinition (def_ : FunctionDefinition)

/-- Exact rational value of the f64 constant `std::f64::consts::PI`. -/
def piF64 : MRat := ⟨884279719003555, 281474976710656⟩

/-- Exact rational value of the f64 constant `std::f64::consts::E`. -/
def eF64 : MRat := ⟨6121026514868073, 2251799813685248⟩

/-- Exact rational value of the f64 constant `std::f64::consts::TAU`
(exactly twice `piF64`). -/
def tauF64 : MRat := ⟨884279719003555, 140737488355328⟩

/-- Mirrors `fn factorial(x: f64) -> f64` from src/interpreter.rs:
a non-negative integer gets the exact integer factorial, everything else
goes through the Gamma function at `x + 1` (whose non-integer values are
outside the rational model and map to the abstract finite marker; the
poles at negative integers and the non-finite arguments follow the Gamma
function's behaviour). -/
def factorialF64 : F64 → F64
  | .finite q =>
      if 0 ≤ q.num ∧ q.den = 1 then .finite ⟨(Nat.factorial q.num.toNat : ℕ), 1⟩
      else if q.den = 1 then .nan
      else .irrat
  | .irrat => .irrat
  | .inf => .inf
  | .negInf => .nan
  | .nan => .nan

namespace Interp

/-- Evaluation errors of src/interpreter.rs `enum EvalError` (the older
design's error type as present in the snapshot): note that
`NumericalError` carries no payload (its display text is the fixed string
"Encountered infinity or NaN"). -/
inductive EvalError where
  | NumericalError
  | AssignError (msg : String)
  | ReferenceError (ident : Identifier)
deriving DecidableEq

end Interp

deriving instance DecidableEq for Except

/-- Mirrors `impl UnaryOp { fn apply }` from src/interpreter.rs: compute
the operation, then fail with `NumericalError` unless the result is
finite. -/
def UnaryOp.apply : UnaryOp → Number → Except Interp.EvalError Number
  | .Negate, x =>
      let value := x.neg
      if value.isFinite then .ok value else .error .NumericalError
  | .Factorial, x =>
      let value := factorialF64 x
      if value.isFinite then .ok value else .error .NumericalError

/-- Value computed by a binary operator before the finiteness check
(the `match` inside `BinaryOp::apply` in src/interpreter.rs). -/
def BinaryOp.opValue (op : BinaryOp) (a b : Number) : F64 :=
  match op with
  | .Add => a.add b
  | .Subtract => a.sub b
  | .Multiply => a.mul b
  | .Divide => a.div b
  | .Modulo => a.fmod b
  | .Power => a.powf b

/-- Mirrors `impl BinaryOp { fn apply }` from src/interpreter.rs: compute
the operation, then fail with `NumericalError` unless the result is
finite. -/
def BinaryOp.apply (op : BinaryOp) (a b : Number) : Except Interp.EvalError Number :=
  let value := op.opValue a b
  if value.isFinite then .ok value else .error .NumericalError

example : BinaryOp.apply .Divide (.finite 1) (.finite 0) = .error .NumericalError := by decide
example : BinaryOp.apply .Power (.finite 2) (.finite 9) = .ok (.finite 512) := by decide
example : BinaryOp.apply .Divide (.finite 1) (.finite 2) = .ok (.finite ⟨1, 2⟩) := by decide

/-- Lookup in an association list keyed by identifiers (the model of
`HashMap` lookup; keys are unique by construction). -/
def lookupA {α : Type} : List (Identifier × α) → Identifier → Option α
  | [], _ => none
  | (k, v) :: rest, key => if k = key then some v else lookupA rest key

/-- Insert-or-replace in an association list (the model of
`HashMap::insert`). -/
def insertA {α : Type} : List (Identifier × α) → Identifier → α → List (Identifier × α)
  | [], key, v => [(key, v)]
  | (k, w) :: rest, key, v =>
      if k = key then (key, v) :: rest else (k, w) :: insertA rest key v

/-- Remove a key from an association list (the model of
`HashMap::remove`). -/
def eraseA {α : Type} : List (Identifier × α) → Identifier → List (Identifier × α)
  | [], _ => []
  | (k, v) :: rest, key => if k = key then rest else (k, v) :: eraseA rest key

namespace Interp

/-- Expression AST of the older design, with the constructors used by
src/interpreter.rs and src/repl.rs (`Expression::Number`, `::Identifier`,
`::UnaryOp`, `::BinaryOp`; the older design has no calls). -/
inductive Expression where
  | Number (x : Number)
  | Identifier (x : Identifier)
  | UnaryOp (op : UnaryOp) (x : Expression)
  | BinaryOp (op : BinaryOp) (a : Expression) (b : Expression)
deriving DecidableEq

/-- Mirrors `enum NamedValue` from src/interpreter.rs: a binding holds an
expression, either mutable (`Variable`) or immutable (`Constant`). -/
inductive NamedValue where
  | Variable (x : Expression)
  | Constant (x : Expression)
deriving DecidableEq

/-- Mirrors `struct Environment(HashMap<Identifier, NamedValue>)` from
src/interpreter.rs, as an association list with unique keys. -/
abbrev Environment := List (Identifier × NamedValue)

/-- Mirrors `impl Default for Environment` from src/interpreter.rs: the
constants `ans`, `_`, `pi`, `π`, `e` (note `ans` and `_` are pre-bound to
the constant 0). -/
def Environment.default : Environment :=
  [("ans", .Constant (.Number (.finite 0))),
   ("_", .Constant (.Number (.finite 0))),
   ("pi", .Constant (.Number (.finite piF64))),
   ("π", .Constant (.Number (.finite piF64))),
   ("e", .Constant (.Number (.finite eF64)))]

/-- Mirrors `Environment::resolve_ident` from src/interpreter.rs: the
stored expression of either kind of binding. -/
def Environment.resolve_ident (env : Environment) (ident : Identifier) : Option Expression :=
  (lookupA env ident).map fun v =>
    match v with
    | .Variable x => x
    | .Constant x => x

/-- Mirrors `Environment::assign_var` from src/interpreter.rs: replace a
variable or create a fresh one; assigning over a constant fails (mutation
is modelled by returning the updated environment; the error branch does
not touch the map, so callers keep their environment on error). -/
def Environment.assign_var (env : Environment) (ident : Identifier) (expr : Expression) :
    Except EvalError Environment :=
  match lookupA env ident with
  | some (.Variable _) => .ok (insertA env ident (.Variable expr))
  | some (.Constant _) => .error (.AssignError ("Cannot assign to a constant " ++ ident))
  | none => .ok (insertA env ident (.Variable expr))

/-- Mirrors `Environment::delete_ident` from src/interpreter.rs: remove a
binding of any kind, failing with `ReferenceError` only when the name is
unbound. -/
def Environment.delete_ident (env : Environment) (ident : Identifier) :
    Except EvalError Environment :=
  if (lookupA env ident).isSome then .ok (eraseA env ident)
  else .error (.ReferenceError ident)

/-- Mirrors `fn eval_expr` from src/interpreter.rs: a recursive partial
reduction; identifiers resolve through the environment (and their stored
expressions are evaluated again — `none` models running out of stack on a
cyclic environment, which the assignment-time recursion check is meant to
prevent), unbound identifiers evaluate to themselves, operators reduce to
numbers only when both operands did. -/
def eval_expr : ℕ → Expression → Environment → Option (Except EvalError Expression)
  | 0, _, _ => none
  | fuel + 1, e, env =>
    match e with
    | .Number _ => some (.ok e)
    | .Identifier ident =>
        match env.resolve_ident ident with
        | some x => eval_expr fuel x env
        | none => some (.ok e)
    | .UnaryOp op x =>
        match eval_expr fuel x env with
        | none => none
        | some (.error er) => some (.error er)
        | some (.ok (.Number n)) => some ((op.apply n).map Expression.Number)
        | some (.ok x') => some (.ok (.UnaryOp op x'))
    | .BinaryOp op a b =>
        match eval_expr fuel a env with
        | none => none
        | some (.error er) => some (.error er)
        | some (.ok a') =>
          match eval_expr fuel b env with
          | none => none
          | some (.error er) => some (.error er)
          | some (.ok b') =>
            match a', b' with
            | .Number na, .Number nb => some ((op.apply na nb).map Expression.Number)
            | _, _ => some (.ok (.BinaryOp op a' b'))

/-- Mirrors `fn expr_contains_ident` from src/interpreter.rs: does the
expression mention the identifier, chasing bound identifiers through the
environment (fuel models the host call stack). -/
def expr_contains_ident : ℕ → Expression → Identifier → Environment → Option Bool
  | 0, _, _, _ => none
  | fuel + 1, e, ident, env =>
    match e with
    | .Identifier x =>
        if x = ident then some true
        else
          match env.resolve_ident x with
          | some y => expr_contains_ident fuel y ident env
          | none => some false
    | .UnaryOp _ x => expr_contains_ident fuel x ident env
    | .BinaryOp _ a b =>
        match expr_contains_ident fuel a ident env with
        | none => none
        | some true => some true
        | some false => expr_contains_ident fuel b ident env
    | _ => some false

/-- Mirrors `struct Assignment` of the older design (fields as
destructured by `lazy_assign`/`immediate_assign` in src/interpreter.rs). -/
structure Assignment where
  var : Identifier
  expr : Expression

/-- Statement AST of the older design, with the constructors used by
src/interpreter.rs and src/repl.rs. -/
inductive Statement where
  | Expression (e : Expression)
  | LazyAssignment (a : Assignment)
  | ImmediateAssignment (a : Assignment)

/-- Mirrors `fn lazy_assign` from src/interpreter.rs: reject recursive
definitions, evaluate the right-hand side (for the returned value), then
bind the *unevaluated* expression via `assign_var`. -/
def lazy_assign (fuel : ℕ) (assignment : Assignment) (env : Environment) :
    Option (Except EvalError Expression × Environment) :=
  match expr_contains_ident fuel assignment.expr assignment.var env with
  | none => none
  | some true =>
      some (.error (.AssignError ("Detected recursive definition of variable " ++ assignment.var)), env)
  | some false =>
    match eval_expr fuel assignment.expr env with
    | none => none
    | some (.error er) => some (.error er, env)
    | some (.ok evaluated) =>
      match env.assign_var assignment.var assignment.expr with
      | .error er => some (.error er, env)
      | .ok env' => some (.ok evaluated, env')

/-- Mirrors `fn immediate_assign` from src/interpreter.rs: in the snapshot
its body is identical to `lazy_assign` — it also passes the *unevaluated*
`expr` (not `evaluated`) to `assign_var`. -/
def immediate_assign (fuel : ℕ) (assignment : Assignment) (env : Environment) :
    Option (Except EvalError Expression × Environment) :=
  match expr_contains_ident fuel assignment.expr assignment.var env with
  | none => none
  | some true =>
      some (.error (.AssignError ("Detected recursive definition of variable " ++ assignment.var)), env)
  | some false =>
    match eval_expr fuel assignment.expr env with
    | none => none
    | some (.error er) => some (.error er, env)
    | some (.ok evaluated) =>
      match env.assign_var assignment.var assignment.expr with
      | .error er => some (.error er, env)
      | .ok env' => some (.ok evaluated, env')

/-- The statement dispatch inside `fn exec_stmt` from src/interpreter.rs
(the `match stmt` computing `value`, with the environment threaded). -/
def exec_step (fuel : ℕ) (stmt : Statement) (env : Environment) :
    Option (Except EvalError Expression × Environment) :=
  match stmt with
  | .Expression expr =>
      match eval_expr fuel expr env with
      | none => none
      | some r => some (r, env)
  | .LazyAssignment a => lazy_assign fuel a env
  | .ImmediateAssignment a => immediate_assign fuel a env

/-- Mirrors `fn exec_stmt` from src/interpreter.rs: run the statement,
then rebind both `ans` and `_` to the resulting value as constants
(insertion order `ans` then `_`, as in the source's loop). -/
def exec_stmt (fuel : ℕ) (stmt : Statement) (env : Environment) :
    Option (Except EvalError Expression × Environment) :=
  match exec_step fuel stmt env with
  | none => none
  | some (.error er, env') => some (.error er, env')
  | some (.ok value, env') =>
      some (.ok value, insertA (insertA env' "ans" (.Constant value)) "_" (.Constant value))

end Interp

example :
    Interp.eval_expr 10 (.BinaryOp .Power (.Number (.finite 2))
        (.BinaryOp .Power (.Number (.finite 3)) (.Number (.finite 2))))
      Interp.Environment.default = some (.ok (.Number (.finite 512))) := by decide

example :
    Interp.eval_expr 10 (.Identifier "ans") Interp.Environment.default
      = some (.ok (.Number (.finite 0))) := by decide

namespace EnvM

/-- Modelled from the spec: the newer design's evaluation error type
(spec section 7; its `TypeError`, `ReferenceError` and `DefinitionError`
variants are also evidenced by the constructions in
src/interpreter/env.rs, which the snapshot's older `EvalError` lacks).
`NumericalError` carries the offending non-finite value per the spec. -/
inductive EvalError where
  | NumericalError (value : F64)
  | TypeError (msg : String)
  | ReferenceError (ident : Identifier)
  | ArityError (name : Identifier) (expected : ℕ) (got : ℕ)
  | DefinitionError (msg : String)
deriving DecidableEq

/-- Mirrors `enum Field` from src/interpreter/env.rs. -/
inductive Field where
  | Variable (x : Number)
  | Constant (x : Number)
deriving DecidableEq

/-- Mirrors `Field::inner` from src/interpreter/env.rs. -/
def Field.inner : Field → Number
  | .Variable x => x
  | .Constant x => x

/-- The nullary built-in function pointers of src/interpreter/env.rs. -/
inductive NullaryBuiltin where
  | random
deriving DecidableEq

/-- The unary built-in function pointers of src/interpreter/env.rs
(`log` and `ln` share the single pointer `f64::ln`). -/
inductive UnaryBuiltin where
  | floor | ceil | round | trunc | fract | abs | sqrt | exp | ln
  | log2 | log10 | cbrt | sin | cos | tan | asin | acos | atan
  | sinh | cosh | tanh | asinh | acosh | atanh
  | to_degrees | to_radians | erf | erfc | gamma | ln_gamma | sign
deriving DecidableEq

/-- The binary built-in function pointers of src/interpreter/env.rs. -/
inductive BinaryBuiltin where
  | powf | hypot | atan2 | max | min
deriving DecidableEq

/-- Mirrors `enum Function` from src/interpreter/env.rs (built-in
variants carry the function pointer, modelled as its name). -/
inductive Function where
  | NullaryBuiltin (f : NullaryBuiltin)
  | UnaryBuiltin (f : UnaryBuiltin)
  | BinaryBuiltin (f : BinaryBuiltin)
  | UserDefined (arg_names : List Identifier) (expr : Expression)
deriving DecidableEq

/-- Mirrors `Function::is_builtin` from src/interpreter/env.rs. -/
def Function.is_builtin : Function → Bool
  | .UserDefined _ _ => false
  | _ => true

/-- Mirrors `Function::num_args` from src/interpreter/env.rs. -/
def Function.num_args : Function → ℕ
  | .NullaryBuiltin _ => 0
  | .UnaryBuiltin _ => 1
  | .BinaryBuiltin _ => 2
  | .UserDefined arg_names _ => arg_names.length

/-- Mirrors `enum NamedItem` from src/interpreter/env.rs. -/
inductive NamedItem where
  | Field (f : Field)
  | Function (f : Function)
deriving DecidableEq

/-- Mirrors `struct Environment(HashMap<Identifier, NamedItem>)` from
src/interpreter/env.rs, as an association list with unique keys. -/
abbrev Environment := List (Identifier × NamedItem)

/-- Mirrors `Environment::resolve_field` from src/interpreter/env.rs. -/
def Environment.resolve_field (env : Environment) (ident : Identifier) :
    Except EvalError Number :=
  match lookupA env ident with
  | some (.Field field) => .ok field.inner
  | some (.Function _) => .error (.TypeError (ident ++ " is not a variable or constant"))
  | none => .error (.ReferenceError ident)

/-- Mirrors `Environment::resolve_func` from src/interpreter/env.rs. -/
def Environment.resolve_func (env : Environment) (ident : Identifier) :
    Except EvalError Function :=
  match lookupA env ident with
  | some (.Function func) => .ok func
  | some (.Field _) => .error (.TypeError (ident ++ " is not a function"))
  | none => .error (.ReferenceError ident)

/-- Mirrors `Environment::delete` from src/interpreter/env.rs (the `&mut
self` mutation is modelled by returning the environment next to the
result; the error branches leave it untouched). -/
def Environment.delete (env : Environment) (ident : Identifier) :
    Except EvalError Unit × Environment :=
  match lookupA env ident with
  | some (.Field (.Constant _)) =>
      (.error (.TypeError ("Cannot delete a constant " ++ ident)), env)
  | some (.Function func) =>
      if func.is_builtin then
        (.error (.TypeError ("Cannot delete a built-in function " ++ ident)), env)
      else (.ok (), eraseA env ident)
  | none => (.error (.ReferenceError ident), env)
  | some _ => (.ok (), eraseA env ident)

/-- Mirrors `Environment::assign_var` from src/interpreter/env.rs:
constants and built-in functions are immutable, everything else is
overwritten by a `Variable` binding. -/
def Environment.assign_var (env : Environment) (name : Identifier) (value : Number) :
    Except EvalError Unit × Environment :=
  match lookupA env name with
  | some (.Field (.Constant _)) =>
      (.error (.TypeError ("Cannot assign to a constant " ++ name)), env)
  | some (.Function func) =>
      if func.is_builtin then
        (.error (.TypeError ("Cannot redefine a built-in function " ++ name)), env)
      else (.ok (), insertA env name (.Field (.Variable value)))
  | _ => (.ok (), insertA env name (.Field (.Variable value)))

/-- Mirrors `Environment::def_const` from src/interpreter/env.rs: an
unconditional rebind to a constant; never fails. -/
def Environment.def_const (env : Environment) (name : Identifier) (value : Number) :
    Environment :=
  insertA env name (.Field (.Constant value))

/-- Mirrors `fn find_duplicate` from src/interpreter/env.rs: the first
argument name that repeats an earlier one. -/
def find_duplicate (xs : List Identifier) : Option Identifier :=
  go xs []
where
  go : List Identifier → List Identifier → Option Identifier
    | [], _ => none
    | x :: rest, seen => if x ∈ seen then some x else go rest (x :: seen)

/-- Mirrors `Environment::def_func` from src/interpreter/env.rs:
duplicate parameter names are a `DefinitionError`; constants and built-in
functions cannot be redefined; otherwise the unevaluated body is stored. -/
def Environment.def_func (env : Environment) (name : Identifier)
    (arg_names : List Identifier) (expr : Expression) :
    Except EvalError Unit × Environment :=
  match find_duplicate arg_names with
  | some dup => (.error (.DefinitionError ("Duplicate argument " ++ dup)), env)
  | none =>
    match lookupA env name with
    | some (.Field (.Constant _)) =>
        (.error (.TypeError ("Cannot assign to a constant " ++ name)), env)
    | some (.Function func) =>
        if func.is_builtin then
          (.error (.TypeError ("Cannot redefine a built-in function " ++ name)), env)
        else (.ok (), insertA env name (.Function (.UserDefined arg_names expr)))
    | _ => (.ok (), insertA env name (.Function (.UserDefined arg_names expr)))

/-- Mirrors `impl Default for Environment` from src/interpreter/env.rs:
constants `e`, `pi`, `π`, `tau`, `τ`, the nullary, unary and binary
built-in functions, in the source's chaining order. -/
def Environment.default : Environment :=
  [("e", .Field (.Constant (.finite eF64))),
   ("pi", .Field (.Constant (.finite piF64))),
   ("π", .Field (.Constant (.finite piF64))),
   ("tau", .Field (.Constant (.finite tauF64))),
   ("τ", .Field (.Constant (.finite tauF64))),
   ("random", .Function (.NullaryBuiltin .random)),
   ("floor", .Function (.UnaryBuiltin .floor)),
   ("ceil", .Function (.UnaryBuiltin .ceil)),
   ("round", .Function (.UnaryBuiltin .round)),
   ("trunc", .Function (.UnaryBuiltin .trunc)),
   ("fract", .Function (.UnaryBuiltin .fract)),
   ("abs", .Function (.UnaryBuiltin .abs)),
   ("sqrt", .Function (.UnaryBuiltin .sqrt)),
   ("exp", .Function (.UnaryBuiltin .exp)),
   ("log", .Function (.UnaryBuiltin .ln)),
   ("ln", .Function (.UnaryBuiltin .ln)),
   ("log2", .Function (.UnaryBuiltin .log2)),
   ("log10", .Function (.UnaryBuiltin .log10)),
   ("cbrt", .Function (.UnaryBuiltin .cbrt)),
   ("sin", .Function (.UnaryBuiltin .sin)),
   ("cos", .Function (.UnaryBuiltin .cos)),
   ("tan", .Function (.UnaryBuiltin .tan)),
   ("asin", .Function (.UnaryBuiltin .asin)),
   ("acos", .Function (.UnaryBuiltin .acos)),
   ("atan", .Function (.UnaryBuiltin .atan)),
   ("sinh", .Function (.UnaryBuiltin .sinh)),
   ("cosh", .Function (.UnaryBuiltin .cosh)),
   ("tanh", .Function (.UnaryBuiltin .tanh)),
   ("asinh", .Function (.UnaryBuiltin .asinh)),
   ("acosh", .Function (.UnaryBuiltin .acosh)),
   ("atanh", .Function (.UnaryBuiltin .atanh)),
   ("degrees", .Function (.UnaryBuiltin .to_degrees)),
   ("radians", .Function (.UnaryBuiltin .to_radians)),
   ("erf", .Function (.UnaryBuiltin .erf)),
   ("erfc", .Function (.UnaryBuiltin .erfc)),
   ("gamma", .Function (.UnaryBuiltin .gamma)),
   ("lgamma", .Function (.UnaryBuiltin .ln_gamma)),
   ("sign", .Function (.UnaryBuiltin .sign)),
   ("pow", .Function (.BinaryBuiltin .powf)),
   ("hypot", .Function (.BinaryBuiltin .hypot)),
   ("atan2", .Function (.BinaryBuiltin .atan2)),
   ("max", .Function (.BinaryBuiltin .max)),
   ("min", .Function (.BinaryBuiltin .min))]

end EnvM

namespace MRat

/-- Floor to an integer (for the f64 library model). -/
def floorZ (x : MRat) : ℤ := x.num.fdiv (x.den : ℤ)

/-- Ceiling to an integer (for the f64 library model). -/
def ceilZ (x : MRat) : ℤ := -(x.neg.floorZ)

/-- Absolute value. -/
def fabs (x : MRat) : MRat := ⟨(x.num.natAbs : ℤ), x.den⟩

/-- Exact rational square root when one exists (numerator and denominator
both perfect squares; exactness is preserved by reducedness). -/
def sqrtExact? (x : MRat) : Option MRat :=
  if x.num < 0 then none
  else
    let ns := Nat.sqrt x.num.toNat
    let ds := Nat.sqrt x.den
    if ns * ns = x.num.toNat ∧ ds * ds = x.den then some ⟨(ns : ℤ), ds⟩ else none

end MRat

/-- Absolute value on the f64 model (`f64::abs`). -/
def F64.fabs : F64 → F64
  | .finite q => .finite q.fabs
  | .irrat => .irrat
  | .inf => .inf
  | .negInf => .inf
  | .nan => .nan

namespace EnvM

/-- Rational model of the unary f64 library functions referenced by
src/interpreter/env.rs.  Rounding functions are exact; transcendental
functions are exact only at the rational points listed and otherwise
return the abstract finite marker (or the IEEE non-finite result where
the true result is non-finite). -/
def UnaryBuiltin.call (f : UnaryBuiltin) (x : F64) : F64 :=
  match f, x with
  | _, .nan => .nan
  | .floor, .finite q => .finite (.ofInt q.floorZ)
  | .floor, y => y
  | .ceil, .finite q => .finite (.ofInt q.ceilZ)
  | .ceil, y => y
  | .round, .finite q =>
      if 0 ≤ q.num then .finite (.ofInt (q.add ⟨1, 2⟩).floorZ)
      else .finite (.ofInt (-((q.neg.add ⟨1, 2⟩).floorZ)))
  | .round, y => y
  | .trunc, .finite q => .finite (.ofInt q.trunc)
  | .trunc, y => y
  | .fract, .finite q => .finite (q.sub (.ofInt q.trunc))
  | .fract, .irrat => .irrat
  | .fract, _ => .nan
  | .abs, y => y.fabs
  | .sqrt, .finite q =>
      if q.num < 0 then .nan
      else match q.sqrtExact? with
           | some r => .finite r
           | none => .irrat
  | .sqrt, .irrat => .irrat
  | .sqrt, .inf => .inf
  | .sqrt, .negInf => .nan
  | .exp, .finite q => if q = 0 then .finite 1 else .irrat
  | .exp, .irrat => .irrat
  | .exp, .inf => .inf
  | .exp, .negInf => .finite 0
  | .ln, .finite q =>
      if q.num < 0 then .nan else if q = 0 then .negInf
      else if q = 1 then .finite 0 else .irrat
  | .ln, .irrat => .irrat
  | .ln, .inf => .inf
  | .ln, .negInf => .nan
  | .log2, .finite q =>
      if q.num < 0 then .nan else if q = 0 then .negInf
      else if q = 1 then .finite 0 else .irrat
  | .log2, .irrat => .irrat
  | .log2, .inf => .inf
  | .log2, .negInf => .nan
  | .log10, .finite q =>
      if q.num < 0 then .nan else if q = 0 then .negInf
      else if q = 1 then .finite 0 else .irrat
  | .log10, .irrat => .irrat
  | .log10, .inf => .inf
  | .log10, .negInf => .nan
  | .cbrt, .finite q =>
      if q = 0 ∨ q = 1 ∨ q = ⟨-1, 1⟩ then .finite q else .irrat
  | .cbrt, y => y
  | .sin, .finite q => if q = 0 then .finite 0 else .irrat
  | .sin, .irrat => .irrat
  | .sin, _ => .nan
  | .cos, .finite q => if q = 0 then .finite 1 else .irrat
  | .cos, .irrat => .irrat
  | .cos, _ => .nan
  | .tan, .finite q => if q = 0 then .finite 0 else .irrat
  | .tan, .irrat => .irrat
  | .tan, _ => .nan
  | .asin, .finite q =>
      if q = 0 then .finite 0
      else if q.num.natAbs * 1 > q.den then .nan else .irrat
  | .asin, .irrat => .irrat
  | .asin, _ => .nan
  | .acos, .finite q =>
      if q = 1 then .finite 0
      else if q.num.natAbs * 1 > q.den then .nan else .irrat
  | .acos, .irrat => .irrat
  | .acos, _ => .nan
  | .atan, .finite q => if q = 0 then .finite 0 else .irrat
  | .atan, _ => .irrat
  | .sinh, .finite q => if q = 0 then .finite 0 else .irrat
  | .sinh, .irrat => .irrat
  | .sinh, .inf => .inf
  | .sinh, .negInf => .negInf
  | .cosh, .finite q => if q = 0 then .finite 1 else .irrat
  | .cosh, .irrat => .irrat
  | .cosh, _ => .inf
  | .tanh, .finite q => if q = 0 then .finite 0 else .irrat
  | .tanh, .irrat => .irrat
  | .tanh, .inf => .finite 1
  | .tanh, .negInf => .finite ⟨-1, 1⟩
  | .asinh, .finite q => if q = 0 then .finite 0 else .irrat
  | .asinh, .irrat => .irrat
  | .asinh, .inf => .inf
  | .asinh, .negInf => .negInf
  | .acosh, .finite q =>
      if q = 1 then .finite 0
      else if q.num < (q.den : ℤ) then .nan else .irrat
  | .acosh, .irrat => .irrat
  | .acosh, .inf => .inf
  | .acosh, .negInf => .nan
  | .atanh, .finite q =>
      if q = 0 then .finite 0
      else if q = 1 then .inf
      else if q = ⟨-1, 1⟩ then .negInf
      else if q.num.natAbs > q.den then .nan else .irrat
  | .atanh, .irrat => .irrat
  | .atanh, _ => .nan
  | .to_degrees, .finite q => if q = 0 then .finite 0 else .irrat
  | .to_degrees, y => y
  | .to_radians, .finite q => if q = 0 then .finite 0 else .irrat
  | .to_radians, y => y
  | .erf, .finite q => if q = 0 then .finite 0 else .irrat
  | .erf, .irrat => .irrat
  | .erf, .inf => .finite 1
  | .erf, .negInf => .finite ⟨-1, 1⟩
  | .erfc, .finite q => if q = 0 then .finite 1 else .irrat
  | .erfc, .irrat => .irrat
  | .erfc, .inf => .finite 0
  | .erfc, .negInf => .finite 2
  | .gamma, .finite q =>
      if q.den = 1 then
        if 0 < q.num then .finite ⟨(Nat.factorial (q.num.toNat - 1) : ℕ), 1⟩ else .nan
      else .irrat
  | .gamma, .irrat => .irrat
  | .gamma, .inf => .inf
  | .gamma, .negInf => .nan
  | .ln_gamma, .finite q =>
      if q = 1 ∨ q = 2 then .finite 0
      else if q.den = 1 ∧ q.num ≤ 0 then .inf else .irrat
  | .ln_gamma, .irrat => .irrat
  | .ln_gamma, .inf => .inf
  | .ln_gamma, .negInf => .inf
  | .sign, .finite q =>
      if q.num = 0 then .finite 0
      else if 0 < q.num then .finite 1 else .finite ⟨-1, 1⟩
  | .sign, .irrat => .irrat
  | .sign, .inf => .finite 1
  | .sign, .negInf => .finite ⟨-1, 1⟩

/-- Rational model of the binary f64 library functions referenced by
src/interpreter/env.rs (`max`/`min` follow the NaN-ignoring f64
semantics). -/
def BinaryBuiltin.call (f : BinaryBuiltin) (a b : F64) : F64 :=
  match f, a, b with
  | .powf, x, y => x.powf y
  | .hypot, .inf, _ => .inf
  | .hypot, .negInf, _ => .inf
  | .hypot, _, .inf => .inf
  | .hypot, _, .negInf => .inf
  | .hypot, .nan, _ => .nan
  | .hypot, _, .nan => .nan
  | .hypot, .finite x, .finite y =>
      if x = 0 then (F64.finite y).fabs
      else if y = 0 then (F64.finite x).fabs else .irrat
  | .hypot, _, _ => .irrat
  | .atan2, .nan, _ => .nan
  | .atan2, _, .nan => .nan
  | .atan2, .finite y, .finite x =>
      if y = 0 ∧ 0 ≤ x.num then .finite 0 else .irrat
  | .atan2, _, _ => .irrat
  | .max, .nan, y => y
  | .max, x, .nan => x
  | .max, .inf, _ => .inf
  | .max, _, .inf => .inf
  | .max, .negInf, y => y
  | .max, x, .negInf => x
  | .max, .irrat, _ => .irrat
  | .max, _, .irrat => .irrat
  | .max, .finite x, .finite y => if x ≤ y then .finite y else .finite x
  | .min, .nan, y => y
  | .min, x, .nan => x
  | .min, .negInf, _ => .negInf
  | .min, _, .negInf => .negInf
  | .min, .inf, y => y
  | .min, x, .inf => x
  | .min, .irrat, _ => .irrat
  | .min, _, .irrat => .irrat
  | .min, .finite x, .finite y => if x ≤ y then .finite x else .finite y

end EnvM

namespace EnvM

/-- Modelled from the spec: the newer design's unary arithmetic step
(spec section 4.4, operators and the post-evaluation finiteness
invariant; `NumericalError` carries the offending value per section 7).
The arithmetic itself is shared with the snapshot's
`UnaryOp::apply`/`factorial` in src/interpreter.rs. -/
def applyUnary (op : UnaryOp) (x : Number) : Except EvalError Number :=
  let value :=
    match op with
    | .Negate => x.neg
    | .Factorial => factorialF64 x
  if value.isFinite then .ok value else .error (.NumericalError value)

/-- Modelled from the spec: the newer design's binary arithmetic step
(spec section 4.4; same operation table as the snapshot's
`BinaryOp::apply` in src/interpreter.rs, with the offending value carried
by the error). -/
def applyBinary (op : BinaryOp) (a b : Number) : Except EvalError Number :=
  let value := op.opValue a b
  if value.isFinite then .ok value else .error (.NumericalError value)

mutual

/-- Modelled from the spec: `eval_expr` of the newer design (spec section
4.4): a recursive tree-walk producing a Number.  Field references resolve
in the call-local environment; calls resolve the callee, evaluate the
arguments in order, then apply via `eval_func`.  `rng` is the stream of
values drawn by the `random` built-in and `ix` the next draw; `none`
models exhaustion of the host call stack. -/
def eval_expr (rng : ℕ → MRat) : ℕ → Expression → Environment → Environment → ℕ →
    Option (Except EvalError (Number × ℕ))
  | 0, _, _, _, _ => none
  | fuel + 1, e, localE, globalE, ix =>
    match e with
    | .Number x => some (.ok (x, ix))
    | .Variable ident =>
        match localE.resolve_field ident with
        | .error er => some (.error er)
        | .ok v => some (.ok (v, ix))
    | .Function name args =>
        match localE.resolve_func name with
        | .error er => some (.error er)
        | .ok func =>
          match eval_args rng fuel args localE globalE ix with
          | none => none
          | some (.error er) => some (.error er)
          | some (.ok (vals, ix')) => eval_func rng fuel name func vals globalE ix'
    | .UnaryOp op x =>
        match eval_expr rng fuel x localE globalE ix with
        | none => none
        | some (.error er) => some (.error er)
        | some (.ok (v, ix')) =>
            match applyUnary op v with
            | .error er => some (.error er)
            | .ok r => some (.ok (r, ix'))
    | .BinaryOp op a b =>
        match eval_expr rng fuel a localE globalE ix with
        | none => none
        | some (.error er) => some (.error er)
        | some (.ok (va, ix')) =>
          match eval_expr rng fuel b localE globalE ix' with
          | none => none
          | some (.error er) => some (.error er)
          | some (.ok (vb, ix'')) =>
              match applyBinary op va vb with
              | .error er => some (.error er)
              | .ok r => some (.ok (r, ix''))

/-- Modelled from the spec: evaluation of a call's argument expressions in
order (spec section 4.4). -/
def eval_args (rng : ℕ → MRat) : ℕ → List Expression → Environment → Environment → ℕ →
    Option (Except EvalError (List Number × ℕ))
  | 0, _, _, _, _ => none
  | _ + 1, [], _, _, ix => some (.ok ([], ix))
  | fuel + 1, x :: rest, localE, globalE, ix =>
    match eval_expr rng fuel x localE globalE ix with
    | none => none
    | some (.error er) => some (.error er)
    | some (.ok (v, ix')) =>
      match eval_args rng fuel rest localE globalE ix' with
      | none => none
      | some (.error er) => some (.error er)
      | some (.ok (vals, ix'')) => some (.ok (v :: vals, ix''))

/-- Modelled from the spec: `eval_func` of the newer design (spec section
4.4): arity check first (`ArityError` with the declared and actual
counts), then built-in dispatch with the finiteness invariant, or, for a
user-defined function, evaluation of the stored body against a call-local
environment built from the global snapshot with the callee's own name
removed and the parameters bound as constants. -/
def eval_func (rng : ℕ → MRat) : ℕ → Identifier → Function → List Number → Environment → ℕ →
    Option (Except EvalError (Number × ℕ))
  | 0, _, _, _, _, _ => none
  | fuel + 1, name, func, args, globalE, ix =>
    if args.length ≠ func.num_args then
      some (.error (.ArityError name func.num_args args.length))
    else
      match func, args with
      | .NullaryBuiltin _, [] => some (.ok (.finite (rng ix), ix + 1))
      | .UnaryBuiltin f, [a] =>
          let v := f.call a
          if v.isFinite then some (.ok (v, ix)) else some (.error (.NumericalError v))
      | .BinaryBuiltin f, [a, b] =>
          let v := f.call a b
          if v.isFinite then some (.ok (v, ix)) else some (.error (.NumericalError v))
      | .UserDefined arg_names expr, vals =>
          let localE :=
            (arg_names.zip vals).foldl
              (fun env p => Environment.def_const env p.1 p.2) (eraseA globalE name)
          eval_expr rng fuel expr localE globalE ix
      | _, _ => none

end

/-- Modelled from the spec: `exec_stmt` of the newer design (spec section
4.4): expression statements and variable assignments produce `some` value
(assignments evaluate the right-hand side eagerly and bind the resulting
value via `assign_var`), function definitions store the unevaluated body
via `def_func` and produce `none`; after any statement that produced a
value, both `ans` and `_` are rebound to it as constants. -/
def exec_stmt (rng : ℕ → MRat) (fuel : ℕ) (stmt : Statement) (env : Environment) (ix : ℕ) :
    Option (Except EvalError (Option Number) × Environment × ℕ) :=
  match stmt with
  | .Expression expr =>
      match eval_expr rng fuel expr env env ix with
      | none => none
      | some (.error er) => some (.error er, env, ix)
      | some (.ok (v, ix')) =>
          some (.ok (some v), (env.def_const "ans" v).def_const "_" v, ix')
  | .VariableAssignment assign =>
      match eval_expr rng fuel assign.expr env env ix with
      | none => none
      | some (.error er) => some (.error er, env, ix)
      | some (.ok (v, ix')) =>
          match env.assign_var assign.name v with
          | (.error er, env') => some (.error er, env', ix)
          | (.ok _, env') =>
              some (.ok (some v), (env'.def_const "ans" v).def_const "_" v, ix')
  | .FunctionDefinition d =>
      match env.def_func d.name d.arg_names d.expr with
      | (.error er, env') => some (.error er, env', ix)
      | (.ok _, env') => some (.ok none, env', ix)

end EnvM

example :
    EnvM.exec_stmt (fun _ => 0) 10
      (.FunctionDefinition ⟨"f", ["x"],
        .BinaryOp .Add (.Function "f" [.Variable "x"]) (.Number (.finite 1))⟩)
      EnvM.Environment.default 0
      = some (.ok none,
          insertA EnvM.Environment.default "f"
            (.Function (.UserDefined ["x"]
              (.BinaryOp .Add (.Function "f" [.Variable "x"]) (.Number (.finite 1))))), 0) := by
  decide

theorem lookupA_insertA_self {α : Type} (m : List (Identifier × α)) (k : Identifier) (v : α) :
    lookupA (insertA m k v) k = some v := by
  induction m with
  | nil => simp [insertA, lookupA]
  | cons p rest ih =>
      obtain ⟨a, b⟩ := p
      by_cases h : a = k
      · simp [insertA, h, lookupA]
      · simp [insertA, h, lookupA, ih]

theorem lookupA_insertA_of_ne {α : Type} (m : List (Identifier × α)) {k k' : Identifier}
    (v : α) (h : k ≠ k') : lookupA (insertA m k v) k' = lookupA m k' := by
  induction m with
  | nil => simp [insertA, lookupA, h]
  | cons p rest ih =>
      obtain ⟨a, b⟩ := p
      by_cases hak : a = k
      · subst hak; simp [insertA, lookupA, h]
      · simp [insertA, hak, lookupA, ih]

theorem lookupA_eraseA_of_nodup {α : Type} (m : List (Identifier × α)) (k : Identifier)
    (h : (m.map Prod.fst).Nodup) : lookupA (eraseA m k) k = none := by
  induction m with
  | nil => simp [eraseA, lookupA]
  | cons p rest ih =>
      obtain ⟨a, b⟩ := p
      simp only [List.map_cons, List.nodup_cons] at h
      by_cases hak : a = k
      · subst hak
        simp only [eraseA, if_pos rfl]
        rcases hl : lookupA rest a with _ | w
        · exact hl
        · exact absurd (lookupA_mem rest a w hl) h.1
      · simp [eraseA, hak, lookupA, ih h.2]
where
  lookupA_mem : ∀ (m : List (Identifier × α)) (k : Identifier) (v : α),
      lookupA m k = some v → k ∈ m.map Prod.fst := by
    intro m k v h
    induction m with
    | nil => simp [lookupA] at h
    | cons p rest ih =>
        obtain ⟨a, b⟩ := p
        by_cases hak : a = k
        · subst hak; simp
        · simp only [lookupA, if_neg hak] at h
          simpa using Or.inr (ih h)

/-- C5: for every environment, assigning to a name bound to a constant or
to a built-in function fails with a TypeError and leaves the environment
unchanged (so the prior binding, e.g. `pi`, still resolves afterwards). -/
theorem C5_constant_immutability (env : EnvM.Environment) (name : Identifier) (value : Number)
    (h : (∃ prior, lookupA env name = some (.Field (.Constant prior))) ∨
         (∃ func, lookupA env name = some (.Function func) ∧ func.is_builtin = true)) :
    (∃ msg, (EnvM.Environment.assign_var env name value).1 = .error (.TypeError msg)) ∧
    (EnvM.Environment.assign_var env name value).2 = env := by
  rcases h with ⟨prior, hc⟩ | ⟨func, hf, hb⟩
  · refine ⟨⟨"Cannot assign to a constant " ++ name, ?_⟩, ?_⟩ <;>
      simp [EnvM.Environment.assign_var, hc]
  · refine ⟨⟨"Cannot redefine a built-in function " ++ name, ?_⟩, ?_⟩ <;>
      simp [EnvM.Environment.assign_var, hf, hb]

/-- C5 witness: `pi = 3` on the default environment fails with a
TypeError and `pi` still resolves to the f64 value of π. -/
theorem C5_witness :
    (∃ msg, (EnvM.Environment.assign_var EnvM.Environment.default "pi" (.finite 3)).1
        = .error (.TypeError msg)) ∧
    (EnvM.Environment.assign_var EnvM.Environment.default "pi" (.finite 3)).2
        = EnvM.Environment.default ∧
    EnvM.Environment.resolve_field
        ((EnvM.Environment.assign_var EnvM.Environment.default "pi" (.finite 3)).2) "pi"
        = .ok (.finite piF64) := by
  have h := C5_constant_immutability EnvM.Environment.default "pi" (.finite 3)
    (Or.inl ⟨.finite piF64, by decide⟩)
  refine ⟨h.1, h.2, ?_⟩
  rw [h.2]
  decide

/-- C8: `delete(name)` fails with ReferenceError when unbound, fails
with TypeError on a constant or a built-in function leaving the binding
intact, and otherwise removes the binding and succeeds (removal makes the
name unbound given the map's key-uniqueness invariant). -/
theorem C8_delete_contract (env : EnvM.Environment) (name : Identifier) :
    (lookupA env name = none →
        EnvM.Environment.delete env name = (.error (.ReferenceError name), env)) ∧
    (∀ prior, lookupA env name = some (.Field (.Constant prior)) →
        EnvM.Environment.delete env name
          = (.error (.TypeError ("Cannot delete a constant " ++ name)), env)) ∧
    (∀ func, lookupA env name = some (.Function func) → func.is_builtin = true →
        EnvM.Environment.delete env name
          = (.error (.TypeError ("Cannot delete a built-in function " ++ name)), env)) ∧
    (∀ prior, lookupA env name = some (.Field (.Variable prior)) →
        EnvM.Environment.delete env name = (.ok (), eraseA env name)) ∧
    (∀ func, lookupA env name = some (.Function func) → func.is_builtin = false →
        EnvM.Environment.delete env name = (.ok (), eraseA env name)) ∧
    ((env.map Prod.fst).Nodup → lookupA (eraseA env name) name = none) := by
  refine ⟨?_, ?_, ?_, ?_, ?_, fun hnd => lookupA_eraseA_of_nodup env name hnd⟩
  · intro h; simp [EnvM.Environment.delete, h]
  · intro prior h; simp [EnvM.Environment.delete, h]
  · intro func h hb; simp [EnvM.Environment.delete, h, hb]
  · intro prior h; simp [EnvM.Environment.delete, h]
  · intro func h hb; simp [EnvM.Environment.delete, h, hb]

/-- C8 witness: on concrete environments, deleting an unbound name, the
constant `pi`, the built-in `sin`, and a user variable `x` behave as the
contract states. -/
theorem C8_witness :
    EnvM.Environment.delete EnvM.Environment.default "zz"
      = (.error (.ReferenceError "zz"), EnvM.Environment.default) ∧
    EnvM.Environment.delete EnvM.Environment.default "pi"
      = (.error (.TypeError "Cannot delete a constant pi"), EnvM.Environment.default) ∧
    EnvM.Environment.delete EnvM.Environment.default "sin"
      = (.error (.TypeError "Cannot delete a built-in function sin"), EnvM.Environment.default) ∧
    EnvM.Environment.delete
        (insertA EnvM.Environment.default "x" (.Field (.Variable (.finite 1)))) "x"
      = (.ok (), eraseA (insertA EnvM.Environment.default "x" (.Field (.Variable (.finite 1)))) "x") ∧
    lookupA
        (eraseA (insertA EnvM.Environment.default "x" (.Field (.Variable (.finite 1)))) "x") "x"
      = none := by
  refine ⟨(C8_delete_contract EnvM.Environment.default "zz").1 (by decide),
    ?_, ?_, ?_, ?_⟩
  · have h := (C8_delete_contract EnvM.Environment.default "pi").2.1 (.finite piF64) (by decide)
    exact h
  · have h := (C8_delete_contract EnvM.Environment.default "sin").2.2.1
      (.UnaryBuiltin .sin) (by decide) (by decide)
    exact h
  · have h := (C8_delete_contract
        (insertA EnvM.Environment.default "x" (.Field (.Variable (.finite 1)))) "x").2.2.2.1
      (.finite 1) (by decide)
    exact h
  · have h := (C8_delete_contract
        (insertA EnvM.Environment.default "x" (.Field (.Variable (.finite 1)))) "x").2.2.2.2.2
      (by decide)
    exact h

/-- C9: evaluating an unbound identifier in the older design does not
raise a ReferenceError; `eval_expr` returns the identifier expression
itself unchanged, so unknown names reduce symbolically rather than
failing. -/
theorem C9_unbound_identifier_is_symbolic (fuel : ℕ) (ident : Identifier)
    (env : Interp.Environment) (h : Interp.Environment.resolve_ident env ident = none) :
    Interp.eval_expr (fuel + 1) (.Identifier ident) env = some (.ok (.Identifier ident)) := by
  simp [Interp.eval_expr, h]

/-- C9 witness: the unbound name `q` evaluates to itself in the default
environment (and an expression containing it reduces partially instead of
failing). -/
theorem C9_witness :
    Interp.Environment.resolve_ident Interp.Environment.default "q" = none ∧
    Interp.eval_expr 1 (.Identifier "q") Interp.Environment.default
      = some (.ok (.Identifier "q")) ∧
    Interp.eval_expr 3
        (.BinaryOp .Add (.Identifier "q")
          (.BinaryOp .Add (.Number (.finite 1)) (.Number (.finite 1))))
        Interp.Environment.default
      = some (.ok (.BinaryOp .Add (.Identifier "q") (.Number (.finite 2)))) := by
  refine ⟨by decide, ?_, by decide⟩
  exact C9_unbound_identifier_is_symbolic 0 "q" Interp.Environment.default (by decide)

/-- C10: the older design's freshly created default environment already
binds `ans` and `_` as constants with value 0, alongside `pi`, `π` and
`e`; referencing `ans`/`_` before any statement yields 0, and assigning
to them fails as constant mutation, leaving the environment unchanged. -/
theorem C10_default_binds_ans :
    lookupA Interp.Environment.default "ans" = some (.Constant (.Number (.finite 0))) ∧
    lookupA Interp.Environment.default "_" = some (.Constant (.Number (.finite 0))) ∧
    lookupA Interp.Environment.default "pi" = some (.Constant (.Number (.finite piF64))) ∧
    lookupA Interp.Environment.default "π" = some (.Constant (.Number (.finite piF64))) ∧
    lookupA Interp.Environment.default "e" = some (.Constant (.Number (.finite eF64))) ∧
    Interp.eval_expr 2 (.Identifier "ans") Interp.Environment.default
      = some (.ok (.Number (.finite 0))) ∧
    Interp.eval_expr 2 (.Identifier "_") Interp.Environment.default
      = some (.ok (.Number (.finite 0))) ∧
    Interp.exec_stmt 2 (.ImmediateAssignment ⟨"ans", .Number (.finite 5)⟩)
        Interp.Environment.default
      = some (.error (.AssignError "Cannot assign to a constant ans"),
          Interp.Environment.default) ∧
    Interp.exec_stmt 2 (.ImmediateAssignment ⟨"_", .Number (.finite 5)⟩)
        Interp.Environment.default
      = some (.error (.AssignError "Cannot assign to a constant _"),
          Interp.Environment.default) := by
  decide

theorem Interp.lazy_assign_error_env {fuel : ℕ} {a : Interp.Assignment}
    {env env' : Interp.Environment} {er : Interp.EvalError}
    (h : Interp.lazy_assign fuel a env = some (.error er, env')) : env' = env := by
  unfold Interp.lazy_assign at h
  split at h
  · cases h
  · cases h; rfl
  · split at h
    · cases h
    · cases h; rfl
    · split at h
      · cases h; rfl
      · cases h

theorem Interp.immediate_assign_error_env {fuel : ℕ} {a : Interp.Assignment}
    {env env' : Interp.Environment} {er : Interp.EvalError}
    (h : Interp.immediate_assign fuel a env = some (.error er, env')) : env' = env := by
  unfold Interp.immediate_assign at h
  split at h
  · cases h
  · cases h; rfl
  · split at h
    · cases h
    · cases h; rfl
    · split at h
      · cases h; rfl
      · cases h

theorem Interp.exec_step_error_env {fuel : ℕ} {stmt : Interp.Statement}
    {env env' : Interp.Environment} {er : Interp.EvalError}
    (h : Interp.exec_step fuel stmt env = some (.error er, env')) : env' = env := by
  unfold Interp.exec_step at h
  split at h
  · split at h
    · cases h
    · cases h; rfl
  · exact Interp.lazy_assign_error_env h
  · exact Interp.immediate_assign_error_env h

/-- C6: after every successfully executed statement (each of which
produces a value in this design), both `ans` and `_` are rebound as
constants to that value, overwriting any prior binding of those names;
on a failed statement the environment (hence `ans` and `_`) is left
unchanged. -/
theorem C6_ans_rebinding (fuel : ℕ) (stmt : Interp.Statement) (env : Interp.Environment) :
    (∀ value env', Interp.exec_stmt fuel stmt env = some (.ok value, env') →
        lookupA env' "ans" = some (.Constant value) ∧
        lookupA env' "_" = some (.Constant value)) ∧
    (∀ er env', Interp.exec_stmt fuel stmt env = some (.error er, env') → env' = env) := by
  constructor
  · intro value env' h
    unfold Interp.exec_stmt at h
    split at h
    · cases h
    · cases h
    · cases h
      constructor
      · rw [lookupA_insertA_of_ne _ _ (by decide : ("_" : Identifier) ≠ "ans")]
        exact lookupA_insertA_self _ _ _
      · exact lookupA_insertA_self _ _ _
  · intro er env' h
    unfold Interp.exec_stmt at h
    split at h
    · cases h
    · cases h
      exact Interp.exec_step_error_env (by assumption)
    · cases h

/-- C6 witness: a successful expression statement rebinds `ans` and `_`
to its value, and a failed assignment leaves the default environment
unchanged. -/
theorem C6_witness :
    (lookupA ((Interp.exec_stmt 2 (.Expression (.Number (.finite 1)))
          Interp.Environment.default).elim [] fun r => r.2) "ans"
        = some (.Constant (.Number (.finite 1))) ∧
     lookupA ((Interp.exec_stmt 2 (.Expression (.Number (.finite 1)))
          Interp.Environment.default).elim [] fun r => r.2) "_"
        = some (.Constant (.Number (.finite 1)))) ∧
    ((Interp.exec_stmt 2 (.ImmediateAssignment ⟨"pi", .Number (.finite 3)⟩)
          Interp.Environment.default).elim [] fun r => r.2)
        = Interp.Environment.default := by
  constructor
  · exact (C6_ans_rebinding 2 (.Expression (.Number (.finite 1)))
      Interp.Environment.default).1 (.Number (.finite 1)) _ (by decide)
  · exact (C6_ans_rebinding 2 (.ImmediateAssignment ⟨"pi", .Number (.finite 3)⟩)
      Interp.Environment.default).2 (.AssignError "Cannot assign to a constant pi")
      ((Interp.exec_stmt 2 (.ImmediateAssignment ⟨"pi", .Number (.finite 3)⟩)
        Interp.Environment.default).elim [] fun r => r.2) (by decide)

/-- The first statement of the C1 scenario: `x = 1 + 2` as an immediate
assignment. -/
def c1Stmt1 : Interp.Statement :=
  .ImmediateAssignment ⟨"x", .BinaryOp .Add (.Number (.finite 1)) (.Number (.finite 2))⟩

/-- Environment after `x = 1 + 2`. -/
def c1Env1 : Interp.Environment :=
  (Interp.exec_stmt 4 c1Stmt1 Interp.Environment.default).elim [] fun r => r.2

/-- Environment after `x = 1 + 2; y = x`. -/
def c1Env2 : Interp.Environment :=
  (Interp.exec_stmt 4 (.ImmediateAssignment ⟨"y", .Identifier "x"⟩) c1Env1).elim [] fun r => r.2

/-- Environment after `x = 1 + 2; y = x; x = 5`. -/
def c1Env3 : Interp.Environment :=
  (Interp.exec_stmt 4 (.ImmediateAssignment ⟨"x", .Number (.finite 5)⟩) c1Env2).elim []
    fun r => r.2

/-- C1: the snapshot's `immediate_assign` binds the *unevaluated*
right-hand expression (`env.assign_var(var, expr)`), identically to
`lazy_assign`, so a variable assignment is not eager: `x` ends up bound
to the expression `1 + 2` rather than the value `3`, `y = x` binds `y` to
the expression `x`, and after `x = 5` a read of `y` re-evaluates to `5`
instead of staying fixed at `3`. -/
theorem C1_assignment_not_eager :
    (Interp.exec_stmt 4 c1Stmt1 Interp.Environment.default).map Prod.fst
      = some (.ok (.Number (.finite 3))) ∧
    lookupA c1Env1 "x"
      = some (.Variable (.BinaryOp .Add (.Number (.finite 1)) (.Number (.finite 2)))) ∧
    (Interp.exec_stmt 4 (.ImmediateAssignment ⟨"y", .Identifier "x"⟩) c1Env1).map Prod.fst
      = some (.ok (.Number (.finite 3))) ∧
    lookupA c1Env2 "y" = some (.Variable (.Identifier "x")) ∧
    Interp.eval_expr 4 (.Identifier "y") c1Env2 = some (.ok (.Number (.finite 3))) ∧
    Interp.eval_expr 4 (.Identifier "y") c1Env3 = some (.ok (.Number (.finite 5))) := by
  decide

/-- The C7 function definition `f(x) = f(x) + 1`. -/
def c7Def : Statement :=
  .FunctionDefinition ⟨"f", ["x"],
    .BinaryOp .Add (.Function "f" [.Variable "x"]) (.Number (.finite 1))⟩

/-- Environment after defining `f(x) = f(x) + 1` (the definition itself
succeeds; only calling is blocked). -/
def c7Env1 : EnvM.Environment :=
  (EnvM.exec_stmt (fun _ => 0) 10 c7Def EnvM.Environment.default 0).elim [] fun r => r.2.1

/-- C7: defining `f(x) = f(x) + 1` succeeds (producing no value), and then
calling `f(1)` fails with `ReferenceError f` instead of looping forever,
because the call-local environment is a clone with the callee's own name
removed. -/
theorem C7_self_recursion_blocked :
    (EnvM.exec_stmt (fun _ => 0) 10 c7Def EnvM.Environment.default 0).map (fun r => r.1)
      = some (.ok none) ∧
    lookupA c7Env1 "f"
      = some (.Function (.UserDefined ["x"]
          (.BinaryOp .Add (.Function "f" [.Variable "x"]) (.Number (.finite 1))))) ∧
    EnvM.exec_stmt (fun _ => 0) 10 (.Expression (.Function "f" [.Number (.finite 1)])) c7Env1 0
      = some (.error (.ReferenceError "f"), c7Env1, 0) := by
  decide

/-- C2 counterexample: in the snapshot, `NumericalError` carries no
payload — evaluating `1/0` (offending value `+inf`) and `0/0` (offending
value `NaN`) produce the *same* error value, so the error cannot carry
the offending non-finite value for diagnostics as the claim states. -/
theorem C2_counterexample :
    Interp.eval_expr 2
        (.BinaryOp .Divide (.Number (.finite 1)) (.Number (.finite 0)))
        Interp.Environment.default
      = some (.error .NumericalError) ∧
    Interp.eval_expr 2
        (.BinaryOp .Divide (.Number (.finite 0)) (.Number (.finite 0)))
        Interp.Environment.default
      = some (.error .NumericalError) ∧
    BinaryOp.opValue .Divide (.finite 1) (.finite 0) = .inf ∧
    BinaryOp.opValue .Divide (.finite 0) (.finite 0) = .nan ∧
    F64.inf ≠ F64.nan := by
  decide

/-- C2 (amended): every numeric result an operator produces is finite —
whenever a unary or binary arithmetic operation produces NaN or ±infinity
(for example `1/0`), it fails right there with `NumericalError` (a
payload-free variant in this code), and `eval_expr` propagates that error
immediately, failing the whole evaluation at that point. -/
theorem C2_finite_result_invariant :
    (∀ (op : BinaryOp) (a b v : Number), op.apply a b = .ok v → v.isFinite = true) ∧
    (∀ (op : BinaryOp) (a b : Number), (op.opValue a b).isFinite = false →
        op.apply a b = .error .NumericalError) ∧
    (∀ (op : UnaryOp) (x v : Number), op.apply x = .ok v → v.isFinite = true) ∧
    (∀ (fuel : ℕ) (op : BinaryOp) (ea eb : Interp.Expression) (env : Interp.Environment)
        (a b : Number),
        Interp.eval_expr fuel ea env = some (.ok (.Number a)) →
        Interp.eval_expr fuel eb env = some (.ok (.Number b)) →
        (op.opValue a b).isFinite = false →
        Interp.eval_expr (fuel + 1) (.BinaryOp op ea eb) env
          = some (.error .NumericalError)) ∧
    (∀ (fuel : ℕ) (op : UnaryOp) (ex : Interp.Expression) (env : Interp.Environment)
        (x : Number) (er : Interp.EvalError),
        Interp.eval_expr fuel ex env = some (.ok (.Number x)) →
        op.apply x = .error er →
        Interp.eval_expr (fuel + 1) (.UnaryOp op ex) env = some (.error er)) := by
  refine ⟨?_, ?_, ?_, ?_, ?_⟩
  · intro op a b v h
    unfold BinaryOp.apply at h
    by_cases hf : (op.opValue a b).isFinite
    · simp only [hf, if_true] at h
      cases h
      exact hf
    · simp [hf] at h
  · intro op a b h
    unfold BinaryOp.apply
    simp [h]
  · intro op x v h
    cases op with
    | Negate =>
        unfold UnaryOp.apply at h
        by_cases hf : (F64.neg x).isFinite
        · simp only [hf, if_true] at h
          cases h
          exact hf
        · simp [hf] at h
    | Factorial =>
        unfold UnaryOp.apply at h
        by_cases hf : (factorialF64 x).isFinite
        · simp only [hf, if_true] at h
          cases h
          exact hf
        · simp [hf] at h
  · intro fuel op ea eb env a b ha hb hf
    have happ : op.apply a b = .error .NumericalError := by
      unfold BinaryOp.apply
      simp [hf]
    simp [Interp.eval_expr, ha, hb, happ, Except.map]
  · intro fuel op ex env x er hx happ
    simp [Interp.eval_expr, hx, happ, Except.map]

/-- C2 witness: the invariant applied at `1/0`, which fails at the
division with the payload-free `NumericalError`. -/
theorem C2_witness :
    (BinaryOp.opValue .Divide (.finite 1) (.finite 0)).isFinite = false ∧
    Interp.eval_expr 1 (.Number (.finite 1)) Interp.Environment.default
      = some (.ok (.Number (.finite 1))) ∧
    Interp.eval_expr 2
        (.BinaryOp .Divide (.Number (.finite 1)) (.Number (.finite 0)))
        Interp.Environment.default
      = some (.error .NumericalError) := by
  refine ⟨by decide, by decide, ?_⟩
  exact C2_finite_result_invariant.2.2.2.1 1 .Divide _ _ Interp.Environment.default
    (.finite 1) (.finite 0) (by decide) (by decide) (by decide)

/-- Result of a parser on a character list, tracking the combine library's
consumed/empty failure distinction (`err true` = failed after consuming
input, which `choice` does not recover from without `attempt`);
`out` models running out of recursion fuel and is never produced when the
top-level fuel bound is respected. -/
inductive PRes (α : Type) where
  | ok (a : α) (rest : List Char)
  | err (consumed : Bool)
  | out
deriving DecidableEq

/-- The whitespace class skipped between tokens (src/language/parser.rs
`spaces`): any whitespace except line breaks.  (Rust's unicode
`char::is_whitespace` is modelled on the ASCII repertoire.) -/
def isSpaceChar (c : Char) : Bool :=
  c ≠ '\n' && c ≠ '\r' && c.isWhitespace

/-- Decimal digit (combine's `digit()`). -/
def isDigitChar (c : Char) : Bool := c.isDigit

/-- Letter class of combine's `letter()` (Rust `char::is_alphabetic`),
modelled on ASCII letters plus the Greek letters the program's default
environment uses. -/
def isAlphaChar (c : Char) : Bool :=
  c.isAlpha || c = 'π' || c = 'τ'

/-- Start of an identifier: a letter or underscore. -/
def isIdentStartChar (c : Char) : Bool := isAlphaChar c || c = '_'

/-- Continuation of an identifier: alphanumeric or underscore
(combine's `alpha_num()`). -/
def isIdentChar (c : Char) : Bool := isAlphaChar c || isDigitChar c || c = '_'

/-- Skip whitespace (the `spaces()` parser; it never fails). -/
def dropSpaces : List Char → List Char
  | [] => []
  | c :: rest => if isSpaceChar c then dropSpaces rest else c :: rest

/-- Scan a maximal run of decimal digits. -/
def scanDigits : List Char → List Char × List Char
  | [] => ([], [])
  | c :: rest =>
      if isDigitChar c then
        let (ds, r) := scanDigits rest
        (c :: ds, r)
      else ([], c :: rest)

/-- Scan a maximal run of identifier-continuation characters. -/
def scanIdent : List Char → List Char × List Char
  | [] => ([], [])
  | c :: rest =>
      if isIdentChar c then
        let (ds, r) := scanIdent rest
        (c :: ds, r)
      else ([], c :: rest)

/-- Skip to the end of the line (the comment body after `#`). -/
def dropComment : List Char → List Char
  | [] => []
  | c :: rest => if c = '\n' || c = '\r' then c :: rest else dropComment rest

/-- Mirrors `fn ident` from src/language/parser.rs: a letter or
underscore followed by alphanumerics/underscores, then trailing
whitespace is skipped (`lex`). -/
def pIdent : List Char → PRes Identifier
  | [] => .err false
  | c :: rest =>
      if isIdentStartChar c then
        let (cs, r) := scanIdent rest
        .ok (String.mk (c :: cs)) (dropSpaces r)
      else .err false

/-- Numeric value of a digit run. -/
def digitsToNat (ds : List Char) : ℕ :=
  ds.foldl (fun a c => a * 10 + (c.toNat - '0'.toNat)) 0

/-- Exact rational value of a parsed numeric literal: integer digits,
fraction digits, optional exponent with sign.  (The Rust code calls
`str::parse::<f64>`, i.e. the nearest f64; the model keeps the exact
decimal value.) -/
def numValue (intD fracD : List Char) (eopt : Option (Bool × ℕ)) : MRat :=
  let k := fracD.length
  let m : ℕ := digitsToNat intD * 10 ^ k + digitsToNat fracD
  match eopt with
  | none => MRat.norm (m : ℤ) (10 ^ k)
  | some (negE, e) =>
      if negE then MRat.norm (m : ℤ) (10 ^ (k + e))
      else MRat.norm ((m * 10 ^ e : ℕ) : ℤ) (10 ^ k)

/-- The `optional(sign())` of the exponent: consume a leading `+` or `-`
if present (`true` marks a negative exponent). -/
def signSplit : List Char → Bool × List Char
  | [] => (false, [])
  | c2 :: r =>
      if c2 = '+' then (false, r)
      else if c2 = '-' then (true, r)
      else (false, c2 :: r)

/-- The optional exponent tail of a numeric literal (`e`/`E`, optional
sign, digits) followed by the `lex` whitespace skip. -/
def pNumberExp (intD fracD : List Char) : List Char → PRes Number
  | [] => .ok (.finite (numValue intD fracD none)) []
  | c :: rest =>
      if c = 'e' || c = 'E' then
        let negE := (signSplit rest).1
        let es := (scanDigits (signSplit rest).2).1
        let r2 := (scanDigits (signSplit rest).2).2
        if es.isEmpty then .err true
        else .ok (.finite (numValue intD fracD (some (negE, digitsToNat es)))) (dropSpaces r2)
      else .ok (.finite (numValue intD fracD none)) (dropSpaces (c :: rest))

/-- Mirrors `fn number` from src/language/parser.rs: a mantissa with
either a leading-dot form (`.5`) or an integer part with optional
fraction (`5`, `5.`, `5.25`), then an optional exponent; the matched text
is converted to its numeric value. -/
def pNumber : List Char → PRes Number
  | [] => .err false
  | c :: rest =>
      if c = '.' then
        let (ds, r) := scanDigits rest
        if ds.isEmpty then .err true
        else pNumberExp [] ds r
      else if isDigitChar c then
        match (scanDigits rest).2 with
        | c2 :: r2 =>
            if c2 = '.' then
              pNumberExp (c :: (scanDigits rest).1) (scanDigits r2).1 (scanDigits r2).2
            else pNumberExp (c :: (scanDigits rest).1) [] (c2 :: r2)
        | [] => pNumberExp (c :: (scanDigits rest).1) [] []
      else .err false

/-- The right-associative fold of a power chain, mirroring the
`rev().fold1(|a, b| BinaryOp(Power, b, a))` in `fn exp` of
src/language/parser.rs. -/
def foldPower : Expression → List Expression → Expression
  | x, [] => x
  | x, y :: rest => .BinaryOp .Power x (foldPower y rest)

mutual

/-- Mirrors `fn expr_` from src/language/parser.rs: `lex(add())`. -/
def pExpr : ℕ → List Char → PRes Expression
  | 0, _ => .out
  | fuel + 1, s =>
      match pAdd fuel s with
      | .ok e r => .ok e (dropSpaces r)
      | .err b => .err b
      | .out => .out

/-- Mirrors `fn add` from src/language/parser.rs:
`mul ( ("+"|"-") mul )*`, left-folded. -/
def pAdd : ℕ → List Char → PRes Expression
  | 0, _ => .out
  | fuel + 1, s =>
      match pMul fuel s with
      | .ok e r => pAddLoop fuel e r
      | .err b => .err b
      | .out => .out

/-- The `many` loop of `fn add` (an operator consumed by a failing
operand is a consumed failure). -/
def pAddLoop : ℕ → Expression → List Char → PRes Expression
  | 0, _, _ => .out
  | fuel + 1, acc, s =>
      match s with
      | [] => .ok acc []
      | c :: rest =>
          if c = '+' then
            match pMul fuel (dropSpaces rest) with
            | .ok b r2 => pAddLoop fuel (.BinaryOp .Add acc b) r2
            | .err _ => .err true
            | .out => .out
          else if c = '-' then
            match pMul fuel (dropSpaces rest) with
            | .ok b r2 => pAddLoop fuel (.BinaryOp .Subtract acc b) r2
            | .err _ => .err true
            | .out => .out
          else .ok acc (c :: rest)

/-- Mirrors `fn mul` from src/language/parser.rs:
`negate ( ("*"|"·"|"×"|"/"|"÷"|"%") negate )*`, left-folded. -/
def pMul : ℕ → List Char → PRes Expression
  | 0, _ => .out
  | fuel + 1, s =>
      match pNegate fuel s with
      | .ok e r => pMulLoop fuel e r
      | .err b => .err b
      | .out => .out

/-- The `many` loop of `fn mul`. -/
def pMulLoop : ℕ → Expression → List Char → PRes Expression
  | 0, _, _ => .out
  | fuel + 1, acc, s =>
      match s with
      | c :: rest =>
          if c = '*' || c = '·' || c = '×' then
            match pNegate fuel (dropSpaces rest) with
            | .ok b r2 => pMulLoop fuel (.BinaryOp .Multiply acc b) r2
            | .err _ => .err true
            | .out => .out
          else if c = '/' || c = '÷' then
            match pNegate fuel (dropSpaces rest) with
            | .ok b r2 => pMulLoop fuel (.BinaryOp .Divide acc b) r2
            | .err _ => .err true
            | .out => .out
          else if c = '%' then
            match pNegate fuel (dropSpaces rest) with
            | .ok b r2 => pMulLoop fuel (.BinaryOp .Modulo acc b) r2
            | .err _ => .err true
            | .out => .out
          else .ok acc (c :: rest)
      | [] => .ok acc []

/-- Mirrors `fn negate` from src/language/parser.rs: an optional leading
sign applied to `implicit_mul`; `-` wraps in `UnaryOp(Negate, _)`, `+` is
a no-op. -/
def pNegate : ℕ → List Char → PRes Expression
  | 0, _ => .out
  | fuel + 1, s =>
      match s with
      | [] =>
          (match pImplicitMul fuel [] with
           | .ok e r => .ok e (dropSpaces r)
           | .err b => .err b
           | .out => .out)
      | c :: rest =>
          if c = '-' then
            match pImplicitMul fuel (dropSpaces rest) with
            | .ok e r => .ok (.UnaryOp .Negate e) (dropSpaces r)
            | .err _ => .err true
            | .out => .out
          else if c = '+' then
            match pImplicitMul fuel (dropSpaces rest) with
            | .ok e r => .ok e (dropSpaces r)
            | .err _ => .err true
            | .out => .out
          else
            match pImplicitMul fuel (c :: rest) with
            | .ok e r => .ok e (dropSpaces r)
            | .err b => .err b
            | .out => .out

/-- Mirrors `fn implicit_mul` from src/language/parser.rs:
`exp ( whitespace exp )*`, left-folded into multiplications. -/
def pImplicitMul : ℕ → List Char → PRes Expression
  | 0, _ => .out
  | fuel + 1, s =>
      match pExp fuel s with
      | .ok e r => pImplLoop fuel e r
      | .err b => .err b
      | .out => .out

/-- The `many(spaces().with(exp()))` loop of `fn implicit_mul` (if the
spaces consumed input and `exp` then failed without consuming, the item
failed after consuming, which aborts the `many`). -/
def pImplLoop : ℕ → Expression → List Char → PRes Expression
  | 0, _, _ => .out
  | fuel + 1, acc, s =>
      match pExp fuel (dropSpaces s) with
      | .ok b r2 => pImplLoop fuel (.BinaryOp .Multiply acc b) r2
      | .err true => .err true
      | .err false => if dropSpaces s = s then .ok acc s else .err true
      | .out => .out

/-- Mirrors `fn exp` from src/language/parser.rs:
`factorial ( ("^"|"**") factorial )*`, folded right-associatively. -/
def pExp : ℕ → List Char → PRes Expression
  | 0, _ => .out
  | fuel + 1, s =>
      match pFactorial fuel s with
      | .ok e r => pExpLoop fuel e [] r
      | .err b => .err b
      | .out => .out

/-- The `many` loop of `fn exp`, collecting the operand sequence
(`items` in order after the head). -/
def pExpLoop : ℕ → Expression → List Expression → List Char → PRes Expression
  | 0, _, _, _ => .out
  | fuel + 1, head, items, s =>
      match s with
      | [] => .ok (foldPower head items) []
      | c :: rest =>
          if c = '^' then
            match pFactorial fuel (dropSpaces rest) with
            | .ok b r2 => pExpLoop fuel head (items ++ [b]) r2
            | .err _ => .err true
            | .out => .out
          else if c = '*' then
            match rest with
            | c2 :: rest2 =>
                if c2 = '*' then
                  match pFactorial fuel (dropSpaces rest2) with
                  | .ok b r2 => pExpLoop fuel head (items ++ [b]) r2
                  | .err _ => .err true
                  | .out => .out
                else .ok (foldPower head items) (c :: c2 :: rest2)
            | [] => .ok (foldPower head items) [c]
          else .ok (foldPower head items) (c :: rest)

/-- Mirrors `fn factorial` from src/language/parser.rs: an atom with an
optional trailing `!`. -/
def pFactorial : ℕ → List Char → PRes Expression
  | 0, _ => .out
  | fuel + 1, s =>
      match pAtom fuel s with
      | .ok a r =>
          (match r with
           | [] => .ok a []
           | c :: rest =>
               if c = '!' then .ok (.UnaryOp .Factorial a) (dropSpaces rest)
               else .ok a (dropSpaces (c :: rest)))
      | .err b => .err b
      | .out => .out

/-- Mirrors `fn atom_` from src/language/parser.rs: parentheses, number,
function call (under `attempt`), or identifier. -/
def pAtom : ℕ → List Char → PRes Expression
  | 0, _ => .out
  | fuel + 1, s =>
      match pParens fuel s with
      | .ok e r => .ok e r
      | .err true => .err true
      | .out => .out
      | .err false =>
        match pNumber s with
        | .ok n r => .ok (.Number n) r
        | .err true => .err true
        | .out => .out
        | .err false =>
          match pApplyFunc fuel s with
          | .ok e r => .ok e r
          | .out => .out
          | .err _ =>
            match pIdent s with
            | .ok id r => .ok (.Variable id) r
            | .err b => .err b
            | .out => .out

/-- Mirrors `fn parens` from src/language/parser.rs:
`between(lex('('), lex(')'), lex(expr))`. -/
def pParens : ℕ → List Char → PRes Expression
  | 0, _ => .out
  | fuel + 1, s =>
      match s with
      | [] => .err false
      | c :: rest =>
          if c = '(' then
            match pExpr fuel (dropSpaces rest) with
            | .ok e r2 =>
                (match r2 with
                 | c2 :: r3 => if c2 = ')' then .ok e (dropSpaces r3) else .err true
                 | [] => .err true)
            | .err _ => .err true
            | .out => .out
          else .err false

/-- Mirrors `fn apply_func` from src/language/parser.rs: an identifier
followed by a parenthesized comma-separated expression list. -/
def pApplyFunc : ℕ → List Char → PRes Expression
  | 0, _ => .out
  | fuel + 1, s =>
      match pIdent s with
      | .err b => .err b
      | .out => .out
      | .ok name r1 =>
        match r1 with
        | [] => .err true
        | c :: r2 =>
            if c = '(' then
              match pArgs fuel (dropSpaces r2) with
              | .ok args r4 =>
                  (match r4 with
                   | c2 :: r5 => if c2 = ')' then .ok (.Function name args) (dropSpaces r5)
                                 else .err true
                   | [] => .err true)
              | .err _ => .err true
              | .out => .out
            else .err true

/-- The `sep_by(lex(expr), lex(','))` argument list of `fn apply_func`
(possibly empty). -/
def pArgs : ℕ → List Char → PRes (List Expression)
  | 0, _ => .out
  | fuel + 1, s =>
      match pExpr fuel s with
      | .err true => .err true
      | .err false => .ok [] s
      | .out => .out
      | .ok e r => pArgsLoop fuel [e] r

/-- The separator loop of the argument list. -/
def pArgsLoop : ℕ → List Expression → List Char → PRes (List Expression)
  | 0, _, _ => .out
  | fuel + 1, acc, s =>
      match s with
      | [] => .ok acc []
      | c :: rest =>
          if c = ',' then
            match pExpr fuel (dropSpaces rest) with
            | .ok e r2 => pArgsLoop fuel (acc ++ [e]) r2
            | .err _ => .err true
            | .out => .out
          else .ok acc (c :: rest)

end

mutual

/-- The `sep_by(lex(ident), lex(','))` parameter list of `fn def_func`
(possibly empty). -/
def pIdentList : ℕ → List Char → PRes (List Identifier)
  | 0, _ => .out
  | fuel + 1, s =>
      match pIdent s with
      | .err true => .err true
      | .err false => .ok [] s
      | .out => .out
      | .ok id r => pIdentListLoop fuel [id] r

/-- The separator loop of the parameter list. -/
def pIdentListLoop : ℕ → List Identifier → List Char → PRes (List Identifier)
  | 0, _, _ => .out
  | fuel + 1, acc, s =>
      match s with
      | [] => .ok acc []
      | c :: rest =>
          if c = ',' then
            match pIdent (dropSpaces rest) with
            | .ok id r2 => pIdentListLoop fuel (acc ++ [id]) r2
            | .err _ => .err true
            | .out => .out
          else .ok acc (c :: rest)

end

/-- Mirrors `fn assign_var` from src/language/parser.rs:
`ident "=" expr`. -/
def pAssignVar : ℕ → List Char → PRes VariableAssignment
  | 0, _ => .out
  | fuel + 1, s =>
      match pIdent s with
      | .err b => .err b
      | .out => .out
      | .ok name r1 =>
        match r1 with
        | [] => .err true
        | c :: r2 =>
            if c = '=' then
              match pExpr fuel (dropSpaces r2) with
              | .ok e r3 => .ok ⟨name, e⟩ r3
              | .err _ => .err true
              | .out => .out
            else .err true

/-- Mirrors `fn def_func` from src/language/parser.rs:
`ident "(" ident-list ")" "=" expr`. -/
def pDefFunc : ℕ → List Char → PRes FunctionDefinition
  | 0, _ => .out
  | fuel + 1, s =>
      match pIdent s with
      | .err b => .err b
      | .out => .out
      | .ok name r1 =>
        match r1 with
        | [] => .err true
        | c :: r2 =>
            if c = '(' then
              match pIdentList fuel (dropSpaces r2) with
              | .err _ => .err true
              | .out => .out
              | .ok args r4 =>
                match r4 with
                | [] => .err true
                | c2 :: r5 =>
                    if c2 = ')' then
                      match dropSpaces r5 with
                      | [] => .err true
                      | c3 :: r7 =>
                          if c3 = '=' then
                            match pExpr fuel (dropSpaces r7) with
                            | .ok e r9 => .ok ⟨name, args, e⟩ r9
                            | .err _ => .err true
                            | .out => .out
                          else .err true
                    else .err true
            else .err true

/-- Mirrors `fn stmt` from src/language/parser.rs: a function definition,
else (backtracking) a variable assignment, else an expression. -/
def pStmt : ℕ → List Char → PRes Statement
  | 0, _ => .out
  | fuel + 1, s =>
      match pDefFunc fuel s with
      | .ok d r => .ok (.FunctionDefinition d) (dropSpaces r)
      | .out => .out
      | .err _ =>
        match pAssignVar fuel s with
        | .ok a r => .ok (.VariableAssignment a) (dropSpaces r)
        | .out => .out
        | .err _ =>
          match pExpr fuel s with
          | .ok e r => .ok (.Expression e) (dropSpaces r)
          | .err b => .err b
          | .out => .out

/-- One element of the statement list:
`optional(spaces()).with(lex(optional(stmt())))`; it always succeeds
(with `none` for a blank statement) unless the statement fails after
consuming input. -/
def pStmtItem : ℕ → List Char → PRes (Option Statement)
  | 0, _ => .out
  | fuel + 1, s =>
      match pStmt fuel (dropSpaces s) with
      | .ok st r2 => .ok (some st) (dropSpaces r2)
      | .err true => .err true
      | .err false => .ok none (dropSpaces s)
      | .out => .out

/-- The statement separator of `fn stmt_list`: `;` (with trailing
whitespace), a line break, or a comment followed by a line break. -/
def pSep : List Char → PRes Unit
  | [] => .err false
  | c :: rest =>
      if c = ';' then .ok () (dropSpaces rest)
      else if c = '\n' then .ok () rest
      else if c = '\r' then
        match rest with
        | c2 :: r2 => if c2 = '\n' then .ok () r2 else .err false
        | [] => .err false
      else if c = '#' then
        match dropComment rest with
        | [] => .err false
        | c2 :: r2 =>
            if c2 = '\n' then .ok () r2
            else if c2 = '\r' then
              match r2 with
              | c3 :: r3 => if c3 = '\n' then .ok () r3 else .err false
              | [] => .err false
            else .err false
      else .err false

mutual

/-- The `sep_by` of `fn stmt_list`. -/
def pStmtList : ℕ → List Char → PRes (List (Option Statement))
  | 0, _ => .out
  | fuel + 1, s =>
      match pStmtItem fuel s with
      | .err b => .err b
      | .out => .out
      | .ok v r => pStmtListLoop fuel [v] r

/-- The separator loop of `fn stmt_list`. -/
def pStmtListLoop : ℕ → List (Option Statement) → List Char → PRes (List (Option Statement))
  | 0, _, _ => .out
  | fuel + 1, acc, s =>
      match pSep s with
      | .err true => .err true
      | .err false => .ok acc s
      | .out => .out
      | .ok _ r =>
        match pStmtItem fuel r with
        | .ok v r2 => pStmtListLoop fuel (acc ++ [v]) r2
        | .err _ => .err true
        | .out => .out

end

/-- Mirrors `fn stmt_list` from src/language/parser.rs: the separated
list, a trailing `;` or comment, and removal of the blank statements. -/
def pScript : ℕ → List Char → PRes (List Statement)
  | 0, _ => .out
  | fuel + 1, s =>
      match pStmtList fuel s with
      | .ok vs r =>
          (match r with
           | [] => .ok (vs.filterMap id) []
           | c :: rest =>
               if c = ';' then .ok (vs.filterMap id) (dropSpaces rest)
               else if c = '#' then .ok (vs.filterMap id) (dropComment rest)
               else .ok (vs.filterMap id) (c :: rest))
      | .err b => .err b
      | .out => .out

/-- Mirrors `pub fn parse` from src/language/parser.rs:
`lex(stmt_list()).skip(eof())` on the whole input (`none` models a parse
error; positions and messages are not modelled). -/
def parse (input : List Char) : Option (List Statement) :=
  match pScript (16 * input.length + 16) input with
  | .ok stmts r => if dropSpaces r = [] then some stmts else none
  | _ => none

example :
    parse "2^3^2".toList
      = some [.Expression (.BinaryOp .Power (.Number (.finite 2))
          (.BinaryOp .Power (.Number (.finite 3)) (.Number (.finite 2))))] := by
  rfl

/-- C4: parsing "2^3^2" produces the right-associative tree
`Power(2, Power(3, 2))` (the chain is folded from the right), and
evaluating it yields 512 — whereas the left-associative tree would yield
64. -/
theorem C4_power_right_associative :
    parse "2^3^2".toList
      = some [.Expression (.BinaryOp .Power (.Number (.finite 2))
          (.BinaryOp .Power (.Number (.finite 3)) (.Number (.finite 2))))] ∧
    EnvM.eval_expr (fun _ => 0) 10
        (.BinaryOp .Power (.Number (.finite 2))
          (.BinaryOp .Power (.Number (.finite 3)) (.Number (.finite 2))))
        EnvM.Environment.default EnvM.Environment.default 0
      = some (.ok (.finite 512, 0)) ∧
    EnvM.eval_expr (fun _ => 0) 10
        (.BinaryOp .Power (.BinaryOp .Power (.Number (.finite 2)) (.Number (.finite 3)))
          (.Number (.finite 2)))
        EnvM.Environment.default EnvM.Environment.default 0
      = some (.ok (.finite 64, 0)) ∧
    BinaryOp.apply .Power (.finite 3) (.finite 2) = .ok (.finite 9) ∧
    BinaryOp.apply .Power (.finite 2) (.finite 9) = .ok (.finite 512) := by
  refine ⟨by rfl, by decide, by decide, by decide, by decide⟩

/-- The remainder is a suffix of the input. -/
def Suf (s r : List Char) : Prop := ∃ t, s = t ++ r

theorem Suf.refl (s : List Char) : Suf s s := ⟨[], rfl⟩

theorem Suf.trans {s r u : List Char} (h1 : Suf s r) (h2 : Suf r u) : Suf s u := by
  obtain ⟨t1, rfl⟩ := h1
  obtain ⟨t2, rfl⟩ := h2
  exact ⟨t1 ++ t2, by rw [List.append_assoc]⟩

theorem Suf.cons (c : Char) (s : List Char) : Suf (c :: s) s := ⟨[c], rfl⟩

theorem Suf.cons2 (c d : Char) (s : List Char) : Suf (c :: d :: s) s := ⟨[c, d], rfl⟩

theorem Suf.length_le {s r : List Char} (h : Suf s r) : r.length ≤ s.length := by
  obtain ⟨t, rfl⟩ := h
  simp

theorem Suf.mem {s r : List Char} (h : Suf s r) {c : Char} (hc : c ∈ r) : c ∈ s := by
  obtain ⟨t, rfl⟩ := h
  exact List.mem_append_right t hc

theorem suf_dropSpaces (s : List Char) : Suf s (dropSpaces s) := by
  induction s with
  | nil => exact ⟨[], rfl⟩
  | cons c rest ih =>
      by_cases h : isSpaceChar c
      · simp only [dropSpaces, h, if_true]
        exact (Suf.cons c rest).trans ih
      · simp only [dropSpaces, h, if_false]
        exact Suf.refl _

theorem suf_dropComment (s : List Char) : Suf s (dropComment s) := by
  induction s with
  | nil => exact ⟨[], rfl⟩
  | cons c rest ih =>
      by_cases h : (c = '\n' || c = '\r') = true
      · simp only [dropComment, h, if_true]
        exact Suf.refl _
      · simp only [dropComment, h, if_false]
        exact (Suf.cons c rest).trans ih

theorem suf_scanDigits (s : List Char) : Suf s (scanDigits s).2 := by
  induction s with
  | nil => exact Suf.refl _
  | cons c rest ih =>
      by_cases h : isDigitChar c
      · simp only [scanDigits, h, if_true]
        exact (Suf.cons c rest).trans ih
      · simp only [scanDigits, h, if_false]
        exact Suf.refl _

theorem suf_scanIdent (s : List Char) : Suf s (scanIdent s).2 := by
  induction s with
  | nil => exact Suf.refl _
  | cons c rest ih =>
      by_cases h : isIdentChar c
      · simp only [scanIdent, h, if_true]
        exact (Suf.cons c rest).trans ih
      · simp only [scanIdent, h, if_false]
        exact Suf.refl _

theorem suf_pIdent {s : List Char} {a : Identifier} {r : List Char}
    (h : pIdent s = .ok a r) : Suf s r := by
  cases s with
  | nil => simp [pIdent] at h
  | cons c rest =>
      by_cases hc : isIdentStartChar c
      · simp only [pIdent, hc, if_true] at h
        cases h
        exact ((Suf.cons c rest).trans (suf_scanIdent rest)).trans (suf_dropSpaces _)
      · simp [pIdent, hc] at h

theorem suf_signSplit (s : List Char) : Suf s (signSplit s).2 := by
  cases s with
  | nil => exact Suf.refl _
  | cons c2 r =>
      by_cases h2 : c2 = '+'
      · simp only [signSplit, h2, if_true]
        exact Suf.cons _ _
      · by_cases h3 : c2 = '-'
        · simp only [signSplit, h2, h3, if_true, if_false]
          exact Suf.cons _ _
        · simp only [signSplit, h2, h3, if_false]
          exact Suf.refl _

theorem suf_pNumberExp {intD fracD : List Char} {s : List Char} {a : Number} {r : List Char}
    (h : pNumberExp intD fracD s = .ok a r) : Suf s r := by
  cases s with
  | nil =>
      simp only [pNumberExp] at h
      cases h
      exact Suf.refl _
  | cons c rest =>
      by_cases hc : (c = 'e' || c = 'E') = true
      · simp only [pNumberExp, hc, if_true] at h
        by_cases hE : (scanDigits (signSplit rest).2).1.isEmpty = true
        · simp [hE] at h
        · simp only [hE, if_false] at h
          cases h
          exact (((Suf.cons c rest).trans (suf_signSplit rest)).trans
            (suf_scanDigits _)).trans (suf_dropSpaces _)
      · simp only [pNumberExp, hc, if_false] at h
        cases h
        exact suf_dropSpaces _

theorem suf_pNumber {s : List Char} {a : Number} {r : List Char}
    (h : pNumber s = .ok a r) : Suf s r := by
  cases s with
  | nil => simp [pNumber] at h
  | cons c rest =>
      by_cases hdot : c = '.'
      · subst hdot
        simp only [pNumber, if_true] at h
        by_cases hE : (scanDigits rest).1.isEmpty = true
        · simp [hE] at h
        · simp only [hE, if_false] at h
          exact ((Suf.cons '.' rest).trans (suf_scanDigits rest)).trans (suf_pNumberExp h)
      · by_cases hd : isDigitChar c = true
        · simp only [pNumber, hdot, hd, if_true, if_false] at h
          have s1 := (Suf.cons c rest).trans (suf_scanDigits rest)
          split at h
          · rename_i c2 r2 heq
            rw [heq] at s1
            split at h
            · rename_i hc2
              subst hc2
              exact (s1.trans ((Suf.cons '.' r2).trans (suf_scanDigits r2))).trans
                (suf_pNumberExp h)
            · exact s1.trans (suf_pNumberExp h)
          · rename_i heq
            rw [heq] at s1
            exact s1.trans (suf_pNumberExp h)
        · simp [pNumber, hdot, hd] at h

/-- Manual unfolding equation for `pExpLoop` at successor fuel (the
automatic unfold theorem is not generated for this nested match). -/
theorem pExpLoop_succ (fuel : ℕ) (head : Expression) (items : List Expression)
    (s : List Char) :
    pExpLoop (fuel + 1) head items s =
      match s with
      | [] => .ok (foldPower head items) []
      | c :: rest =>
          if c = '^' then
            match pFactorial fuel (dropSpaces rest) with
            | .ok b r2 => pExpLoop fuel head (items ++ [b]) r2
            | .err _ => .err true
            | .out => .out
          else if c = '*' then
            match rest with
            | c2 :: rest2 =>
                if c2 = '*' then
                  match pFactorial fuel (dropSpaces rest2) with
                  | .ok b r2 => pExpLoop fuel head (items ++ [b]) r2
                  | .err _ => .err true
                  | .out => .out
                else .ok (foldPower head items) (c :: c2 :: rest2)
            | [] => .ok (foldPower head items) [c]
          else .ok (foldPower head items) (c :: rest) := rfl

/-- Suffix facts for the expression grammar at a given fuel: every
successful parse leaves a suffix of its input. -/
structure SufExprPack (fuel : ℕ) : Prop where
  expr : ∀ s a r, pExpr fuel s = .ok a r → Suf s r
  add : ∀ s a r, pAdd fuel s = .ok a r → Suf s r
  addLoop : ∀ acc s a r, pAddLoop fuel acc s = .ok a r → Suf s r
  mul : ∀ s a r, pMul fuel s = .ok a r → Suf s r
  mulLoop : ∀ acc s a r, pMulLoop fuel acc s = .ok a r → Suf s r
  neg : ∀ s a r, pNegate fuel s = .ok a r → Suf s r
  impl : ∀ s a r, pImplicitMul fuel s = .ok a r → Suf s r
  implLoop : ∀ acc s a r, pImplLoop fuel acc s = .ok a r → Suf s r
  pow : ∀ s a r, pExp fuel s = .ok a r → Suf s r
  powLoop : ∀ hd items s a r, pExpLoop fuel hd items s = .ok a r → Suf s r
  fact : ∀ s a r, pFactorial fuel s = .ok a r → Suf s r
  atom : ∀ s a r, pAtom fuel s = .ok a r → Suf s r
  parens : ∀ s a r, pParens fuel s = .ok a r → Suf s r
  call : ∀ s a r, pApplyFunc fuel s = .ok a r → Suf s r
  args : ∀ s a r, pArgs fuel s = .ok a r → Suf s r
  argsLoop : ∀ acc s a r, pArgsLoop fuel acc s = .ok a r → Suf s r

theorem sufExprPack : ∀ fuel, SufExprPack fuel := by
  intro fuel
  induction fuel with
  | zero =>
      refine ⟨?_, ?_, ?_, ?_, ?_, ?_, ?_, ?_, ?_, ?_, ?_, ?_, ?_, ?_, ?_, ?_⟩ <;>
        intros <;> simp_all [pExpr, pAdd, pAddLoop, pMul, pMulLoop, pNegate, pImplicitMul,
          pImplLoop, pExp, pExpLoop, pFactorial, pAtom, pParens, pApplyFunc, pArgs, pArgsLoop]
  | succ fuel ih =>
      have hexpr : ∀ s a r, pExpr (fuel + 1) s = .ok a r → Suf s r := by
        intro s a r h
        unfold pExpr at h
        rcases hE : pAdd fuel s with ⟨e, r0⟩ | b | _ <;> rw [hE] at h <;> simp at h
        obtain ⟨rfl, rfl⟩ := h
        exact (ih.add _ _ _ hE).trans (suf_dropSpaces _)
      have hadd : ∀ s a r, pAdd (fuel + 1) s = .ok a r → Suf s r := by
        intro s a r h
        unfold pAdd at h
        rcases hE : pMul fuel s with ⟨e, r0⟩ | b | _ <;> rw [hE] at h <;> simp at h
        exact (ih.mul _ _ _ hE).trans (ih.addLoop _ _ _ _ h)
      have haddLoop : ∀ acc s a r, pAddLoop (fuel + 1) acc s = .ok a r → Suf s r := by
        intro acc s a r h
        unfold pAddLoop at h
        split at h
        · simp at h
          obtain ⟨rfl, rfl⟩ := h
          exact Suf.refl _
        · rename_i c rest
          split at h
          · rcases hE : pMul fuel (dropSpaces rest) with ⟨e, r2⟩ | b | _ <;> rw [hE] at h <;>
              simp at h
            exact ((Suf.cons c rest).trans (suf_dropSpaces rest)).trans
              ((ih.mul _ _ _ hE).trans (ih.addLoop _ _ _ _ h))
          · split at h
            · rcases hE : pMul fuel (dropSpaces rest) with ⟨e, r2⟩ | b | _ <;> rw [hE] at h <;>
                simp at h
              exact ((Suf.cons c rest).trans (suf_dropSpaces rest)).trans
                ((ih.mul _ _ _ hE).trans (ih.addLoop _ _ _ _ h))
            · simp at h
              obtain ⟨rfl, rfl⟩ := h
              exact Suf.refl _
      have hmul : ∀ s a r, pMul (fuel + 1) s = .ok a r → Suf s r := by
        intro s a r h
        unfold pMul at h
        rcases hE : pNegate fuel s with ⟨e, r0⟩ | b | _ <;> rw [hE] at h <;> simp at h
        exact (ih.neg _ _ _ hE).trans (ih.mulLoop _ _ _ _ h)
      have hmulLoop : ∀ acc s a r, pMulLoop (fuel + 1) acc s = .ok a r → Suf s r := by
        intro acc s a r h
        unfold pMulLoop at h
        split at h
        · rename_i c rest
          split at h
          · rcases hE : pNegate fuel (dropSpaces rest) with ⟨e, r2⟩ | b | _ <;> rw [hE] at h <;>
              simp at h
            exact ((Suf.cons c rest).trans (suf_dropSpaces rest)).trans
              ((ih.neg _ _ _ hE).trans (ih.mulLoop _ _ _ _ h))
          · split at h
            · rcases hE : pNegate fuel (dropSpaces rest) with ⟨e, r2⟩ | b | _ <;> rw [hE] at h <;>
                simp at h
              exact ((Suf.cons c rest).trans (suf_dropSpaces rest)).trans
                ((ih.neg _ _ _ hE).trans (ih.mulLoop _ _ _ _ h))
            · split at h
              · rcases hE : pNegate fuel (dropSpaces rest) with ⟨e, r2⟩ | b | _ <;> rw [hE] at h <;>
                  simp at h
                exact ((Suf.cons c rest).trans (suf_dropSpaces rest)).trans
                  ((ih.neg _ _ _ hE).trans (ih.mulLoop _ _ _ _ h))
              · simp at h
                obtain ⟨rfl, rfl⟩ := h
                exact Suf.refl _
        · simp at h
          obtain ⟨rfl, rfl⟩ := h
          exact Suf.refl _
      have hneg : ∀ s a r, pNegate (fuel + 1) s = .ok a r → Suf s r := by
        intro s a r h
        unfold pNegate at h
        split at h
        · rcases hE : pImplicitMul fuel [] with ⟨e, r0⟩ | b | _ <;> rw [hE] at h <;> simp at h
          obtain ⟨rfl, rfl⟩ := h
          exact (ih.impl _ _ _ hE).trans (suf_dropSpaces _)
        · rename_i c rest
          split at h
          · rcases hE : pImplicitMul fuel (dropSpaces rest) with ⟨e, r0⟩ | b | _ <;>
              rw [hE] at h <;> simp at h
            obtain ⟨rfl, rfl⟩ := h
            exact ((Suf.cons c rest).trans (suf_dropSpaces rest)).trans
              ((ih.impl _ _ _ hE).trans (suf_dropSpaces _))
          · split at h
            · rcases hE : pImplicitMul fuel (dropSpaces rest) with ⟨e, r0⟩ | b | _ <;>
                rw [hE] at h <;> simp at h
              obtain ⟨rfl, rfl⟩ := h
              exact ((Suf.cons c rest).trans (suf_dropSpaces rest)).trans
                ((ih.impl _ _ _ hE).trans (suf_dropSpaces _))
            · rcases hE : pImplicitMul fuel (c :: rest) with ⟨e, r0⟩ | b | _ <;>
                rw [hE] at h <;> simp at h
              obtain ⟨rfl, rfl⟩ := h
              exact (ih.impl _ _ _ hE).trans (suf_dropSpaces _)
      have himpl : ∀ s a r, pImplicitMul (fuel + 1) s = .ok a r → Suf s r := by
        intro s a r h
        unfold pImplicitMul at h
        rcases hE : pExp fuel s with ⟨e, r0⟩ | b | _ <;> rw [hE] at h <;> simp at h
        exact (ih.pow _ _ _ hE).trans (ih.implLoop _ _ _ _ h)
      have himplLoop : ∀ acc s a r, pImplLoop (fuel + 1) acc s = .ok a r → Suf s r := by
        intro acc s a r h
        unfold pImplLoop at h
        rcases hE : pExp fuel (dropSpaces s) with ⟨e, r2⟩ | b | _ <;> rw [hE] at h
        · simp at h
          exact ((suf_dropSpaces s).trans (ih.pow _ _ _ hE)).trans (ih.implLoop _ _ _ _ h)
        · cases b
          · simp only at h
            by_cases hds : dropSpaces s = s
            · rw [if_pos hds] at h
              simp at h
              obtain ⟨rfl, rfl⟩ := h
              exact Suf.refl _
            · rw [if_neg hds] at h
              simp at h
          · simp at h
        · simp at h
      have hpow : ∀ s a r, pExp (fuel + 1) s = .ok a r → Suf s r := by
        intro s a r h
        unfold pExp at h
        rcases hE : pFactorial fuel s with ⟨e, r0⟩ | b | _ <;> rw [hE] at h <;> simp at h
        exact (ih.fact _ _ _ hE).trans (ih.powLoop _ _ _ _ _ h)
      have hpowLoop : ∀ hd items s a r, pExpLoop (fuel + 1) hd items s = .ok a r → Suf s r := by
        intro hd items s a r h
        rw [pExpLoop_succ] at h
        split at h
        · simp at h
          obtain ⟨rfl, rfl⟩ := h
          exact Suf.refl _
        · rename_i c rest
          split at h
          · rcases hE : pFactorial fuel (dropSpaces rest) with ⟨e, r2⟩ | b | _ <;> rw [hE] at h <;>
              simp at h
            exact ((Suf.cons c rest).trans (suf_dropSpaces rest)).trans
              ((ih.fact _ _ _ hE).trans (ih.powLoop _ _ _ _ _ h))
          · split at h
            · split at h
              · rename_i c2 rest2
                split at h
                · rcases hE : pFactorial fuel (dropSpaces rest2) with ⟨e, r2⟩ | b | _ <;>
                    rw [hE] at h <;> simp at h
                  exact ((Suf.cons2 c c2 rest2).trans (suf_dropSpaces rest2)).trans
                    ((ih.fact _ _ _ hE).trans (ih.powLoop _ _ _ _ _ h))
                · simp at h
                  obtain ⟨rfl, rfl⟩ := h
                  exact Suf.refl _
              · simp at h
                obtain ⟨rfl, rfl⟩ := h
                exact Suf.refl _
            · simp at h
              obtain ⟨rfl, rfl⟩ := h
              exact Suf.refl _
      have hfact : ∀ s a r, pFactorial (fuel + 1) s = .ok a r → Suf s r := by
        intro s a r h
        unfold pFactorial at h
        split at h
        · rename_i e r0 heq
          split at h
          · simp at h
            obtain ⟨rfl, rfl⟩ := h
            exact ih.atom _ _ _ heq
          · rename_i c rest
            split at h
            · simp at h
              obtain ⟨rfl, rfl⟩ := h
              exact ((ih.atom _ _ _ heq).trans (Suf.cons c rest)).trans (suf_dropSpaces rest)
            · simp at h
              obtain ⟨rfl, rfl⟩ := h
              exact (ih.atom _ _ _ heq).trans (suf_dropSpaces _)
        · simp at h
        · simp at h
      have hatom : ∀ s a r, pAtom (fuel + 1) s = .ok a r → Suf s r := by
        intro s a r h
        unfold pAtom at h
        rcases hP : pParens fuel s with ⟨e, r0⟩ | b | _ <;> rw [hP] at h
        · simp at h
          obtain ⟨rfl, rfl⟩ := h
          exact ih.parens _ _ _ hP
        · cases b
          · simp only at h
            rcases hN : pNumber s with ⟨n, r0⟩ | b2 | _ <;> rw [hN] at h
            · simp at h
              obtain ⟨rfl, rfl⟩ := h
              exact suf_pNumber hN
            · cases b2
              · simp only at h
                rcases hC : pApplyFunc fuel s with ⟨e, r0⟩ | b3 | _ <;> rw [hC] at h
                · simp at h
                  obtain ⟨rfl, rfl⟩ := h
                  exact ih.call _ _ _ hC
                · simp only at h
                  rcases hI : pIdent s with ⟨id, r0⟩ | b4 | _ <;> rw [hI] at h <;> simp at h
                  obtain ⟨rfl, rfl⟩ := h
                  exact suf_pIdent hI
                · simp at h
              · simp at h
            · simp at h
          · simp at h
        · simp at h
      have hparens : ∀ s a r, pParens (fuel + 1) s = .ok a r → Suf s r := by
        intro s a r h
        unfold pParens at h
        split at h
        · simp at h
        · rename_i c rest
          split at h
          · split at h
            · rename_i e r2 heq
              split at h
              · rename_i c2 r3
                split at h
                · simp at h
                  obtain ⟨rfl, rfl⟩ := h
                  exact (((Suf.cons c rest).trans (suf_dropSpaces rest)).trans
                    ((ih.expr _ _ _ heq).trans (Suf.cons c2 r3))).trans (suf_dropSpaces r3)
                · simp at h
              · simp at h
            · simp at h
            · simp at h
          · simp at h
      have hcall : ∀ s a r, pApplyFunc (fuel + 1) s = .ok a r → Suf s r := by
        intro s a r h
        unfold pApplyFunc at h
        split at h
        · simp at h
        · simp at h
        · rename_i name r1 heqI
          split at h
          · simp at h
          · rename_i c r2
            split at h
            · split at h
              · rename_i args r4 heqA
                split at h
                · rename_i c2 r5
                  split at h
                  · simp at h
                    obtain ⟨rfl, rfl⟩ := h
                    exact ((((suf_pIdent heqI).trans (Suf.cons c r2)).trans
                      (suf_dropSpaces r2)).trans
                      ((ih.args _ _ _ heqA).trans (Suf.cons c2 r5))).trans (suf_dropSpaces r5)
                  · simp at h
                · simp at h
              · simp at h
              · simp at h
            · simp at h
      have hargs : ∀ s a r, pArgs (fuel + 1) s = .ok a r → Suf s r := by
        intro s a r h
        unfold pArgs at h
        rcases hE : pExpr fuel s with ⟨e, r0⟩ | b | _ <;> rw [hE] at h
        · simp at h
          exact (ih.expr _ _ _ hE).trans (ih.argsLoop _ _ _ _ h)
        · cases b
          · simp at h
            obtain ⟨rfl, rfl⟩ := h
            exact Suf.refl _
          · simp at h
        · simp at h
      have hargsLoop : ∀ acc s a r, pArgsLoop (fuel + 1) acc s = .ok a r → Suf s r := by
        intro acc s a r h
        unfold pArgsLoop at h
        split at h
        · simp at h
          obtain ⟨rfl, rfl⟩ := h
          exact Suf.refl _
        · rename_i c rest
          split at h
          · rcases hE : pExpr fuel (dropSpaces rest) with ⟨e, r2⟩ | b | _ <;> rw [hE] at h <;>
              simp at h
            exact ((Suf.cons c rest).trans (suf_dropSpaces rest)).trans
              ((ih.expr _ _ _ hE).trans (ih.argsLoop _ _ _ _ h))
          · simp at h
            obtain ⟨rfl, rfl⟩ := h
            exact Suf.refl _
      exact ⟨hexpr, hadd, haddLoop, hmul, hmulLoop, hneg, himpl, himplLoop, hpow, hpowLoop,
        hfact, hatom, hparens, hcall, hargs, hargsLoop⟩

/-- Manual unfolding equation for `pIdentList` at successor fuel. -/
theorem pIdentList_succ (fuel : ℕ) (s : List Char) :
    pIdentList (fuel + 1) s =
      match pIdent s with
      | .err true => .err true
      | .err false => .ok [] s
      | .out => .out
      | .ok id r => pIdentListLoop fuel [id] r := rfl

/-- Manual unfolding equation for `pIdentListLoop` at successor fuel. -/
theorem pIdentListLoop_succ (fuel : ℕ) (acc : List Identifier) (s : List Char) :
    pIdentListLoop (fuel + 1) acc s =
      match s with
      | [] => .ok acc []
      | c :: rest =>
          if c = ',' then
            match pIdent (dropSpaces rest) with
            | .ok id r2 => pIdentListLoop fuel (acc ++ [id]) r2
            | .err _ => .err true
            | .out => .out
          else .ok acc (c :: rest) := rfl

/-- Manual unfolding equation for `pAssignVar` at successor fuel. -/
theorem pAssignVar_succ (fuel : ℕ) (s : List Char) :
    pAssignVar (fuel + 1) s =
      match pIdent s with
      | .err b => .err b
      | .out => .out
      | .ok name r1 =>
        match r1 with
        | [] => .err true
        | c :: r2 =>
            if c = '=' then
              match pExpr fuel (dropSpaces r2) with
              | .ok e r3 => .ok ⟨name, e⟩ r3
              | .err _ => .err true
              | .out => .out
            else .err true := rfl

/-- Manual unfolding equation for `pDefFunc` at successor fuel. -/
theorem pDefFunc_succ (fuel : ℕ) (s : List Char) :
    pDefFunc (fuel + 1) s =
      match pIdent s with
      | .err b => .err b
      | .out => .out
      | .ok name r1 =>
        match r1 with
        | [] => .err true
        | c :: r2 =>
            if c = '(' then
              match pIdentList fuel (dropSpaces r2) with
              | .err _ => .err true
              | .out => .out
              | .ok args r4 =>
                match r4 with
                | [] => .err true
                | c2 :: r5 =>
                    if c2 = ')' then
                      match dropSpaces r5 with
                      | [] => .err true
                      | c3 :: r7 =>
                          if c3 = '=' then
                            match pExpr fuel (dropSpaces r7) with
                            | .ok e r9 => .ok ⟨name, args, e⟩ r9
                            | .err _ => .err true
                            | .out => .out
                          else .err true
                    else .err true
            else .err true := rfl

/-- Manual unfolding equation for `pStmt` at successor fuel. -/
theorem pStmt_succ (fuel : ℕ) (s : List Char) :
    pStmt (fuel + 1) s =
      match pDefFunc fuel s with
      | .ok d r => .ok (.FunctionDefinition d) (dropSpaces r)
      | .out => .out
      | .err _ =>
        match pAssignVar fuel s with
        | .ok a r => .ok (.VariableAssignment a) (dropSpaces r)
        | .out => .out
        | .err _ =>
          match pExpr fuel s with
          | .ok e r => .ok (.Expression e) (dropSpaces r)
          | .err b => .err b
          | .out => .out := rfl

/-- Manual unfolding equation for `pStmtItem` at successor fuel. -/
theorem pStmtItem_succ (fuel : ℕ) (s : List Char) :
    pStmtItem (fuel + 1) s =
      match pStmt fuel (dropSpaces s) with
      | .ok st r2 => .ok (some st) (dropSpaces r2)
      | .err true => .err true
      | .err false => .ok none (dropSpaces s)
      | .out => .out := rfl

/-- Manual unfolding equation for `pSep` on a non-empty input. -/
theorem pSep_cons (c : Char) (rest : List Char) :
    pSep (c :: rest) =
      (if c = ';' then .ok () (dropSpaces rest)
      else if c = '\n' then .ok () rest
      else if c = '\r' then
        match rest with
        | c2 :: r2 => if c2 = '\n' then .ok () r2 else .err false
        | [] => .err false
      else if c = '#' then
        match dropComment rest with
        | [] => .err false
        | c2 :: r2 =>
            if c2 = '\n' then .ok () r2
            else if c2 = '\r' then
              match r2 with
              | c3 :: r3 => if c3 = '\n' then .ok () r3 else .err false
              | [] => .err false
            else .err false
      else .err false) := rfl

/-- Manual unfolding equation for `pStmtList` at successor fuel. -/
theorem pStmtList_succ (fuel : ℕ) (s : List Char) :
    pStmtList (fuel + 1) s =
      match pStmtItem fuel s with
      | .err b => .err b
      | .out => .out
      | .ok v r => pStmtListLoop fuel [v] r := rfl

/-- Manual unfolding equation for `pStmtListLoop` at successor fuel. -/
theorem pStmtListLoop_succ (fuel : ℕ) (acc : List (Option Statement)) (s : List Char) :
    pStmtListLoop (fuel + 1) acc s =
      match pSep s with
      | .err true => .err true
      | .err false => .ok acc s
      | .out => .out
      | .ok _ r =>
        match pStmtItem fuel r with
        | .ok v r2 => pStmtListLoop fuel (acc ++ [v]) r2
        | .err _ => .err true
        | .out => .out := rfl

/-- Manual unfolding equation for `pScript` at successor fuel. -/
theorem pScript_succ (fuel : ℕ) (s : List Char) :
    pScript (fuel + 1) s =
      match pStmtList fuel s with
      | .ok vs r =>
          (match r with
           | [] => .ok (vs.filterMap id) []
           | c :: rest =>
               if c = ';' then .ok (vs.filterMap id) (dropSpaces rest)
               else if c = '#' then .ok (vs.filterMap id) (dropComment rest)
               else .ok (vs.filterMap id) (c :: rest))
      | .err b => .err b
      | .out => .out := rfl

/-- Suffix facts for the parameter list of function definitions. -/
theorem suf_pIdentList_pack : ∀ fuel,
    (∀ s a r, pIdentList fuel s = .ok a r → Suf s r) ∧
    (∀ acc s a r, pIdentListLoop fuel acc s = .ok a r → Suf s r) := by
  intro fuel
  induction fuel with
  | zero =>
      constructor
      · intro s a r h
        exact PRes.noConfusion h
      · intro acc s a r h
        exact PRes.noConfusion h
  | succ fuel ih =>
      constructor
      · intro s a r h
        rw [pIdentList_succ] at h
        rcases hI : pIdent s with ⟨id, r0⟩ | b | _ <;> rw [hI] at h
        · simp only at h
          exact (suf_pIdent hI).trans (ih.2 _ _ _ _ h)
        · cases b <;> simp at h
          obtain ⟨rfl, rfl⟩ := h
          exact Suf.refl _
        · simp at h
      · intro acc s a r h
        rw [pIdentListLoop_succ] at h
        cases s with
        | nil =>
            simp at h
            obtain ⟨rfl, rfl⟩ := h
            exact Suf.refl _
        | cons c rest =>
            simp only at h
            rcases eq_or_ne c ',' with hc | hc
            · rw [if_pos hc] at h
              rcases hI : pIdent (dropSpaces rest) with ⟨id, r2⟩ | b | _ <;> rw [hI] at h <;>
                simp at h
              exact ((Suf.cons c rest).trans (suf_dropSpaces rest)).trans
                ((suf_pIdent hI).trans (ih.2 _ _ _ _ h))
            · rw [if_neg hc] at h
              simp at h
              obtain ⟨rfl, rfl⟩ := h
              exact Suf.refl _

/-- A successful variable-assignment parse leaves a suffix of its input. -/
theorem suf_pAssignVar : ∀ fuel s a r, pAssignVar fuel s = .ok a r → Suf s r := by
  intro fuel s a r h
  cases fuel with
  | zero => exact PRes.noConfusion h
  | succ fuel =>
      rw [pAssignVar_succ] at h
      rcases hI : pIdent s with ⟨name, r1⟩ | b | _ <;> rw [hI] at h
      · simp only at h
        cases r1 with
        | nil => simp at h
        | cons c r2 =>
            simp only at h
            rcases eq_or_ne c '=' with hc | hc
            · rw [if_pos hc] at h
              rcases hE : pExpr fuel (dropSpaces r2) with ⟨e, r3⟩ | b2 | _ <;> rw [hE] at h <;>
                simp at h
              obtain ⟨rfl, rfl⟩ := h
              exact (((suf_pIdent hI).trans (Suf.cons c r2)).trans (suf_dropSpaces r2)).trans
                ((sufExprPack fuel).expr _ _ _ hE)
            · rw [if_neg hc] at h
              simp at h
      · simp at h
      · simp at h

/-- A successful function-definition parse leaves a suffix of its input. -/
theorem suf_pDefFunc : ∀ fuel s a r, pDefFunc fuel s = .ok a r → Suf s r := by
  intro fuel s a r h
  cases fuel with
  | zero => exact PRes.noConfusion h
  | succ fuel =>
      rw [pDefFunc_succ] at h
      rcases hI : pIdent s with ⟨name, r1⟩ | b | _ <;> rw [hI] at h
      · simp only at h
        cases r1 with
        | nil => simp at h
        | cons c r2 =>
            simp only at h
            rcases eq_or_ne c '(' with hc | hc
            · rw [if_pos hc] at h
              rcases hL : pIdentList fuel (dropSpaces r2) with ⟨args, r4⟩ | b2 | _ <;>
                rw [hL] at h
              · simp only at h
                cases r4 with
                | nil => simp at h
                | cons c2 r5 =>
                    simp only at h
                    rcases eq_or_ne c2 ')' with hc2 | hc2
                    · rw [if_pos hc2] at h
                      rcases hD : dropSpaces r5 with _ | ⟨c3, r7⟩ <;> rw [hD] at h
                      · simp at h
                      · simp only at h
                        rcases eq_or_ne c3 '=' with hc3 | hc3
                        · rw [if_pos hc3] at h
                          rcases hE : pExpr fuel (dropSpaces r7) with ⟨e, r9⟩ | b3 | _ <;>
                            rw [hE] at h <;> simp at h
                          obtain ⟨rfl, rfl⟩ := h
                          exact ((((((suf_pIdent hI).trans (Suf.cons c r2)).trans
                            (suf_dropSpaces r2)).trans
                            ((suf_pIdentList_pack fuel).1 _ _ _ hL)).trans
                            (Suf.cons c2 r5)).trans
                            ((hD ▸ suf_dropSpaces r5).trans
                              ((Suf.cons c3 r7).trans (suf_dropSpaces r7)))).trans
                            ((sufExprPack fuel).expr _ _ _ hE)
                        · rw [if_neg hc3] at h
                          simp at h
                    · rw [if_neg hc2] at h
                      simp at h
              · simp at h
              · simp at h
            · rw [if_neg hc] at h
              simp at h
      · simp at h
      · simp at h

/-- A successful statement parse leaves a suffix of its input. -/
theorem suf_pStmt : ∀ fuel s a r, pStmt fuel s = .ok a r → Suf s r := by
  intro fuel s a r h
  cases fuel with
  | zero => exact PRes.noConfusion h
  | succ fuel =>
      rw [pStmt_succ] at h
      rcases hD : pDefFunc fuel s with ⟨d, r0⟩ | b | _ <;> rw [hD] at h
      · simp at h
        obtain ⟨rfl, rfl⟩ := h
        exact (suf_pDefFunc _ _ _ _ hD).trans (suf_dropSpaces _)
      · simp only at h
        rcases hA : pAssignVar fuel s with ⟨va, r0⟩ | b2 | _ <;> rw [hA] at h
        · simp at h
          obtain ⟨rfl, rfl⟩ := h
          exact (suf_pAssignVar _ _ _ _ hA).trans (suf_dropSpaces _)
        · simp only at h
          rcases hE : pExpr fuel s with ⟨e, r0⟩ | b3 | _ <;> rw [hE] at h <;> simp at h
          obtain ⟨rfl, rfl⟩ := h
          exact ((sufExprPack fuel).expr _ _ _ hE).trans (suf_dropSpaces _)
        · simp at h
      · simp at h

/-- A successful statement-item parse leaves a suffix of its input. -/
theorem suf_pStmtItem : ∀ fuel s a r, pStmtItem fuel s = .ok a r → Suf s r := by
  intro fuel s a r h
  cases fuel with
  | zero => exact PRes.noConfusion h
  | succ fuel =>
      rw [pStmtItem_succ] at h
      rcases hS : pStmt fuel (dropSpaces s) with ⟨st, r2⟩ | b | _ <;> rw [hS] at h
      · simp at h
        obtain ⟨rfl, rfl⟩ := h
        exact ((suf_dropSpaces s).trans (suf_pStmt _ _ _ _ hS)).trans (suf_dropSpaces _)
      · cases b
        · simp at h
          obtain ⟨rfl, rfl⟩ := h
          exact suf_dropSpaces s
        · simp at h
      · simp at h

/-- A successful separator parse leaves a suffix of its input. -/
theorem suf_pSep : ∀ s a r, pSep s = .ok a r → Suf s r := by
  intro s a r h
  cases s with
  | nil => exact PRes.noConfusion h
  | cons c rest =>
      rw [pSep_cons] at h
      rcases eq_or_ne c ';' with h1 | h1
      · rw [if_pos h1] at h
        simp at h
        obtain ⟨rfl, rfl⟩ := h
        exact (Suf.cons c rest).trans (suf_dropSpaces rest)
      · rw [if_neg h1] at h
        rcases eq_or_ne c '\n' with h2 | h2
        · rw [if_pos h2] at h
          simp at h
          obtain ⟨rfl, rfl⟩ := h
          exact Suf.cons _ _
        · rw [if_neg h2] at h
          rcases eq_or_ne c '\r' with h3 | h3
          · rw [if_pos h3] at h
            cases rest with
            | nil => simp at h
            | cons c2 r2 =>
                simp only at h
                rcases eq_or_ne c2 '\n' with h4 | h4
                · rw [if_pos h4] at h
                  simp at h
                  obtain ⟨rfl, rfl⟩ := h
                  exact Suf.cons2 _ _ _
                · rw [if_neg h4] at h
                  simp at h
          · rw [if_neg h3] at h
            rcases eq_or_ne c '#' with h5 | h5
            · rw [if_pos h5] at h
              rcases hC : dropComment rest with _ | ⟨c2, r2⟩ <;> rw [hC] at h
              · simp at h
              · simp only at h
                rcases eq_or_ne c2 '\n' with h6 | h6
                · rw [if_pos h6] at h
                  simp at h
                  obtain ⟨rfl, rfl⟩ := h
                  exact (Suf.cons c rest).trans
                    ((hC ▸ suf_dropComment rest).trans (Suf.cons _ _))
                · rw [if_neg h6] at h
                  rcases eq_or_ne c2 '\r' with h7 | h7
                  · rw [if_pos h7] at h
                    cases r2 with
                    | nil => simp at h
                    | cons c3 r3 =>
                        simp only at h
                        rcases eq_or_ne c3 '\n' with h8 | h8
                        · rw [if_pos h8] at h
                          simp at h
                          obtain ⟨rfl, rfl⟩ := h
                          exact (Suf.cons c rest).trans
                            ((hC ▸ suf_dropComment rest).trans (Suf.cons2 _ _ _))
                        · rw [if_neg h8] at h
                          simp at h
                  · rw [if_neg h7] at h
                    simp at h
            · rw [if_neg h5] at h
              simp at h

/-- Suffix facts for the statement list. -/
theorem suf_pStmtList_pack : ∀ fuel,
    (∀ s a r, pStmtList fuel s = .ok a r → Suf s r) ∧
    (∀ acc s a r, pStmtListLoop fuel acc s = .ok a r → Suf s r) := by
  intro fuel
  induction fuel with
  | zero =>
      constructor
      · intro s a r h
        exact PRes.noConfusion h
      · intro acc s a r h
        exact PRes.noConfusion h
  | succ fuel ih =>
      constructor
      · intro s a r h
        rw [pStmtList_succ] at h
        rcases hI : pStmtItem fuel s with ⟨v, r0⟩ | b | _ <;> rw [hI] at h
        · simp only at h
          exact (suf_pStmtItem _ _ _ _ hI).trans (ih.2 _ _ _ _ h)
        · simp at h
        · simp at h
      · intro acc s a r h
        rw [pStmtListLoop_succ] at h
        rcases hS : pSep s with ⟨u, r0⟩ | b | _ <;> rw [hS] at h
        · simp only at h
          rcases hI : pStmtItem fuel r0 with ⟨v, r2⟩ | b2 | _ <;> rw [hI] at h <;> simp at h
          exact (suf_pSep _ _ _ hS).trans
            ((suf_pStmtItem _ _ _ _ hI).trans (ih.2 _ _ _ _ h))
        · cases b
          · simp at h
            obtain ⟨rfl, rfl⟩ := h
            exact Suf.refl _
          · simp at h
        · simp at h

/-- A successful script parse leaves a suffix of its input. -/
theorem suf_pScript : ∀ fuel s a r, pScript fuel s = .ok a r → Suf s r := by
  intro fuel s a r h
  cases fuel with
  | zero => exact PRes.noConfusion h
  | succ fuel =>
      rw [pScript_succ] at h
      rcases hL : pStmtList fuel s with ⟨vs, r0⟩ | b | _ <;> rw [hL] at h
      · simp only at h
        cases r0 with
        | nil =>
            simp at h
            obtain ⟨rfl, rfl⟩ := h
            exact (suf_pStmtList_pack fuel).1 _ _ _ hL
        | cons c rest =>
            simp only at h
            rcases eq_or_ne c ';' with h1 | h1
            · rw [if_pos h1] at h
              simp at h
              obtain ⟨rfl, rfl⟩ := h
              exact ((suf_pStmtList_pack fuel).1 _ _ _ hL).trans
                ((Suf.cons c rest).trans (suf_dropSpaces rest))
            · rw [if_neg h1] at h
              rcases eq_or_ne c '#' with h2 | h2
              · rw [if_pos h2] at h
                simp at h
                obtain ⟨rfl, rfl⟩ := h
                exact ((suf_pStmtList_pack fuel).1 _ _ _ hL).trans
                  ((Suf.cons c rest).trans (suf_dropComment rest))
              · rw [if_neg h2] at h
                simp at h
                obtain ⟨rfl, rfl⟩ := h
                exact (suf_pStmtList_pack fuel).1 _ _ _ hL
      · simp at h
      · simp at h

deriving instance DecidableEq for VariableAssignment
deriving instance DecidableEq for FunctionDefinition
deriving instance DecidableEq for Statement

/-- Decimal digit character (only used for values below ten). -/
def digitChar : ℕ → Char
  | 0 => '0'
  | 1 => '1'
  | 2 => '2'
  | 3 => '3'
  | 4 => '4'
  | 5 => '5'
  | 6 => '6'
  | 7 => '7'
  | 8 => '8'
  | 9 => '9'
  | _ => '0'

/-- Decimal digit string of a positive natural number, most significant
digit first; the fuel bounds the digit count. -/
def natToCharsAux : ℕ → ℕ → List Char
  | 0, _ => []
  | _ + 1, 0 => []
  | fuel + 1, n => natToCharsAux fuel (n / 10) ++ [digitChar (n % 10)]

/-- Decimal digit string of a natural number, most significant digit
first (the integer part of ryu's output). -/
def natToChars (n : ℕ) : List Char :=
  if n = 0 then ['0'] else natToCharsAux n n

/-- `k` fraction digits of `m < 10 ^ k`, left-padded with zeros (the
fraction part of an exact decimal). -/
def fracDigits (k m : ℕ) : List Char :=
  List.replicate (k - (natToChars m).length) '0' ++ natToChars m

/-- Decimal rendering of a nonnegative reduced rational whose denominator
divides a power of ten: `impl Display for Number` in src/language.rs
prints the shortest decimal via ryu and strips a trailing `.0`; the model
prints the exact decimal expansion with `q.den` fraction digits (any
exact decimal spelling of the same value; the parser normalizes).  Values
outside this shape are never produced by the parser; they render as a
placeholder. -/
def decExpAux : ℕ → ℕ → ℕ → ℕ
  | 0, _, j => j
  | fuel + 1, d, j => if d ∣ 10 ^ j then j else decExpAux fuel d (j + 1)

/-- The least exponent `k` with `d ∣ 10 ^ k` (for denominators that
divide a power of ten; the search is fuel-bounded). -/
def decExp (d : ℕ) : ℕ := decExpAux (d + 1) d 0

def numChars (q : MRat) : List Char :=
  if q.den = 1 then natToChars q.num.toNat
  else
    natToChars (q.num.toNat * 10 ^ decExp q.den / q.den / 10 ^ decExp q.den) ++
      '.' :: fracDigits (decExp q.den)
        (q.num.toNat * 10 ^ decExp q.den / q.den % 10 ^ decExp q.den)

/-- Rendering of a `Number` (`F64`): only parser-produced finite decimals
matter; the other shapes are placeholders. -/
def F64.render : F64 → List Char
  | .finite q => numChars q
  | _ => ['0']

/-- The operator characters of `impl Display for BinaryOp` in
src/language.rs. -/
def BinaryOp.opChar : BinaryOp → Char
  | .Add => '+'
  | .Subtract => '-'
  | .Multiply => '×'
  | .Divide => '/'
  | .Modulo => '%'
  | .Power => '^'

/-- Whether `impl Display for Expression` wraps this subexpression when
it appears under a unary operator or a power (`UnaryOp(_, _) |
BinaryOp(_, _, _)` match arms). -/
def Expression.isUB : Expression → Bool
  | .UnaryOp _ _ => true
  | .BinaryOp _ _ _ => true
  | _ => false

/-- Whether the generic binary-display arm wraps a left operand:
`BinaryOp(sub_op, _, _) if sub_op.precedence() < op.precedence()`. -/
def Expression.wrapsL (p : ℕ) : Expression → Bool
  | .BinaryOp op _ _ => decide (op.precedence < p)
  | _ => false

/-- Whether the generic binary-display arm wraps a right operand:
`BinaryOp(sub_op, _, _) if sub_op.precedence() <= op.precedence()`. -/
def Expression.wrapsR (p : ℕ) : Expression → Bool
  | .BinaryOp op _ _ => decide (op.precedence ≤ p)
  | _ => false

mutual

/-- Mirrors `impl Display for Expression` from src/language.rs (colors
ignored). -/
def render : Expression → List Char
  | .Number n => n.render
  | .Variable x => x.data
  | .Function name args => name.data ++ '(' :: renderArgs args ++ [')']
  | .UnaryOp .Negate x =>
      '-' :: (if x.isUB then '(' :: render x ++ [')'] else render x)
  | .UnaryOp .Factorial x =>
      (if x.isUB then '(' :: render x ++ [')'] else render x) ++ ['!']
  | .BinaryOp .Power a b =>
      (if a.isUB then '(' :: render a ++ [')'] else render a) ++
        '^' :: (if b.isUB then '(' :: render b ++ [')'] else render b)
  | .BinaryOp op a b =>
      (if a.wrapsL op.precedence then '(' :: render a ++ [')'] else render a) ++
        ' ' :: op.opChar :: ' ' ::
        (if b.wrapsR op.precedence then '(' :: render b ++ [')'] else render b)

/-- The `", "`-joined argument list of a function-call display. -/
def renderArgs : List Expression → List Char
  | [] => []
  | [a] => render a
  | a :: rest => render a ++ ',' :: ' ' :: renderArgs rest

end

/-- The `", "`-joined parameter list of `impl Display for
FunctionDefinition`. -/
def renderParams : List Identifier → List Char
  | [] => []
  | [a] => a.data
  | a :: rest => a.data ++ ',' :: ' ' :: renderParams rest

/-- Mirrors `impl Display for Statement` (and the assignment/definition
displays) from src/language.rs. -/
def renderStmt : Statement → List Char
  | .Expression e => render e
  | .VariableAssignment va => va.name.data ++ ' ' :: '=' :: ' ' :: render va.expr
  | .FunctionDefinition fd =>
      fd.name.data ++ '(' :: renderParams fd.arg_names ++ ')' :: ' ' :: '=' :: ' ' ::
        render fd.expr

/-- Numbers the parser can produce: nonnegative exact decimals in lowest
terms (output shape of `MRat.norm` on a nonnegative decimal fraction). -/
def WFnum (n : Number) : Prop :=
  ∃ q : MRat, n = F64.finite q ∧ 0 ≤ q.num ∧ q.den ≠ 0 ∧
    Int.gcd q.num (q.den : ℤ) = 1 ∧ ∃ j, q.den ∣ 10 ^ j

/-- Identifiers the parser can produce: a letter/underscore head and
alphanumeric/underscore continuation. -/
def WFident (x : Identifier) : Prop :=
  ∃ c cs, x.data = c :: cs ∧ isIdentStartChar c = true ∧
    ∀ d ∈ cs, isIdentChar d = true

mutual

/-- Expressions the parser can produce (used to state the display/parse
round trip). -/
def WFexpr : Expression → Prop
  | .Number n => WFnum n
  | .Variable x => WFident x
  | .Function name args => WFident name ∧ WFlist args
  | .UnaryOp _ x => WFexpr x
  | .BinaryOp _ a b => WFexpr a ∧ WFexpr b

/-- All expressions of a list are well-formed. -/
def WFlist : List Expression → Prop
  | [] => True
  | a :: rest => WFexpr a ∧ WFlist rest

end

/-- Statements the parser can produce. -/
def WFstmt : Statement → Prop
  | .Expression e => WFexpr e
  | .VariableAssignment va => WFident va.name ∧ WFexpr va.expr
  | .FunctionDefinition fd =>
      WFident fd.name ∧ (∀ a ∈ fd.arg_names, WFident a) ∧ WFexpr fd.expr

theorem dropSpaces_cons_nonspace {c : Char} (h : isSpaceChar c = false) (t : List Char) :
    dropSpaces (c :: t) = c :: t := by
  simp [dropSpaces, h]

theorem dropSpaces_cons_space {c : Char} (h : isSpaceChar c = true) (t : List Char) :
    dropSpaces (c :: t) = dropSpaces t := by
  simp [dropSpaces, h]

theorem dropSpaces_head_nonspace : ∀ s c r, dropSpaces s = c :: r → isSpaceChar c = false := by
  intro s
  induction s with
  | nil => intro c r h; simp [dropSpaces] at h
  | cons c0 rest ih =>
      intro c r h
      by_cases hc : isSpaceChar c0
      · rw [dropSpaces_cons_space hc] at h
        exact ih _ _ h
      · rw [dropSpaces_cons_nonspace (by simpa using hc)] at h
        cases h
        simpa using hc

theorem dropSpaces_idem (s : List Char) : dropSpaces (dropSpaces s) = dropSpaces s := by
  induction s with
  | nil => rfl
  | cons c rest ih =>
      by_cases hc : isSpaceChar c
      · rw [dropSpaces_cons_space hc, ih]
      · rw [dropSpaces_cons_nonspace (by simpa using hc),
          dropSpaces_cons_nonspace (by simpa using hc)]

/-- Digit characters decode back to their value. -/
theorem digitChar_decode : ∀ m, m < 10 → (digitChar m).toNat - '0'.toNat = m := by
  intro m h
  interval_cases m <;> decide

theorem digitChar_isDigit : ∀ m, m < 10 → isDigitChar (digitChar m) = true := by
  intro m h
  interval_cases m <;> decide

theorem digitsToNat_append_singleton (xs : List Char) (d : Char) :
    digitsToNat (xs ++ [d]) = digitsToNat xs * 10 + (d.toNat - '0'.toNat) := by
  simp [digitsToNat]

theorem natToCharsAux_digits :
    ∀ fuel n, ∀ c ∈ natToCharsAux fuel n, isDigitChar c = true := by
  intro fuel
  induction fuel with
  | zero => intro n c h; simp [natToCharsAux] at h
  | succ fuel ih =>
      intro n c h
      cases n with
      | zero => simp [natToCharsAux] at h
      | succ m =>
          rw [natToCharsAux] at h
          · rcases List.mem_append.1 h with h1 | h1
            · exact ih _ _ h1
            · rw [List.mem_singleton] at h1
              subst h1
              exact digitChar_isDigit _ (Nat.mod_lt _ (by norm_num))
          · omega

theorem digitsToNat_natToCharsAux :
    ∀ fuel n, n < 10 ^ fuel → digitsToNat (natToCharsAux fuel n) = n := by
  intro fuel
  induction fuel with
  | zero =>
      intro n h
      interval_cases n
      rfl
  | succ fuel ih =>
      intro n h
      cases n with
      | zero => rfl
      | succ m =>
          rw [natToCharsAux, digitsToNat_append_singleton,
            digitChar_decode _ (Nat.mod_lt _ (by norm_num)),
            ih _ (by
              rw [Nat.div_lt_iff_lt_mul (by norm_num)]
              calc m + 1 < 10 ^ (fuel + 1) := h
              _ = 10 ^ fuel * 10 := by ring)]
          · omega
          · omega

theorem natToCharsAux_length :
    ∀ fuel n k, n < 10 ^ k → (natToCharsAux fuel n).length ≤ k := by
  intro fuel
  induction fuel with
  | zero => intro n k _; simp [natToCharsAux]
  | succ fuel ih =>
      intro n k h
      cases n with
      | zero => simp [natToCharsAux]
      | succ m =>
          cases k with
          | zero => omega
          | succ k =>
              rw [natToCharsAux]
              · have := ih ((m + 1) / 10) k (by
                  rw [Nat.div_lt_iff_lt_mul (by norm_num)]
                  calc m + 1 < 10 ^ (k + 1) := h
                  _ = 10 ^ k * 10 := by ring)
                simp only [List.length_append, List.length_singleton]
                omega
              · omega

theorem natToChars_digits (n : ℕ) : ∀ c ∈ natToChars n, isDigitChar c = true := by
  intro c h
  unfold natToChars at h
  split at h
  · rw [List.mem_singleton] at h
    subst h
    decide
  · exact natToCharsAux_digits _ _ _ h

theorem digitsToNat_natToChars (n : ℕ) : digitsToNat (natToChars n) = n := by
  unfold natToChars
  split
  · subst n
    rfl
  · have h10 : (1 : ℕ) < 10 := by norm_num
    exact digitsToNat_natToCharsAux n n (Nat.lt_pow_self h10 n)

theorem natToChars_ne_nil (n : ℕ) : natToChars n ≠ [] := by
  unfold natToChars
  split
  · simp
  · rename_i h
    cases n with
    | zero => exact absurd rfl h
    | succ m =>
        rw [natToCharsAux]
        · simp
        · omega

theorem natToChars_length (n k : ℕ) (h : n < 10 ^ k) (hk : 1 ≤ k) :
    (natToChars n).length ≤ k := by
  unfold natToChars
  split
  · simpa using hk
  · exact natToCharsAux_length _ _ _ h

theorem digitsToNat_replicate_zero (z : ℕ) (xs : List Char) :
    digitsToNat (List.replicate z '0' ++ xs) = digitsToNat xs := by
  induction z with
  | zero => rfl
  | succ z ih =>
      rw [List.replicate_succ]
      simpa [digitsToNat] using ih

theorem fracDigits_digitsToNat (k m : ℕ) : digitsToNat (fracDigits k m) = m := by
  rw [fracDigits, digitsToNat_replicate_zero, digitsToNat_natToChars]

theorem fracDigits_length (k m : ℕ) (h : m < 10 ^ k) (hk : 1 ≤ k) :
    (fracDigits k m).length = k := by
  rw [fracDigits]
  have := natToChars_length m k h hk
  simp only [List.length_append, List.length_replicate]
  omega

theorem fracDigits_digits (k m : ℕ) : ∀ c ∈ fracDigits k m, isDigitChar c = true := by
  intro c h
  rw [fracDigits, List.mem_append] at h
  rcases h with h | h
  · rw [List.eq_of_mem_replicate h]
    decide
  · exact natToChars_digits _ _ h

/-- The character after a token boundary is not a digit. -/
def headNotDigit : List Char → Prop
  | [] => True
  | c :: _ => isDigitChar c = false

/-- The character after a token boundary is not an identifier letter. -/
def headNotIdent : List Char → Prop
  | [] => True
  | c :: _ => isIdentChar c = false

theorem scanDigits_append (ds t : List Char) (hds : ∀ c ∈ ds, isDigitChar c = true)
    (ht : headNotDigit t) : scanDigits (ds ++ t) = (ds, t) := by
  induction ds with
  | nil =>
      match t with
      | [] => rfl
      | c :: rest =>
          simp only [List.nil_append, scanDigits]
          rw [if_neg]
          simpa [headNotDigit] using ht
  | cons d ds ih =>
      have hd : isDigitChar d = true := hds d (by simp)
      have ih2 := ih (fun c h => hds c (by simp [h]))
      simp only [List.cons_append, scanDigits, hd, if_true, List.append_eq, ih2]

theorem scanIdent_append (ds t : List Char) (hds : ∀ c ∈ ds, isIdentChar c = true)
    (ht : headNotIdent t) : scanIdent (ds ++ t) = (ds, t) := by
  induction ds with
  | nil =>
      match t with
      | [] => rfl
      | c :: rest =>
          simp only [List.nil_append, scanIdent]
          rw [if_neg]
          simpa [headNotIdent] using ht
  | cons d ds ih =>
      have hd : isIdentChar d = true := hds d (by simp)
      have ih2 := ih (fun c h => hds c (by simp [h]))
      simp only [List.cons_append, scanIdent, hd, if_true, List.append_eq, ih2]

/-- A divisor of a power of ten divides the power of ten with its own
exponent. -/
theorem dvd_pow_ten {d j : ℕ} (h : d ∣ 10 ^ j) : d ∣ 10 ^ d := by
  rcases Nat.eq_zero_or_pos d with rfl | hd
  · have : (10 : ℕ) ^ j = 0 := Nat.eq_zero_of_zero_dvd h
    simp at this
  · have hdne : d ≠ 0 := hd.ne'
    have hj : (10 : ℕ) ^ j ≠ 0 := by positivity
    have hpow : (10 : ℕ) ^ d ≠ 0 := by positivity
    rw [← Nat.factorization_le_iff_dvd hdne hpow]
    rw [← Nat.factorization_le_iff_dvd hdne hj] at h
    intro p
    have hp := h p
    rw [Nat.factorization_pow] at hp ⊢
    simp only [Finsupp.smul_apply, smul_eq_mul] at hp ⊢
    by_cases hten : (Nat.factorization 10) p = 0
    · rw [hten] at hp ⊢
      simpa using hp
    · have h1 : 1 ≤ (Nat.factorization 10) p := Nat.one_le_iff_ne_zero.2 hten
      have h2 : d.factorization p < d := Nat.factorization_lt p hdne
      calc d.factorization p ≤ d * 1 := by omega
      _ ≤ d * (Nat.factorization 10) p := Nat.mul_le_mul_left d h1

theorem decExpAux_correct :
    ∀ fuel d j, d ∣ 10 ^ (j + fuel) → d ∣ 10 ^ decExpAux fuel d j := by
  intro fuel
  induction fuel with
  | zero => intro d j h; simpa [decExpAux] using h
  | succ fuel ih =>
      intro d j h
      rw [decExpAux]
      split
      · assumption
      · exact ih d (j + 1) (by rw [show j + 1 + fuel = j + (fuel + 1) by omega]; exact h)

theorem decExp_dvd {d : ℕ} (h : ∃ j, d ∣ 10 ^ j) : d ∣ 10 ^ decExp d := by
  obtain ⟨j, hj⟩ := h
  have hd : d ∣ 10 ^ d := dvd_pow_ten hj
  exact decExpAux_correct (d + 1) d 0 (by
    refine hd.trans (pow_dvd_pow 10 (by omega)))

theorem decExpAux_ge : ∀ fuel d j, j ≤ decExpAux fuel d j := by
  intro fuel
  induction fuel with
  | zero => intro d j; simp [decExpAux]
  | succ fuel ih =>
      intro d j
      rw [decExpAux]
      split
      · exact le_refl _
      · exact le_trans (by omega) (ih d (j + 1))

theorem decExp_pos {d : ℕ} (hd : d ≠ 1) : 1 ≤ decExp d := by
  rw [decExp, decExpAux]
  split
  · rename_i h
    exact absurd (Nat.dvd_one.1 (by simpa using h)) hd
  · exact decExpAux_ge d d 1

theorem MRat.norm_one_den (m : ℤ) : MRat.norm m 1 = ⟨m, 1⟩ := by
  unfold MRat.norm
  rw [if_neg one_ne_zero]
  have hg : Int.gcd m 1 = 1 := by simp [Int.gcd]
  simp [hg, Int.tdiv_one]

theorem MRat.norm_cancel (a d u : ℕ) (huz : u ≠ 0) (hdz : d ≠ 0)
    (hg : Nat.gcd a d = 1) :
    MRat.norm ((a * u : ℕ) : ℤ) (d * u) = ⟨(a : ℤ), d⟩ := by
  unfold MRat.norm
  rw [if_neg (Nat.mul_ne_zero hdz huz)]
  have hgu : Int.gcd ((a * u : ℕ) : ℤ) ((d * u : ℕ) : ℤ) = u := by
    rw [Int.gcd_natCast_natCast, Nat.gcd_mul_right, hg, one_mul]
  have h1 : ((a * u : ℕ) : ℤ).tdiv ((u : ℕ) : ℤ) = (a : ℤ) := by
    rw [Int.natCast_mul]
    exact Int.mul_tdiv_cancel _ (Int.natCast_ne_zero.2 huz)
  have h2 : d * u / u = d := by
    rw [Nat.mul_div_assoc d (dvd_refl u), Nat.div_self (Nat.pos_of_ne_zero huz), mul_one]
  simp only [hgu, h1, h2]

theorem digit_ne_dot {c : Char} (h : isDigitChar c = true) : c ≠ '.' := by
  intro he
  subst he
  exact absurd h (by decide)

/-- Head condition after a complete numeric literal. -/
def numStop : List Char → Prop
  | [] => True
  | c :: _ => isDigitChar c = false ∧ c ≠ '.' ∧ c ≠ 'e' ∧ c ≠ 'E'

theorem numStop_headNotDigit {t : List Char} (h : numStop t) : headNotDigit t := by
  cases t with
  | nil => trivial
  | cons c r => exact h.1

theorem pNumberExp_no_exp (intD fracD : List Char) (t : List Char) (ht : numStop t) :
    pNumberExp intD fracD t = .ok (.finite (numValue intD fracD none)) (dropSpaces t) := by
  cases t with
  | nil => rfl
  | cons c rest =>
      obtain ⟨h1, h2, h3, h4⟩ := ht
      rw [pNumberExp, if_neg (by simp [h3, h4])]

/-- Head condition after a complete identifier token. -/
def identStop : List Char → Prop
  | [] => True
  | c :: _ => isIdentChar c = false

theorem pIdent_chars (x : Identifier) (hx : WFident x) (t : List Char) (ht : identStop t) :
    pIdent (x.data ++ t) = .ok x (dropSpaces t) := by
  obtain ⟨c, cs, hdata, hstart, hcs⟩ := hx
  rw [hdata, List.cons_append, pIdent, if_pos hstart,
    scanIdent_append cs t hcs (by cases t with | nil => trivial | cons c2 r => exact ht)]
  have hmk : String.mk (c :: cs) = x := by rw [← hdata]
  simp [hmk]

theorem pNumber_numChars (q : MRat) (h0 : 0 ≤ q.num) (hden : q.den ≠ 0)
    (hred : Int.gcd q.num (q.den : ℤ) = 1) (hdvd : ∃ j, q.den ∣ 10 ^ j)
    (t : List Char) (ht : numStop t) :
    pNumber (numChars q ++ t) = .ok (.finite q) (dropSpaces t) := by
  have hq : (⟨q.num, q.den⟩ : MRat) = q := rfl
  have hgnat : Nat.gcd q.num.toNat q.den = 1 := by
    have := hred
    rw [← Int.toNat_of_nonneg h0, Int.gcd_natCast_natCast] at this
    exact this
  by_cases hq1 : q.den = 1
  · rw [numChars, if_pos hq1]
    obtain ⟨c, cs, hnc⟩ : ∃ c cs, natToChars q.num.toNat = c :: cs := by
      rcases hh : natToChars q.num.toNat with _ | ⟨c, cs⟩
      · exact absurd hh (natToChars_ne_nil _)
      · exact ⟨c, cs, rfl⟩
    have hcd : isDigitChar c = true := natToChars_digits _ c (by rw [hnc]; simp)
    have hcsd : ∀ d ∈ cs, isDigitChar d = true := fun d hd =>
      natToChars_digits _ d (by rw [hnc]; simp [hd])
    rw [hnc, List.cons_append, pNumber, if_neg (digit_ne_dot hcd), if_pos hcd,
      scanDigits_append cs t hcsd (numStop_headNotDigit ht)]
    have hval : numValue (c :: cs) [] none = q := by
      rw [numValue]
      simp only [List.length_nil, pow_zero]
      rw [MRat.norm_one_den,
        show digitsToNat (c :: cs) * 1 + digitsToNat [] = q.num.toNat by
          rw [← hnc, digitsToNat_natToChars]; simp [digitsToNat],
        Int.toNat_of_nonneg h0, ← hq1]
    cases t with
    | nil =>
        simp only
        rw [pNumberExp_no_exp _ _ _ (by trivial), hval]
    | cons c2 r2 =>
        simp only
        rw [if_neg ht.2.1, pNumberExp_no_exp _ _ _ ht, hval]
  · rw [numChars, if_neg hq1]
    have hk1 : 1 ≤ decExp q.den := decExp_pos hq1
    obtain ⟨u, hu⟩ := decExp_dvd hdvd
    have hu0 : u ≠ 0 := by
      intro h
      rw [h, mul_zero] at hu
      exact absurd hu (by positivity)
    have hM : q.num.toNat * 10 ^ decExp q.den / q.den = q.num.toNat * u := by
      rw [hu, show q.num.toNat * (q.den * u) = q.num.toNat * u * q.den by ring,
        Nat.mul_div_assoc _ (dvd_refl q.den), Nat.div_self (Nat.pos_of_ne_zero hden), mul_one]
    obtain ⟨c, cs, hnc⟩ : ∃ c cs,
        natToChars (q.num.toNat * 10 ^ decExp q.den / q.den / 10 ^ decExp q.den) = c :: cs := by
      rcases hh : natToChars _ with _ | ⟨c, cs⟩
      · exact absurd hh (natToChars_ne_nil _)
      · exact ⟨c, cs, rfl⟩
    have hcd : isDigitChar c = true := natToChars_digits _ c (by rw [hnc]; simp)
    have hcsd : ∀ d ∈ cs, isDigitChar d = true := fun d hd =>
      natToChars_digits _ d (by rw [hnc]; simp [hd])
    have hfd : ∀ d ∈ fracDigits (decExp q.den)
        (q.num.toNat * 10 ^ decExp q.den / q.den % 10 ^ decExp q.den), isDigitChar d = true :=
      fracDigits_digits _ _
    rw [hnc]
    rw [show (c :: cs ++ '.' :: fracDigits (decExp q.den)
        (q.num.toNat * 10 ^ decExp q.den / q.den % 10 ^ decExp q.den)) ++ t =
        c :: (cs ++ '.' :: (fracDigits (decExp q.den)
          (q.num.toNat * 10 ^ decExp q.den / q.den % 10 ^ decExp q.den) ++ t)) by simp]
    rw [pNumber, if_neg (digit_ne_dot hcd), if_pos hcd,
      scanDigits_append cs _ hcsd (by exact (by decide : isDigitChar '.' = false))]
    simp only
    rw [if_pos (by trivial), scanDigits_append _ t hfd (numStop_headNotDigit ht),
      pNumberExp_no_exp _ _ _ ht]
    have hval : numValue (c :: cs)
        (fracDigits (decExp q.den)
          (q.num.toNat * 10 ^ decExp q.den / q.den % 10 ^ decExp q.den)) none = q := by
      simp only [numValue]
      rw [fracDigits_length _ _ (Nat.mod_lt _ (by positivity)) hk1,
        show digitsToNat (c :: cs) =
          q.num.toNat * 10 ^ decExp q.den / q.den / 10 ^ decExp q.den by
          rw [← hnc, digitsToNat_natToChars],
        fracDigits_digitsToNat]
      rw [Nat.div_add_mod' (q.num.toNat * 10 ^ decExp q.den / q.den) (10 ^ decExp q.den)]
      rw [hM, hu, MRat.norm_cancel _ _ _ hu0 hden hgnat, Int.toNat_of_nonneg h0]
    rw [hval]

/-- Manual unfolding equation for `pExpr` at successor fuel. -/
theorem pExpr_succ (fuel : ℕ) (s : List Char) :
    pExpr (fuel + 1) s =
      match pAdd fuel s with
      | .ok e r => .ok e (dropSpaces r)
      | .err b => .err b
      | .out => .out := rfl

/-- Manual unfolding equation for `pAdd` at successor fuel. -/
theorem pAdd_succ (fuel : ℕ) (s : List Char) :
    pAdd (fuel + 1) s =
      match pMul fuel s with
      | .ok e r => pAddLoop fuel e r
      | .err b => .err b
      | .out => .out := rfl

/-- Manual unfolding equation for `pAddLoop` at successor fuel. -/
theorem pAddLoop_succ (fuel : ℕ) (acc : Expression) (s : List Char) :
    pAddLoop (fuel + 1) acc s =
      match s with
      | [] => .ok acc []
      | c :: rest =>
          if c = '+' then
            match pMul fuel (dropSpaces rest) with
            | .ok b r2 => pAddLoop fuel (.BinaryOp .Add acc b) r2
            | .err _ => .err true
            | .out => .out
          else if c = '-' then
            match pMul fuel (dropSpaces rest) with
            | .ok b r2 => pAddLoop fuel (.BinaryOp .Subtract acc b) r2
            | .err _ => .err true
            | .out => .out
          else .ok acc (c :: rest) := rfl

/-- Manual unfolding equation for `pMul` at successor fuel. -/
theorem pMul_succ (fuel : ℕ) (s : List Char) :
    pMul (fuel + 1) s =
      match pNegate fuel s with
      | .ok e r => pMulLoop fuel e r
      | .err b => .err b
      | .out => .out := rfl

/-- Manual unfolding equation for `pMulLoop` at successor fuel. -/
theorem pMulLoop_succ (fuel : ℕ) (acc : Expression) (s : List Char) :
    pMulLoop (fuel + 1) acc s =
      match s with
      | c :: rest =>
          if c = '*' || c = '·' || c = '×' then
            match pNegate fuel (dropSpaces rest) with
            | .ok b r2 => pMulLoop fuel (.BinaryOp .Multiply acc b) r2
            | .err _ => .err true
            | .out => .out
          else if c = '/' || c = '÷' then
            match pNegate fuel (dropSpaces rest) with
            | .ok b r2 => pMulLoop fuel (.BinaryOp .Divide acc b) r2
            | .err _ => .err true
            | .out => .out
          else if c = '%' then
            match pNegate fuel (dropSpaces rest) with
            | .ok b r2 => pMulLoop fuel (.BinaryOp .Modulo acc b) r2
            | .err _ => .err true
            | .out => .out
          else .ok acc (c :: rest)
      | [] => .ok acc [] := rfl

/-- Manual unfolding equation for `pNegate` at successor fuel. -/
theorem pNegate_succ (fuel : ℕ) (s : List Char) :
    pNegate (fuel + 1) s =
      match s with
      | [] =>
          (match pImplicitMul fuel [] with
           | .ok e r => .ok e (dropSpaces r)
           | .err b => .err b
           | .out => .out)
      | c :: rest =>
          if c = '-' then
            match pImplicitMul fuel (dropSpaces rest) with
            | .ok e r => .ok (.UnaryOp .Negate e) (dropSpaces r)
            | .err _ => .err true
            | .out => .out
          else if c = '+' then
            match pImplicitMul fuel (dropSpaces rest) with
            | .ok e r => .ok e (dropSpaces r)
            | .err _ => .err true
            | .out => .out
          else
            match pImplicitMul fuel (c :: rest) with
            | .ok e r => .ok e (dropSpaces r)
            | .err b => .err b
            | .out => .out := rfl

/-- Manual unfolding equation for `pImplicitMul` at successor fuel. -/
theorem pImplicitMul_succ (fuel : ℕ) (s : List Char) :
    pImplicitMul (fuel + 1) s =
      match pExp fuel s with
      | .ok e r => pImplLoop fuel e r
      | .err b => .err b
      | .out => .out := rfl

/-- Manual unfolding equation for `pImplLoop` at successor fuel. -/
theorem pImplLoop_succ (fuel : ℕ) (acc : Expression) (s : List Char) :
    pImplLoop (fuel + 1) acc s =
      match pExp fuel (dropSpaces s) with
      | .ok b r2 => pImplLoop fuel (.BinaryOp .Multiply acc b) r2
      | .err true => .err true
      | .err false => if dropSpaces s = s then .ok acc s else .err true
      | .out => .out := rfl

/-- Manual unfolding equation for `pExp` at successor fuel. -/
theorem pExp_succ (fuel : ℕ) (s : List Char) :
    pExp (fuel + 1) s =
      match pFactorial fuel s with
      | .ok e r => pExpLoop fuel e [] r
      | .err b => .err b
      | .out => .out := rfl

/-- Manual unfolding equation for `pFactorial` at successor fuel. -/
theorem pFactorial_succ (fuel : ℕ) (s : List Char) :
    pFactorial (fuel + 1) s =
      match pAtom fuel s with
      | .ok a r =>
          (match r with
           | [] => .ok a []
           | c :: rest =>
               if c = '!' then .ok (.UnaryOp .Factorial a) (dropSpaces rest)
               else .ok a (dropSpaces (c :: rest)))
      | .err b => .err b
      | .out => .out := rfl

/-- Manual unfolding equation for `pAtom` at successor fuel. -/
theorem pAtom_succ (fuel : ℕ) (s : List Char) :
    pAtom (fuel + 1) s =
      match pParens fuel s with
      | .ok e r => .ok e r
      | .err true => .err true
      | .out => .out
      | .err false =>
        match pNumber s with
        | .ok n r => .ok (.Number n) r
        | .err true => .err true
        | .out => .out
        | .err false =>
          match pApplyFunc fuel s with
          | .ok e r => .ok e r
          | .out => .out
          | .err _ =>
            match pIdent s with
            | .ok id r => .ok (.Variable id) r
            | .err b => .err b
            | .out => .out := rfl

/-- Manual unfolding equation for `pParens` at successor fuel. -/
theorem pParens_succ (fuel : ℕ) (s : List Char) :
    pParens (fuel + 1) s =
      match s with
      | [] => .err false
      | c :: rest =>
          if c = '(' then
            match pExpr fuel (dropSpaces rest) with
            | .ok e r2 =>
                (match r2 with
                 | c2 :: r3 => if c2 = ')' then .ok e (dropSpaces r3) else .err true
                 | [] => .err true)
            | .err _ => .err true
            | .out => .out
          else .err false := rfl

/-- Manual unfolding equation for `pApplyFunc` at successor fuel. -/
theorem pApplyFunc_succ (fuel : ℕ) (s : List Char) :
    pApplyFunc (fuel + 1) s =
      match pIdent s with
      | .err b => .err b
      | .out => .out
      | .ok name r1 =>
        match r1 with
        | [] => .err true
        | c :: r2 =>
            if c = '(' then
              match pArgs fuel (dropSpaces r2) with
              | .ok args r4 =>
                  (match r4 with
                   | c2 :: r5 => if c2 = ')' then .ok (.Function name args) (dropSpaces r5)
                                 else .err true
                   | [] => .err true)
              | .err _ => .err true
              | .out => .out
            else .err true := rfl

/-- Manual unfolding equation for `pArgs` at successor fuel. -/
theorem pArgs_succ (fuel : ℕ) (s : List Char) :
    pArgs (fuel + 1) s =
      match pExpr fuel s with
      | .err true => .err true
      | .err false => .ok [] s
      | .out => .out
      | .ok e r => pArgsLoop fuel [e] r := rfl

/-- Manual unfolding equation for `pArgsLoop` at successor fuel. -/
theorem pArgsLoop_succ (fuel : ℕ) (acc : List Expression) (s : List Char) :
    pArgsLoop (fuel + 1) acc s =
      match s with
      | [] => .ok acc []
      | c :: rest =>
          if c = ',' then
            match pExpr fuel (dropSpaces rest) with
            | .ok e r2 => pArgsLoop fuel (acc ++ [e]) r2
            | .err _ => .err true
            | .out => .out
          else .ok acc (c :: rest) := rfl

theorem space_cases {c : Char} (h : isSpaceChar c = true) : c = ' ' ∨ c = '\t' := by
  simp [isSpaceChar, Char.isWhitespace] at h
  tauto

theorem digit_not_space {c : Char} (h : isDigitChar c = true) : isSpaceChar c = false := by
  cases hb : isSpaceChar c with
  | false => rfl
  | true =>
      rcases space_cases hb with rfl | rfl <;> exact absurd h (by decide)

theorem identStart_not_space {c : Char} (h : isIdentStartChar c = true) :
    isSpaceChar c = false := by
  cases hb : isSpaceChar c with
  | false => rfl
  | true =>
      rcases space_cases hb with rfl | rfl <;> exact absurd h (by decide)

/-- Tail characters allowed directly after an atom-position render. -/
def tailSetA : List Char := [')', ',', '+', '-', '×', '/', '%', '^', '!']

/-- Tail characters after a factorial-position render (no `!`). -/
def tailSetF : List Char := [')', ',', '+', '-', '×', '/', '%', '^']

/-- Tail characters after a negate-position render (no `^`). -/
def tailSetM : List Char := [')', ',', '+', '-', '×', '/', '%']

/-- Tail characters after a mul-position render. -/
def tailSetAD : List Char := [')', ',', '+', '-']

/-- Tail characters after a full expression render. -/
def tailSetE : List Char := [')', ',']

/-- The next character (if any) is whitespace or belongs to `S`. -/
def headOk (S : List Char) : List Char → Prop
  | [] => True
  | c :: _ => isSpaceChar c = true ∨ c ∈ S

/-- Both the raw tail head and its space-stripped head are acceptable. -/
def TailOf (S : List Char) (t : List Char) : Prop := headOk S t ∧ headOk S (dropSpaces t)

theorem TailOf.nil (S : List Char) : TailOf S [] := ⟨trivial, trivial⟩

theorem headOk_mono {S1 S2 : List Char} (hs : ∀ c ∈ S1, c ∈ S2) {t : List Char}
    (h : headOk S1 t) : headOk S2 t := by
  cases t with
  | nil => trivial
  | cons c r =>
      rcases h with h | h
      · exact Or.inl h
      · exact Or.inr (hs c h)

theorem TailOf.mono {S1 S2 : List Char} (hs : ∀ c ∈ S1, c ∈ S2) {t : List Char}
    (h : TailOf S1 t) : TailOf S2 t :=
  ⟨headOk_mono hs h.1, headOk_mono hs h.2⟩

theorem TailOf.head_mem {S : List Char} {t c r} (h : TailOf S t)
    (he : dropSpaces t = c :: r) : c ∈ S := by
  have h2 := h.2
  rw [he] at h2
  rcases h2 with hs | hm
  · rw [dropSpaces_head_nonspace t c r he] at hs
    cases hs
  · exact hm

/-- Input head on which the atom parser fails without consuming. -/
def noAtomHead : List Char → Prop
  | [] => True
  | c :: _ => isDigitChar c = false ∧ c ≠ '.' ∧ isIdentStartChar c = false ∧ c ≠ '('

theorem tailSetA_atomfree : ∀ c ∈ tailSetA,
    isDigitChar c = false ∧ c ≠ '.' ∧ isIdentStartChar c = false ∧ c ≠ '(' := by decide

theorem tailSetA_tokfree : ∀ c ∈ tailSetA,
    isDigitChar c = false ∧ c ≠ '.' ∧ c ≠ 'e' ∧ c ≠ 'E' ∧ isIdentChar c = false := by decide

theorem noAtomHead_dropSpaces_of_A {t : List Char} (h : TailOf tailSetA t) :
    noAtomHead (dropSpaces t) := by
  rcases he : dropSpaces t with _ | ⟨c, r⟩
  · trivial
  · have := tailSetA_atomfree c (h.head_mem he)
    exact this

theorem numStop_of_A {t : List Char} (h : TailOf tailSetA t) : numStop t := by
  cases t with
  | nil => trivial
  | cons c r =>
      rcases h.1 with hs | hm
      · rcases space_cases hs with rfl | rfl <;> exact ⟨by decide, by decide, by decide, by decide⟩
      · have := tailSetA_tokfree c hm
        exact ⟨this.1, this.2.1, this.2.2.1, this.2.2.2.1⟩

theorem identStop_of_A {t : List Char} (h : TailOf tailSetA t) : identStop t := by
  cases t with
  | nil => trivial
  | cons c r =>
      rcases h.1 with hs | hm
      · rcases space_cases hs with rfl | rfl
        · exact (by decide : isIdentChar ' ' = false)
        · exact (by decide : isIdentChar '\t' = false)
      · exact (tailSetA_tokfree c hm).2.2.2.2

/-- Head on which the number parser fails without consuming. -/
def noNumHead : List Char → Prop
  | [] => True
  | c :: _ => isDigitChar c = false ∧ c ≠ '.'

/-- Head on which the identifier parser fails without consuming. -/
def noIdentHead : List Char → Prop
  | [] => True
  | c :: _ => isIdentStartChar c = false

/-- Head on which the parenthesis parser fails without consuming. -/
def noParenHead : List Char → Prop
  | [] => True
  | c :: _ => c ≠ '('

/-- The number parser fails without consuming on a non-number head. -/
theorem stopNumber {s : List Char} (hs : noNumHead s) : pNumber s = .err false := by
  cases s with
  | nil => rfl
  | cons c r =>
      obtain ⟨h1, h2⟩ := hs
      rw [pNumber, if_neg h2, if_neg (by simp [h1])]

/-- The identifier parser fails without consuming on a non-letter head. -/
theorem stopIdent {s : List Char} (hs : noIdentHead s) : pIdent s = .err false := by
  cases s with
  | nil => rfl
  | cons c r =>
      rw [pIdent, if_neg (by simp [show isIdentStartChar c = false from hs])]

/-- The parenthesis parser fails without consuming on a non-`(` head
(or runs out of fuel). -/
theorem stopParens {fuel : ℕ} {s : List Char} (hs : noParenHead s) :
    pParens fuel s = .err false ∨ pParens fuel s = .out := by
  cases fuel with
  | zero => exact Or.inr rfl
  | succ fuel =>
      cases s with
      | nil => exact Or.inl rfl
      | cons c r =>
          left
          rw [pParens_succ]
          simp only
          rw [if_neg hs]

/-- The atom parser fails without consuming on a stop head (or runs out
of fuel). -/
theorem stopAtom {fuel : ℕ} {s : List Char} (hs : noAtomHead s) :
    pAtom fuel s = .err false ∨ pAtom fuel s = .out := by
  have hsP : noParenHead s := by
    cases s with
    | nil => trivial
    | cons c r => exact hs.2.2.2
  have hsN : noNumHead s := by
    cases s with
    | nil => trivial
    | cons c r => exact ⟨hs.1, hs.2.1⟩
  have hsI : noIdentHead s := by
    cases s with
    | nil => trivial
    | cons c r => exact hs.2.2.1
  cases fuel with
  | zero => exact Or.inr rfl
  | succ fuel =>
      rw [pAtom_succ]
      rcases @stopParens fuel _ hsP with hP | hP <;> rw [hP]
      · simp only
        rw [stopNumber hsN]
        simp only
        rcases hA : pApplyFunc fuel s with ⟨e, r⟩ | b | _
        · cases fuel with
          | zero => exact absurd hA (by rw [show pApplyFunc 0 s = PRes.out from rfl]; simp)
          | succ fuel2 =>
              rw [pApplyFunc_succ, stopIdent hsI] at hA
              simp at hA
        · simp only
          rw [stopIdent hsI]
          exact Or.inl rfl
        · exact Or.inr rfl
      · exact Or.inr rfl

/-- The factorial parser fails without consuming on a stop head (or runs
out of fuel). -/
theorem stopFactorial {fuel : ℕ} {s : List Char} (hs : noAtomHead s) :
    pFactorial fuel s = .err false ∨ pFactorial fuel s = .out := by
  cases fuel with
  | zero => exact Or.inr rfl
  | succ fuel =>
      rw [pFactorial_succ]
      rcases @stopAtom fuel _ hs with hA | hA <;> rw [hA]
      · exact Or.inl rfl
      · exact Or.inr rfl

/-- The power-chain parser fails without consuming on a stop head (or
runs out of fuel). -/
theorem stopExp {fuel : ℕ} {s : List Char} (hs : noAtomHead s) :
    pExp fuel s = .err false ∨ pExp fuel s = .out := by
  cases fuel with
  | zero => exact Or.inr rfl
  | succ fuel =>
      rw [pExp_succ]
      rcases @stopFactorial fuel _ hs with hF | hF <;> rw [hF]
      · exact Or.inl rfl
      · exact Or.inr rfl

/-- The implicit-multiplication loop stops (with its accumulator) on a
space-free stop-headed remainder, or runs out of fuel. -/
theorem stopImplLoop {fuel : ℕ} {acc : Expression} {s : List Char} (hd : dropSpaces s = s)
    (hs : noAtomHead s) :
    pImplLoop fuel acc s = .ok acc s ∨ pImplLoop fuel acc s = .out := by
  cases fuel with
  | zero => exact Or.inr rfl
  | succ fuel =>
      rw [pImplLoop_succ, hd]
      rcases @stopExp fuel _ hs with hE | hE <;> rw [hE]
      · exact Or.inl (by simp)
      · exact Or.inr rfl

/-- The power-chain loop stops on a head that is neither `^` nor `**`. -/
theorem stopExpLoop {fuel : ℕ} {hd : Expression} {items : List Expression} {s : List Char}
    (hs : match s with
      | [] => True
      | c :: _ => c ≠ '^' ∧ c ≠ '*') :
    pExpLoop fuel hd items s = .ok (foldPower hd items) s ∨ pExpLoop fuel hd items s = .out := by
  cases fuel with
  | zero => exact Or.inr rfl
  | succ fuel =>
      rw [pExpLoop_succ]
      cases s with
      | nil => exact Or.inl rfl
      | cons c rest =>
          simp only
          rw [if_neg hs.1, if_neg hs.2]
          exact Or.inl rfl

/-- The `"({})"` wrap of `impl Display for Expression` for operands of
unary operators and powers. -/
def wrapA (e : Expression) : List Char :=
  if e.isUB then '(' :: render e ++ [')'] else render e

theorem render_neg (x : Expression) : render (.UnaryOp .Negate x) = '-' :: wrapA x := rfl

theorem render_fact (x : Expression) :
    render (.UnaryOp .Factorial x) = wrapA x ++ ['!'] := rfl

theorem render_pow (a b : Expression) :
    render (.BinaryOp .Power a b) = wrapA a ++ '^' :: wrapA b := rfl

/-- Whether an expression displays as an add-level operator chain. -/
def Expression.isAddSub : Expression → Bool
  | .BinaryOp .Add _ _ => true
  | .BinaryOp .Subtract _ _ => true
  | _ => false

/-- Whether an expression displays as a non-power binary chain (wrapped
as a right operand of `*`, `/`, `%` and at the head of a negate). -/
def Expression.isMulAdd : Expression → Bool
  | .BinaryOp .Power _ _ => false
  | .BinaryOp _ _ _ => true
  | _ => false

/-- The string a negate-position operand contributes to the display. -/
def renderNegPos (e : Expression) : List Char :=
  if e.isMulAdd then '(' :: render e ++ [')'] else render e

/-- The string a mul-position operand contributes to the display. -/
def renderMulPos (e : Expression) : List Char :=
  if e.isAddSub then '(' :: render e ++ [')'] else render e

theorem render_mul_eq (op : BinaryOp) (a b : Expression)
    (hop : op = .Multiply ∨ op = .Divide ∨ op = .Modulo) :
    render (.BinaryOp op a b) =
      renderMulPos a ++ ' ' :: op.opChar :: ' ' :: renderNegPos b := by
  have hL : ∀ x : Expression, x.wrapsL 1 = x.isAddSub := by
    intro x
    cases x with
    | BinaryOp op2 u v => cases op2 <;> rfl
    | _ => rfl
  have hR : ∀ x : Expression, x.wrapsR 1 = x.isMulAdd := by
    intro x
    cases x with
    | BinaryOp op2 u v => cases op2 <;> rfl
    | _ => rfl
  rcases hop with rfl | rfl | rfl <;>
    simp only [render, renderMulPos, renderNegPos, show BinaryOp.precedence .Multiply = 1 from rfl,
      show BinaryOp.precedence .Divide = 1 from rfl, show BinaryOp.precedence .Modulo = 1 from rfl,
      hL, hR] <;>
    cases hA : a.isAddSub <;> cases hB : b.isMulAdd <;> simp

theorem render_add_eq (op : BinaryOp) (a b : Expression)
    (hop : op = .Add ∨ op = .Subtract) :
    render (.BinaryOp op a b) = render a ++ ' ' :: op.opChar :: ' ' :: renderMulPos b := by
  have hL : ∀ x : Expression, x.wrapsL 0 = false := by
    intro x
    cases x with
    | BinaryOp op2 u v => cases op2 <;> rfl
    | _ => rfl
  have hR : ∀ x : Expression, x.wrapsR 0 = x.isAddSub := by
    intro x
    cases x with
    | BinaryOp op2 u v => cases op2 <;> rfl
    | _ => rfl
  rcases hop with rfl | rfl <;>
    simp only [render, renderMulPos, show BinaryOp.precedence .Add = 0 from rfl,
      show BinaryOp.precedence .Subtract = 0 from rfl, hL, hR] <;>
    cases hB : b.isAddSub <;> simp

/-- Good first characters of a rendered expression. -/
def goodHead (c : Char) : Prop :=
  c = '(' ∨ isDigitChar c = true ∨ isIdentStartChar c = true ∨ c = '-'

theorem goodHead_nonspace {c : Char} (h : goodHead c) : isSpaceChar c = false := by
  rcases h with rfl | h | h | rfl
  · decide
  · exact digit_not_space h
  · exact identStart_not_space h
  · decide

theorem numChars_head (q : MRat) :
    ∃ c r, numChars q = c :: r ∧ isDigitChar c = true := by
  unfold numChars
  split
  · rcases hh : natToChars q.num.toNat with _ | ⟨c, r⟩
    · exact absurd hh (natToChars_ne_nil _)
    · exact ⟨c, r, rfl, natToChars_digits _ c (by rw [hh]; simp)⟩
  · rcases hh : natToChars (q.num.toNat * 10 ^ decExp q.den / q.den / 10 ^ decExp q.den)
        with _ | ⟨c, r⟩
    · exact absurd hh (natToChars_ne_nil _)
    · refine ⟨c, r ++ '.' :: fracDigits (decExp q.den)
        (q.num.toNat * 10 ^ decExp q.den / q.den % 10 ^ decExp q.den), ?_, ?_⟩
      · simp [hh]
      · exact natToChars_digits _ c (by rw [hh]; simp)

theorem render_head : ∀ e, WFexpr e → ∃ c r, render e = c :: r ∧ goodHead c
  | .Number n, h => by
      obtain ⟨q, rfl, _⟩ := (h : WFnum n)
      obtain ⟨c, r, hcr, hd⟩ := numChars_head q
      exact ⟨c, r, hcr, Or.inr (Or.inl hd)⟩
  | .Variable x, h => by
      obtain ⟨c, cs, hdata, hstart, _⟩ := (h : WFident x)
      exact ⟨c, cs, hdata, Or.inr (Or.inr (Or.inl hstart))⟩
  | .Function name args, h => by
      obtain ⟨c, cs, hdata, hstart, _⟩ := (h : WFident name ∧ WFlist args).1
      refine ⟨c, cs ++ '(' :: renderArgs args ++ [')'], ?_, Or.inr (Or.inr (Or.inl hstart))⟩
      show name.data ++ '(' :: renderArgs args ++ [')'] = _
      rw [hdata]
      rfl
  | .UnaryOp .Negate x, h =>
      ⟨'-', wrapA x, rfl, Or.inr (Or.inr (Or.inr rfl))⟩
  | .UnaryOp .Factorial x, h => by
      rw [render_fact, wrapA]
      split
      · exact ⟨'(', render x ++ [')'] ++ ['!'], by simp, Or.inl rfl⟩
      · obtain ⟨c, r, hcr, hg⟩ := render_head x (h : WFexpr x)
        exact ⟨c, r ++ ['!'], by rw [hcr]; rfl, hg⟩
  | .BinaryOp op a b, h => by
      cases op with
      | Power =>
          rw [render_pow, wrapA]
          split
          · exact ⟨'(', render a ++ [')'] ++ '^' :: wrapA b, by simp, Or.inl rfl⟩
          · obtain ⟨c, r, hcr, hg⟩ := render_head a (h : WFexpr a ∧ WFexpr b).1
            exact ⟨c, r ++ '^' :: wrapA b, by rw [hcr]; rfl, hg⟩
      | Add =>
          rw [render_add_eq .Add a b (Or.inl rfl)]
          obtain ⟨c, r, hcr, hg⟩ := render_head a (h : WFexpr a ∧ WFexpr b).1
          exact ⟨c, r ++ ' ' :: BinaryOp.opChar .Add :: ' ' :: renderMulPos b,
            by rw [hcr]; rfl, hg⟩
      | Subtract =>
          rw [render_add_eq .Subtract a b (Or.inr rfl)]
          obtain ⟨c, r, hcr, hg⟩ := render_head a (h : WFexpr a ∧ WFexpr b).1
          exact ⟨c, r ++ ' ' :: BinaryOp.opChar .Subtract :: ' ' :: renderMulPos b,
            by rw [hcr]; rfl, hg⟩
      | Multiply =>
          rw [render_mul_eq .Multiply a b (Or.inl rfl), renderMulPos]
          split
          · exact ⟨'(', render a ++ [')'] ++ ' ' :: BinaryOp.opChar .Multiply :: ' ' ::
              renderNegPos b, by simp, Or.inl rfl⟩
          · obtain ⟨c, r, hcr, hg⟩ := render_head a (h : WFexpr a ∧ WFexpr b).1
            exact ⟨c, r ++ ' ' :: BinaryOp.opChar .Multiply :: ' ' :: renderNegPos b,
              by rw [hcr]; rfl, hg⟩
      | Divide =>
          rw [render_mul_eq .Divide a b (Or.inr (Or.inl rfl)), renderMulPos]
          split
          · exact ⟨'(', render a ++ [')'] ++ ' ' :: BinaryOp.opChar .Divide :: ' ' ::
              renderNegPos b, by simp, Or.inl rfl⟩
          · obtain ⟨c, r, hcr, hg⟩ := render_head a (h : WFexpr a ∧ WFexpr b).1
            exact ⟨c, r ++ ' ' :: BinaryOp.opChar .Divide :: ' ' :: renderNegPos b,
              by rw [hcr]; rfl, hg⟩
      | Modulo =>
          rw [render_mul_eq .Modulo a b (Or.inr (Or.inr rfl)), renderMulPos]
          split
          · exact ⟨'(', render a ++ [')'] ++ ' ' :: BinaryOp.opChar .Modulo :: ' ' ::
              renderNegPos b, by simp, Or.inl rfl⟩
          · obtain ⟨c, r, hcr, hg⟩ := render_head a (h : WFexpr a ∧ WFexpr b).1
            exact ⟨c, r ++ ' ' :: BinaryOp.opChar .Modulo :: ' ' :: renderNegPos b,
              by rw [hcr]; rfl, hg⟩

theorem wrapA_head (e : Expression) (h : WFexpr e) :
    ∃ c r, wrapA e = c :: r ∧ goodHead c := by
  rw [wrapA]
  split
  · exact ⟨'(', render e ++ [')'], rfl, Or.inl rfl⟩
  · exact render_head e h

theorem renderNegPos_head (e : Expression) (h : WFexpr e) :
    ∃ c r, renderNegPos e = c :: r ∧ goodHead c := by
  rw [renderNegPos]
  split
  · exact ⟨'(', render e ++ [')'], rfl, Or.inl rfl⟩
  · exact render_head e h

theorem renderMulPos_head (e : Expression) (h : WFexpr e) :
    ∃ c r, renderMulPos e = c :: r ∧ goodHead c := by
  rw [renderMulPos]
  split
  · exact ⟨'(', render e ++ [')'], rfl, Or.inl rfl⟩
  · exact render_head e h

theorem dropSpaces_goodHead_append {x t : List Char}
    (hx : ∃ c r, x = c :: r ∧ goodHead c) : dropSpaces (x ++ t) = x ++ t := by
  obtain ⟨c, r, rfl, hg⟩ := hx
  exact dropSpaces_cons_nonspace (goodHead_nonspace hg) _

/-- The add-level spine base of an expression. -/
def addSpineBase : Expression → Expression
  | .BinaryOp .Add a _ => addSpineBase a
  | .BinaryOp .Subtract a _ => addSpineBase a
  | e => e

/-- The add-level operator chain of an expression, in display order. -/
def addSpineOps : Expression → List (BinaryOp × Expression)
  | .BinaryOp .Add a b => addSpineOps a ++ [(.Add, b)]
  | .BinaryOp .Subtract a b => addSpineOps a ++ [(.Subtract, b)]
  | _ => []

/-- The mul-level spine base of an expression. -/
def mulSpineBase : Expression → Expression
  | .BinaryOp .Multiply a _ => mulSpineBase a
  | .BinaryOp .Divide a _ => mulSpineBase a
  | .BinaryOp .Modulo a _ => mulSpineBase a
  | e => e

/-- The mul-level operator chain of an expression, in display order. -/
def mulSpineOps : Expression → List (BinaryOp × Expression)
  | .BinaryOp .Multiply a b => mulSpineOps a ++ [(.Multiply, b)]
  | .BinaryOp .Divide a b => mulSpineOps a ++ [(.Divide, b)]
  | .BinaryOp .Modulo a b => mulSpineOps a ++ [(.Modulo, b)]
  | _ => []

/-- The display of an add-level operator chain. -/
def renderAddOps : List (BinaryOp × Expression) → List Char
  | [] => []
  | (op, b) :: rest => ' ' :: op.opChar :: ' ' :: renderMulPos b ++ renderAddOps rest

/-- The display of a mul-level operator chain. -/
def renderMulOps : List (BinaryOp × Expression) → List Char
  | [] => []
  | (op, b) :: rest => ' ' :: op.opChar :: ' ' :: renderNegPos b ++ renderMulOps rest

theorem renderAddOps_append (l1 l2 : List (BinaryOp × Expression)) :
    renderAddOps (l1 ++ l2) = renderAddOps l1 ++ renderAddOps l2 := by
  induction l1 with
  | nil => rfl
  | cons p rest ih =>
      obtain ⟨op, b⟩ := p
      simp [renderAddOps, ih]

theorem renderMulOps_append (l1 l2 : List (BinaryOp × Expression)) :
    renderMulOps (l1 ++ l2) = renderMulOps l1 ++ renderMulOps l2 := by
  induction l1 with
  | nil => rfl
  | cons p rest ih =>
      obtain ⟨op, b⟩ := p
      simp [renderMulOps, ih]

/-- An expression displays as its mul-level spine. -/
theorem render_addSpine : ∀ e : Expression,
    render e = renderMulPos (addSpineBase e) ++ renderAddOps (addSpineOps e)
  | .BinaryOp .Add a b => by
      rw [render_add_eq .Add a b (Or.inl rfl), render_addSpine a,
        show addSpineBase (.BinaryOp .Add a b) = addSpineBase a from rfl,
        show addSpineOps (.BinaryOp .Add a b) = addSpineOps a ++ [(.Add, b)] from rfl,
        renderAddOps_append]
      simp [renderAddOps]
  | .BinaryOp .Subtract a b => by
      rw [render_add_eq .Subtract a b (Or.inr rfl), render_addSpine a,
        show addSpineBase (.BinaryOp .Subtract a b) = addSpineBase a from rfl,
        show addSpineOps (.BinaryOp .Subtract a b) = addSpineOps a ++ [(.Subtract, b)] from rfl,
        renderAddOps_append]
      simp [renderAddOps]
  | .Number n => by simp [addSpineBase, addSpineOps, renderAddOps, renderMulPos,
      Expression.isAddSub]
  | .Variable x => by simp [addSpineBase, addSpineOps, renderAddOps, renderMulPos,
      Expression.isAddSub]
  | .Function name args => by simp [addSpineBase, addSpineOps, renderAddOps, renderMulPos,
      Expression.isAddSub]
  | .UnaryOp op x => by simp [addSpineBase, addSpineOps, renderAddOps, renderMulPos,
      Expression.isAddSub]
  | .BinaryOp .Multiply a b => by simp [addSpineBase, addSpineOps, renderAddOps, renderMulPos,
      Expression.isAddSub]
  | .BinaryOp .Divide a b => by simp [addSpineBase, addSpineOps, renderAddOps, renderMulPos,
      Expression.isAddSub]
  | .BinaryOp .Modulo a b => by simp [addSpineBase, addSpineOps, renderAddOps, renderMulPos,
      Expression.isAddSub]
  | .BinaryOp .Power a b => by simp [addSpineBase, addSpineOps, renderAddOps, renderMulPos,
      Expression.isAddSub]

/-- A mul-position operand displays as its negate-level spine. -/
theorem renderMulPos_mulSpine : ∀ e : Expression,
    renderMulPos e = renderNegPos (mulSpineBase e) ++ renderMulOps (mulSpineOps e)
  | .BinaryOp .Multiply a b => by
      rw [show renderMulPos (.BinaryOp .Multiply a b) = render (.BinaryOp .Multiply a b)
          from rfl,
        render_mul_eq .Multiply a b (Or.inl rfl), renderMulPos_mulSpine a,
        show mulSpineBase (.BinaryOp .Multiply a b) = mulSpineBase a from rfl,
        show mulSpineOps (.BinaryOp .Multiply a b) = mulSpineOps a ++ [(.Multiply, b)] from rfl,
        renderMulOps_append]
      simp [renderMulOps]
  | .BinaryOp .Divide a b => by
      rw [show renderMulPos (.BinaryOp .Divide a b) = render (.BinaryOp .Divide a b) from rfl,
        render_mul_eq .Divide a b (Or.inr (Or.inl rfl)), renderMulPos_mulSpine a,
        show mulSpineBase (.BinaryOp .Divide a b) = mulSpineBase a from rfl,
        show mulSpineOps (.BinaryOp .Divide a b) = mulSpineOps a ++ [(.Divide, b)] from rfl,
        renderMulOps_append]
      simp [renderMulOps]
  | .BinaryOp .Modulo a b => by
      rw [show renderMulPos (.BinaryOp .Modulo a b) = render (.BinaryOp .Modulo a b) from rfl,
        render_mul_eq .Modulo a b (Or.inr (Or.inr rfl)), renderMulPos_mulSpine a,
        show mulSpineBase (.BinaryOp .Modulo a b) = mulSpineBase a from rfl,
        show mulSpineOps (.BinaryOp .Modulo a b) = mulSpineOps a ++ [(.Modulo, b)] from rfl,
        renderMulOps_append]
      simp [renderMulOps]
  | .Number n => by simp [mulSpineBase, mulSpineOps, renderMulOps, renderMulPos, renderNegPos,
      Expression.isAddSub, Expression.isMulAdd]
  | .Variable x => by simp [mulSpineBase, mulSpineOps, renderMulOps, renderMulPos, renderNegPos,
      Expression.isAddSub, Expression.isMulAdd]
  | .Function name args => by simp [mulSpineBase, mulSpineOps, renderMulOps, renderMulPos,
      renderNegPos, Expression.isAddSub, Expression.isMulAdd]
  | .UnaryOp op x => by simp [mulSpineBase, mulSpineOps, renderMulOps, renderMulPos,
      renderNegPos, Expression.isAddSub, Expression.isMulAdd]
  | .BinaryOp .Add a b => by simp [mulSpineBase, mulSpineOps, renderMulOps, renderMulPos,
      renderNegPos, Expression.isAddSub, Expression.isMulAdd]
  | .BinaryOp .Subtract a b => by simp [mulSpineBase, mulSpineOps, renderMulOps, renderMulPos,
      renderNegPos, Expression.isAddSub, Expression.isMulAdd]
  | .BinaryOp .Power a b => by simp [mulSpineBase, mulSpineOps, renderMulOps, renderMulPos,
      renderNegPos, Expression.isAddSub, Expression.isMulAdd]

/-- The parser's left fold over an operator chain. -/
def foldOps (acc : Expression) : List (BinaryOp × Expression) → Expression
  | [] => acc
  | (op, b) :: rest => foldOps (.BinaryOp op acc b) rest

theorem foldOps_append (acc : Expression) (l1 l2 : List (BinaryOp × Expression)) :
    foldOps acc (l1 ++ l2) = foldOps (foldOps acc l1) l2 := by
  induction l1 generalizing acc with
  | nil => rfl
  | cons p rest ih =>
      obtain ⟨op, b⟩ := p
      simp [foldOps, ih]

theorem foldOps_addSpine : ∀ e : Expression, foldOps (addSpineBase e) (addSpineOps e) = e
  | .BinaryOp .Add a b => by
      rw [show addSpineBase (.BinaryOp .Add a b) = addSpineBase a from rfl,
        show addSpineOps (.BinaryOp .Add a b) = addSpineOps a ++ [(.Add, b)] from rfl,
        foldOps_append, foldOps_addSpine a]
      rfl
  | .BinaryOp .Subtract a b => by
      rw [show addSpineBase (.BinaryOp .Subtract a b) = addSpineBase a from rfl,
        show addSpineOps (.BinaryOp .Subtract a b) = addSpineOps a ++ [(.Subtract, b)] from rfl,
        foldOps_append, foldOps_addSpine a]
      rfl
  | .Number n => rfl
  | .Variable x => rfl
  | .Function name args => rfl
  | .UnaryOp op x => rfl
  | .BinaryOp .Multiply a b => rfl
  | .BinaryOp .Divide a b => rfl
  | .BinaryOp .Modulo a b => rfl
  | .BinaryOp .Power a b => rfl

theorem foldOps_mulSpine : ∀ e : Expression, foldOps (mulSpineBase e) (mulSpineOps e) = e
  | .BinaryOp .Multiply a b => by
      rw [show mulSpineBase (.BinaryOp .Multiply a b) = mulSpineBase a from rfl,
        show mulSpineOps (.BinaryOp .Multiply a b) = mulSpineOps a ++ [(.Multiply, b)] from rfl,
        foldOps_append, foldOps_mulSpine a]
      rfl
  | .BinaryOp .Divide a b => by
      rw [show mulSpineBase (.BinaryOp .Divide a b) = mulSpineBase a from rfl,
        show mulSpineOps (.BinaryOp .Divide a b) = mulSpineOps a ++ [(.Divide, b)] from rfl,
        foldOps_append, foldOps_mulSpine a]
      rfl
  | .BinaryOp .Modulo a b => by
      rw [show mulSpineBase (.BinaryOp .Modulo a b) = mulSpineBase a from rfl,
        show mulSpineOps (.BinaryOp .Modulo a b) = mulSpineOps a ++ [(.Modulo, b)] from rfl,
        foldOps_append, foldOps_mulSpine a]
      rfl
  | .Number n => rfl
  | .Variable x => rfl
  | .Function name args => rfl
  | .UnaryOp op x => rfl
  | .BinaryOp .Add a b => rfl
  | .BinaryOp .Subtract a b => rfl
  | .BinaryOp .Power a b => rfl

theorem addSpine_WF : ∀ e : Expression, WFexpr e →
    WFexpr (addSpineBase e) ∧ ∀ p ∈ addSpineOps e, WFexpr p.2 ∧
      (p.1 = .Add ∨ p.1 = .Subtract)
  | .BinaryOp .Add a b, h => by
      obtain ⟨h1, h2⟩ := addSpine_WF a (h : WFexpr a ∧ WFexpr b).1
      refine ⟨h1, ?_⟩
      intro p hp
      rw [show addSpineOps (.BinaryOp .Add a b) = addSpineOps a ++ [(.Add, b)] from rfl,
        List.mem_append] at hp
      rcases hp with hp | hp
      · exact h2 p hp
      · rw [List.mem_singleton] at hp
        subst hp
        exact ⟨(h : WFexpr a ∧ WFexpr b).2, Or.inl rfl⟩
  | .BinaryOp .Subtract a b, h => by
      obtain ⟨h1, h2⟩ := addSpine_WF a (h : WFexpr a ∧ WFexpr b).1
      refine ⟨h1, ?_⟩
      intro p hp
      rw [show addSpineOps (.BinaryOp .Subtract a b) = addSpineOps a ++ [(.Subtract, b)]
          from rfl, List.mem_append] at hp
      rcases hp with hp | hp
      · exact h2 p hp
      · rw [List.mem_singleton] at hp
        subst hp
        exact ⟨(h : WFexpr a ∧ WFexpr b).2, Or.inr rfl⟩
  | .Number n, h => ⟨h, by intro p hp; simp [addSpineOps] at hp⟩
  | .Variable x, h => ⟨h, by intro p hp; simp [addSpineOps] at hp⟩
  | .Function name args, h => ⟨h, by intro p hp; simp [addSpineOps] at hp⟩
  | .UnaryOp op x, h => ⟨h, by intro p hp; simp [addSpineOps] at hp⟩
  | .BinaryOp .Multiply a b, h => ⟨h, by intro p hp; simp [addSpineOps] at hp⟩
  | .BinaryOp .Divide a b, h => ⟨h, by intro p hp; simp [addSpineOps] at hp⟩
  | .BinaryOp .Modulo a b, h => ⟨h, by intro p hp; simp [addSpineOps] at hp⟩
  | .BinaryOp .Power a b, h => ⟨h, by intro p hp; simp [addSpineOps] at hp⟩

theorem mulSpine_WF : ∀ e : Expression, WFexpr e →
    WFexpr (mulSpineBase e) ∧ ∀ p ∈ mulSpineOps e, WFexpr p.2 ∧
      (p.1 = .Multiply ∨ p.1 = .Divide ∨ p.1 = .Modulo)
  | .BinaryOp .Multiply a b, h => by
      obtain ⟨h1, h2⟩ := mulSpine_WF a (h : WFexpr a ∧ WFexpr b).1
      refine ⟨h1, ?_⟩
      intro p hp
      rw [show mulSpineOps (.BinaryOp .Multiply a b) = mulSpineOps a ++ [(.Multiply, b)]
          from rfl, List.mem_append] at hp
      rcases hp with hp | hp
      · exact h2 p hp
      · rw [List.mem_singleton] at hp
        subst hp
        exact ⟨(h : WFexpr a ∧ WFexpr b).2, Or.inl rfl⟩
  | .BinaryOp .Divide a b, h => by
      obtain ⟨h1, h2⟩ := mulSpine_WF a (h : WFexpr a ∧ WFexpr b).1
      refine ⟨h1, ?_⟩
      intro p hp
      rw [show mulSpineOps (.BinaryOp .Divide a b) = mulSpineOps a ++ [(.Divide, b)]
          from rfl, List.mem_append] at hp
      rcases hp with hp | hp
      · exact h2 p hp
      · rw [List.mem_singleton] at hp
        subst hp
        exact ⟨(h : WFexpr a ∧ WFexpr b).2, Or.inr (Or.inl rfl)⟩
  | .BinaryOp .Modulo a b, h => by
      obtain ⟨h1, h2⟩ := mulSpine_WF a (h : WFexpr a ∧ WFexpr b).1
      refine ⟨h1, ?_⟩
      intro p hp
      rw [show mulSpineOps (.BinaryOp .Modulo a b) = mulSpineOps a ++ [(.Modulo, b)]
          from rfl, List.mem_append] at hp
      rcases hp with hp | hp
      · exact h2 p hp
      · rw [List.mem_singleton] at hp
        subst hp
        exact ⟨(h : WFexpr a ∧ WFexpr b).2, Or.inr (Or.inr rfl)⟩
  | .Number n, h => ⟨h, by intro p hp; simp [mulSpineOps] at hp⟩
  | .Variable x, h => ⟨h, by intro p hp; simp [mulSpineOps] at hp⟩
  | .Function name args, h => ⟨h, by intro p hp; simp [mulSpineOps] at hp⟩
  | .UnaryOp op x, h => ⟨h, by intro p hp; simp [mulSpineOps] at hp⟩
  | .BinaryOp .Add a b, h => ⟨h, by intro p hp; simp [mulSpineOps] at hp⟩
  | .BinaryOp .Subtract a b, h => ⟨h, by intro p hp; simp [mulSpineOps] at hp⟩
  | .BinaryOp .Power a b, h => ⟨h, by intro p hp; simp [mulSpineOps] at hp⟩

/-- The `", "`-separated continuation of an argument list after the
first argument. -/
def renderArgsRest : List Expression → List Char
  | [] => []
  | a :: rest => ',' :: ' ' :: render a ++ renderArgsRest rest

theorem renderArgs_eq : ∀ (a : Expression) (rest : List Expression),
    renderArgs (a :: rest) = render a ++ renderArgsRest rest
  | a, [] => by simp [renderArgs, renderArgsRest]
  | a, b :: rest => by
      rw [show renderArgs (a :: b :: rest) = render a ++ ',' :: ' ' :: renderArgs (b :: rest)
          from rfl, renderArgs_eq b rest]
      simp [renderArgsRest]

theorem digit_ne_of {c d : Char} (h : isDigitChar c = true) (hd : isDigitChar d = false) :
    c ≠ d := by
  intro he
  subst he
  rw [h] at hd
  cases hd

theorem identStart_ne_of {c d : Char} (h : isIdentStartChar c = true)
    (hd : isIdentStartChar d = false) : c ≠ d := by
  intro he
  subst he
  rw [h] at hd
  cases hd

/-- The head of a wrapped atom-position render is `(`, a digit or an
identifier start (never a sign). -/
theorem wrapA_headAtom (e : Expression) (h : WFexpr e) :
    ∃ c r, wrapA e = c :: r ∧
      (c = '(' ∨ isDigitChar c = true ∨ isIdentStartChar c = true) := by
  rw [wrapA]
  split
  · exact ⟨'(', render e ++ [')'], rfl, Or.inl rfl⟩
  · rename_i hUB
    cases e with
    | Number n =>
        obtain ⟨q, rfl, _⟩ := (h : WFnum n)
        obtain ⟨c, r, hcr, hd⟩ := numChars_head q
        exact ⟨c, r, hcr, Or.inr (Or.inl hd)⟩
    | Variable x =>
        obtain ⟨c, cs, hdata, hstart, _⟩ := (h : WFident x)
        exact ⟨c, cs, hdata, Or.inr (Or.inr hstart)⟩
    | Function name args =>
        obtain ⟨c, cs, hdata, hstart, _⟩ := (h : WFident name ∧ WFlist args).1
        refine ⟨c, cs ++ '(' :: renderArgs args ++ [')'], ?_, Or.inr (Or.inr hstart)⟩
        show name.data ++ '(' :: renderArgs args ++ [')'] = _
        rw [hdata]
        rfl
    | UnaryOp op x =>
        exact absurd (by rfl : (Expression.UnaryOp op x).isUB = true) hUB
    | BinaryOp op a b =>
        exact absurd (by rfl : (Expression.BinaryOp op a b).isUB = true) hUB

theorem tailSetF_sub : ∀ c ∈ tailSetF, c ∈ tailSetA := by decide
theorem tailSetM_sub : ∀ c ∈ tailSetM, c ∈ tailSetF := by decide
theorem tailSetAD_sub : ∀ c ∈ tailSetAD, c ∈ tailSetM := by decide
theorem tailSetE_sub : ∀ c ∈ tailSetE, c ∈ tailSetAD := by decide

theorem tailSetM_subA : ∀ c ∈ tailSetM, c ∈ tailSetA := by decide
theorem tailSetAD_subA : ∀ c ∈ tailSetAD, c ∈ tailSetA := by decide
theorem tailSetE_subA : ∀ c ∈ tailSetE, c ∈ tailSetA := by decide

theorem tailSetF_no_bang : ∀ c ∈ tailSetF, c ≠ '!' := by decide
theorem tailSetM_no_pow : ∀ c ∈ tailSetM, c ≠ '^' ∧ c ≠ '*' := by decide
theorem tailSetAD_no_mulop : ∀ c ∈ tailSetAD,
    (c = '*' ∨ c = '·' ∨ c = '×') = False ∧ (c = '/' ∨ c = '÷') = False ∧ c ≠ '%' := by
  decide
theorem tailSetE_no_addop : ∀ c ∈ tailSetE, c ≠ '+' ∧ c ≠ '-' := by decide

/-- Head on which the whole expression family fails without consuming. -/
def noNegHead : List Char → Prop
  | [] => True
  | c :: _ => isDigitChar c = false ∧ c ≠ '.' ∧ isIdentStartChar c = false ∧ c ≠ '(' ∧
      c ≠ '-' ∧ c ≠ '+'

theorem noNegHead.toAtom {s : List Char} (h : noNegHead s) : noAtomHead s := by
  cases s with
  | nil => trivial
  | cons c r => exact ⟨h.1, h.2.1, h.2.2.1, h.2.2.2.1⟩

theorem stopImplicitMul {fuel : ℕ} {s : List Char} (hs : noAtomHead s) :
    pImplicitMul fuel s = .err false ∨ pImplicitMul fuel s = .out := by
  cases fuel with
  | zero => exact Or.inr rfl
  | succ fuel =>
      rw [pImplicitMul_succ]
      rcases @stopExp fuel _ hs with hE | hE <;> rw [hE]
      · exact Or.inl rfl
      · exact Or.inr rfl

theorem stopNegate {fuel : ℕ} {s : List Char} (hs : noNegHead s) :
    pNegate fuel s = .err false ∨ pNegate fuel s = .out := by
  cases fuel with
  | zero => exact Or.inr rfl
  | succ fuel =>
      rw [pNegate_succ]
      cases s with
      | nil =>
          rcases @stopImplicitMul fuel [] trivial with hI | hI <;> rw [hI]
          · exact Or.inl rfl
          · exact Or.inr rfl
      | cons c rest =>
          simp only
          rw [if_neg hs.2.2.2.2.1, if_neg hs.2.2.2.2.2]
          rcases @stopImplicitMul fuel (c :: rest) hs.toAtom with hI | hI <;>
            rw [hI]
          · exact Or.inl rfl
          · exact Or.inr rfl

theorem stopMul {fuel : ℕ} {s : List Char} (hs : noNegHead s) :
    pMul fuel s = .err false ∨ pMul fuel s = .out := by
  cases fuel with
  | zero => exact Or.inr rfl
  | succ fuel =>
      rw [pMul_succ]
      rcases @stopNegate fuel _ hs with hN | hN <;> rw [hN]
      · exact Or.inl rfl
      · exact Or.inr rfl

theorem stopAdd {fuel : ℕ} {s : List Char} (hs : noNegHead s) :
    pAdd fuel s = .err false ∨ pAdd fuel s = .out := by
  cases fuel with
  | zero => exact Or.inr rfl
  | succ fuel =>
      rw [pAdd_succ]
      rcases @stopMul fuel _ hs with hM | hM <;> rw [hM]
      · exact Or.inl rfl
      · exact Or.inr rfl

theorem stopExprFam {fuel : ℕ} {s : List Char} (hs : noNegHead s) :
    pExpr fuel s = .err false ∨ pExpr fuel s = .out := by
  cases fuel with
  | zero => exact Or.inr rfl
  | succ fuel =>
      rw [pExpr_succ]
      rcases @stopAdd fuel _ hs with hA | hA <;> rw [hA]
      · exact Or.inl rfl
      · exact Or.inr rfl

/-- Tail built from a member of a stop set. -/
theorem TailOf.of_mem {S : List Char} {c : Char} {r : List Char} (hc : c ∈ S)
    (hns : isSpaceChar c = false) : TailOf S (c :: r) :=
  ⟨Or.inr hc, by rw [dropSpaces_cons_nonspace hns]; exact Or.inr hc⟩

theorem tailSetA_nonspace : ∀ c ∈ tailSetA, isSpaceChar c = false := by decide

theorem opChar_addop_mem {op : BinaryOp} (hop : op = .Add ∨ op = .Subtract) :
    op.opChar ∈ tailSetAD ∧ isSpaceChar op.opChar = false := by
  rcases hop with rfl | rfl <;> exact ⟨by decide, by decide⟩

theorem opChar_mulop_mem {op : BinaryOp}
    (hop : op = .Multiply ∨ op = .Divide ∨ op = .Modulo) :
    op.opChar ∈ tailSetM ∧ isSpaceChar op.opChar = false := by
  rcases hop with rfl | rfl | rfl <;> exact ⟨by decide, by decide⟩

/-- Tail admissibility of a rendered add-operator chain. -/
theorem tailOf_addOps {items : List (BinaryOp × Expression)} {t : List Char}
    (hitems : ∀ p ∈ items, p.1 = BinaryOp.Add ∨ p.1 = BinaryOp.Subtract)
    (ht : TailOf tailSetE t) : TailOf tailSetAD (renderAddOps items ++ t) := by
  cases items with
  | nil => exact ht.mono tailSetE_sub
  | cons p rest =>
      obtain ⟨op, b⟩ := p
      have hopm : op = BinaryOp.Add ∨ op = BinaryOp.Subtract := hitems (op, b) (by simp)
      have hop := opChar_addop_mem hopm
      refine ⟨Or.inl (by decide), ?_⟩
      rw [show renderAddOps ((op, b) :: rest) ++ t =
        ' ' :: (op.opChar :: (' ' :: renderMulPos b ++ renderAddOps rest ++ t)) by
          simp [renderAddOps],
        dropSpaces_cons_space (by decide),
        dropSpaces_cons_nonspace hop.2 (' ' :: renderMulPos b ++ renderAddOps rest ++ t)]
      exact Or.inr hop.1

/-- Tail admissibility of a rendered mul-operator chain. -/
theorem tailOf_mulOps {items : List (BinaryOp × Expression)} {t : List Char}
    (hitems : ∀ p ∈ items,
      p.1 = BinaryOp.Multiply ∨ p.1 = BinaryOp.Divide ∨ p.1 = BinaryOp.Modulo)
    (ht : TailOf tailSetAD t) : TailOf tailSetM (renderMulOps items ++ t) := by
  cases items with
  | nil => exact ht.mono tailSetAD_sub
  | cons p rest =>
      obtain ⟨op, b⟩ := p
      have hopm : op = BinaryOp.Multiply ∨ op = BinaryOp.Divide ∨ op = BinaryOp.Modulo :=
        hitems (op, b) (by simp)
      have hop := opChar_mulop_mem hopm
      refine ⟨Or.inl (by decide), ?_⟩
      rw [show renderMulOps ((op, b) :: rest) ++ t =
        ' ' :: (op.opChar :: (' ' :: renderNegPos b ++ renderMulOps rest ++ t)) by
          simp [renderMulOps],
        dropSpaces_cons_space (by decide),
        dropSpaces_cons_nonspace hop.2 (' ' :: renderNegPos b ++ renderMulOps rest ++ t)]
      exact Or.inr hop.1

/-! ### Character-class facts for the display/parse round trip -/

theorem alpha_not_digit {c : Char} (h : c.isAlpha = true) : c.isDigit = false := by
  simp [Char.isAlpha, Char.isUpper, Char.isLower, Char.isDigit, Char.le_def] at h ⊢
  simp only [UInt32.le_def, UInt32.lt_def, BitVec.le_def, BitVec.lt_def,
    show (UInt32.toBitVec 48).toNat = 48 from rfl, show (UInt32.toBitVec 57).toNat = 57 from rfl,
    show (UInt32.toBitVec 65).toNat = 65 from rfl, show (UInt32.toBitVec 90).toNat = 90 from rfl,
    show (UInt32.toBitVec 97).toNat = 97 from rfl,
    show (UInt32.toBitVec 122).toNat = 122 from rfl] at h ⊢
  omega

theorem identStart_not_digit {c : Char} (h : isIdentStartChar c = true) :
    isDigitChar c = false := by
  by_cases hd : c.isDigit = true
  · exfalso
    rw [isIdentStartChar, isAlphaChar] at h
    have hna : c.isAlpha = false := by
      cases ha : c.isAlpha with
      | false => rfl
      | true => rw [alpha_not_digit ha] at hd; cases hd
    rw [hna] at h
    simp only [Bool.false_or, Bool.or_eq_true, decide_eq_true_eq] at h
    rcases h with (rfl | rfl) | rfl <;> exact absurd hd (by decide)
  · show c.isDigit = false
    cases hb : c.isDigit with
    | false => rfl
    | true => exact absurd hb hd

theorem identChar_ne_of {c d : Char} (h : isIdentChar c = true)
    (hd : isIdentChar d = false) : c ≠ d := by
  intro he
  subst he
  rw [h] at hd
  cases hd

/-- The string an operand contributes at the `exp` grammar level of the
display: a bare power chain, a bare factorial, or a (possibly
parenthesized) atom. -/
def renderExpPos : Expression → List Char
  | .BinaryOp .Power a b => wrapA a ++ '^' :: wrapA b
  | .UnaryOp .Factorial x => wrapA x ++ ['!']
  | e => wrapA e

theorem wrapA_not_UB {e : Expression} (h : e.isUB = false) : wrapA e = render e := by
  rw [wrapA, if_neg (by simp [h])]

theorem renderNegPos_not {e : Expression} (h : e.isMulAdd = false) :
    renderNegPos e = render e := by
  rw [renderNegPos, if_neg (by simp [h])]

theorem renderNegPos_is {e : Expression} (h1 : e.isMulAdd = true) (h2 : e.isUB = true) :
    renderNegPos e = wrapA e := by
  rw [renderNegPos, if_pos (by simp [h1]), wrapA, if_pos (by simp [h2])]

theorem renderExpPos_headAtom (e : Expression) (h : WFexpr e) :
    ∃ c r, renderExpPos e = c :: r ∧
      (c = '(' ∨ isDigitChar c = true ∨ isIdentStartChar c = true) := by
  cases e with
  | BinaryOp op a b =>
      cases op with
      | Power =>
          obtain ⟨c, r, hcr, hg⟩ := wrapA_headAtom a (h : WFexpr a ∧ WFexpr b).1
          refine ⟨c, r ++ '^' :: wrapA b, ?_, hg⟩
          rw [show renderExpPos (.BinaryOp .Power a b) = wrapA a ++ '^' :: wrapA b from rfl,
            hcr]
          rfl
      | Add => exact wrapA_headAtom _ h
      | Subtract => exact wrapA_headAtom _ h
      | Multiply => exact wrapA_headAtom _ h
      | Divide => exact wrapA_headAtom _ h
      | Modulo => exact wrapA_headAtom _ h
  | UnaryOp op x =>
      cases op with
      | Negate => exact wrapA_headAtom _ h
      | Factorial =>
          obtain ⟨c, r, hcr, hg⟩ := wrapA_headAtom x (h : WFexpr x)
          refine ⟨c, r ++ ['!'], ?_, hg⟩
          rw [show renderExpPos (.UnaryOp .Factorial x) = wrapA x ++ ['!'] from rfl, hcr]
          rfl
  | Number n => exact wrapA_headAtom _ h
  | Variable x => exact wrapA_headAtom _ h
  | Function name args => exact wrapA_headAtom _ h

theorem headAtom_props {c : Char}
    (h : c = '(' ∨ isDigitChar c = true ∨ isIdentStartChar c = true) :
    c ≠ '-' ∧ c ≠ '+' ∧ isSpaceChar c = false := by
  rcases h with rfl | h | h
  · exact ⟨by decide, by decide, by decide⟩
  · exact ⟨digit_ne_of h (by decide), digit_ne_of h (by decide), digit_not_space h⟩
  · exact ⟨identStart_ne_of h (by decide), identStart_ne_of h (by decide),
      identStart_not_space h⟩

theorem headAtom_goodHead {c : Char}
    (h : c = '(' ∨ isDigitChar c = true ∨ isIdentStartChar c = true) : goodHead c := by
  rcases h with rfl | h | h
  · exact Or.inl rfl
  · exact Or.inr (Or.inl h)
  · exact Or.inr (Or.inr (Or.inl h))

/-! ### Stop lemmas specialised to tail sets -/

theorem stopExpLoop_of_M {fuel : ℕ} {hd : Expression} {items : List Expression}
    {t : List Char} (ht : TailOf tailSetM t) :
    pExpLoop fuel hd items (dropSpaces t) = .ok (foldPower hd items) (dropSpaces t) ∨
      pExpLoop fuel hd items (dropSpaces t) = .out := by
  apply stopExpLoop
  rcases he : dropSpaces t with _ | ⟨c, r⟩
  · trivial
  · exact tailSetM_no_pow c (ht.head_mem he)

theorem stopImplLoop_of_M {fuel : ℕ} {acc : Expression} {t : List Char}
    (ht : TailOf tailSetM t) :
    pImplLoop fuel acc (dropSpaces t) = .ok acc (dropSpaces t) ∨
      pImplLoop fuel acc (dropSpaces t) = .out :=
  stopImplLoop (dropSpaces_idem t) (noAtomHead_dropSpaces_of_A (ht.mono tailSetM_subA))

theorem stopMulLoop_of_AD {fuel : ℕ} {acc : Expression} {t : List Char}
    (ht : TailOf tailSetAD t) :
    pMulLoop fuel acc (dropSpaces t) = .ok acc (dropSpaces t) ∨
      pMulLoop fuel acc (dropSpaces t) = .out := by
  cases fuel with
  | zero => exact Or.inr rfl
  | succ m =>
      rw [pMulLoop_succ]
      rcases he : dropSpaces t with _ | ⟨c, r⟩
      · exact Or.inl rfl
      · have hc := ht.head_mem he
        simp only [tailSetAD, List.mem_cons, List.mem_singleton, List.not_mem_nil,
          or_false] at hc
        rcases hc with rfl | rfl | rfl | rfl <;>
          (simp only; rw [if_neg (by decide), if_neg (by decide), if_neg (by decide)];
            exact Or.inl rfl)

theorem stopAddLoop_of_E {fuel : ℕ} {acc : Expression} {t : List Char}
    (ht : TailOf tailSetE t) :
    pAddLoop fuel acc (dropSpaces t) = .ok acc (dropSpaces t) ∨
      pAddLoop fuel acc (dropSpaces t) = .out := by
  cases fuel with
  | zero => exact Or.inr rfl
  | succ m =>
      rw [pAddLoop_succ]
      rcases he : dropSpaces t with _ | ⟨c, r⟩
      · exact Or.inl rfl
      · have hc := ht.head_mem he
        simp only [tailSetE, List.mem_cons, List.mem_singleton, List.not_mem_nil,
          or_false] at hc
        rcases hc with rfl | rfl <;>
          (simp only; rw [if_neg (by decide), if_neg (by decide)]; exact Or.inl rfl)

/-! ### Tails of rendered argument lists -/

theorem tailOf_argsRest (rest : List Expression) (r : List Char) :
    TailOf tailSetE (renderArgsRest rest ++ ')' :: r) := by
  cases rest with
  | nil =>
      rw [show renderArgsRest [] ++ ')' :: r = ')' :: r from by simp [renderArgsRest]]
      exact TailOf.of_mem (by decide) (by decide)
  | cons a rest2 =>
      rw [show renderArgsRest (a :: rest2) ++ ')' :: r =
          ',' :: (' ' :: render a ++ renderArgsRest rest2 ++ ')' :: r) from by
        simp [renderArgsRest]]
      exact TailOf.of_mem (by decide) (by decide)

theorem dropSpaces_argsRest (rest : List Expression) (r : List Char) :
    dropSpaces (renderArgsRest rest ++ ')' :: r) = renderArgsRest rest ++ ')' :: r := by
  cases rest with
  | nil =>
      rw [show renderArgsRest [] ++ ')' :: r = ')' :: r from by simp [renderArgsRest]]
      exact dropSpaces_cons_nonspace (by decide) r
  | cons a rest2 =>
      rw [show renderArgsRest (a :: rest2) ++ ')' :: r =
          ',' :: (' ' :: render a ++ renderArgsRest rest2 ++ ')' :: r) from by
        simp [renderArgsRest]]
      exact dropSpaces_cons_nonspace (by decide) _

theorem dropSpaces_renderArgs_paren {args : List Expression} (h : WFlist args)
    (r : List Char) :
    dropSpaces (renderArgs args ++ ')' :: r) = renderArgs args ++ ')' :: r := by
  cases args with
  | nil =>
      rw [show renderArgs ([] : List Expression) ++ ')' :: r = ')' :: r from by
        rw [show renderArgs [] = ([] : List Char) from rfl]; simp]
      exact dropSpaces_cons_nonspace (by decide) r
  | cons a rest =>
      rw [renderArgs_eq a rest, List.append_assoc]
      exact dropSpaces_goodHead_append (render_head a (h : WFexpr a ∧ WFlist rest).1)

/-! ### The round-trip pack: every grammar level re-parses its own display -/

/-- For each grammar level, parsing the display of a well-formed
expression (in the position the display puts it) succeeds with that
expression — or the fuel runs out. -/
structure MainPack (fuel : ℕ) : Prop where
  atom : ∀ e, WFexpr e → ∀ t, TailOf tailSetA t →
    pAtom fuel (wrapA e ++ t) = .ok e (dropSpaces t) ∨
      pAtom fuel (wrapA e ++ t) = .out
  fact : ∀ e, WFexpr e → ∀ t, TailOf tailSetF t →
    pFactorial fuel (wrapA e ++ t) = .ok e (dropSpaces t) ∨
      pFactorial fuel (wrapA e ++ t) = .out
  expW : ∀ e, WFexpr e → ∀ t, TailOf tailSetM t →
    pExp fuel (wrapA e ++ t) = .ok e (dropSpaces t) ∨
      pExp fuel (wrapA e ++ t) = .out
  exp : ∀ e, WFexpr e → ∀ t, TailOf tailSetM t →
    pExp fuel (renderExpPos e ++ t) = .ok e (dropSpaces t) ∨
      pExp fuel (renderExpPos e ++ t) = .out
  neg : ∀ e, WFexpr e → ∀ t, TailOf tailSetM t →
    pNegate fuel (renderNegPos e ++ t) = .ok e (dropSpaces t) ∨
      pNegate fuel (renderNegPos e ++ t) = .out
  mulLoop : ∀ items, (∀ p ∈ items, WFexpr p.2 ∧
      (p.1 = BinaryOp.Multiply ∨ p.1 = BinaryOp.Divide ∨ p.1 = BinaryOp.Modulo)) →
    ∀ acc t, TailOf tailSetAD t →
    pMulLoop fuel acc (dropSpaces (renderMulOps items ++ t)) =
        .ok (foldOps acc items) (dropSpaces t) ∨
      pMulLoop fuel acc (dropSpaces (renderMulOps items ++ t)) = .out
  mul : ∀ e, WFexpr e → ∀ t, TailOf tailSetAD t →
    pMul fuel (renderMulPos e ++ t) = .ok e (dropSpaces t) ∨
      pMul fuel (renderMulPos e ++ t) = .out
  addLoop : ∀ items, (∀ p ∈ items, WFexpr p.2 ∧
      (p.1 = BinaryOp.Add ∨ p.1 = BinaryOp.Subtract)) →
    ∀ acc t, TailOf tailSetE t →
    pAddLoop fuel acc (dropSpaces (renderAddOps items ++ t)) =
        .ok (foldOps acc items) (dropSpaces t) ∨
      pAddLoop fuel acc (dropSpaces (renderAddOps items ++ t)) = .out
  add : ∀ e, WFexpr e → ∀ t, TailOf tailSetE t →
    pAdd fuel (render e ++ t) = .ok e (dropSpaces t) ∨
      pAdd fuel (render e ++ t) = .out
  expr : ∀ e, WFexpr e → ∀ t, TailOf tailSetE t →
    pExpr fuel (render e ++ t) = .ok e (dropSpaces t) ∨
      pExpr fuel (render e ++ t) = .out
  argsL : ∀ args, WFlist args → ∀ (acc : List Expression) (r : List Char),
    pArgsLoop fuel acc (renderArgsRest args ++ ')' :: r) = .ok (acc ++ args) (')' :: r) ∨
      pArgsLoop fuel acc (renderArgsRest args ++ ')' :: r) = .out
  args : ∀ args, WFlist args → ∀ r : List Char,
    pArgs fuel (renderArgs args ++ ')' :: r) = .ok args (')' :: r) ∨
      pArgs fuel (renderArgs args ++ ')' :: r) = .out

theorem pack_atom (n : ℕ) (ih : ∀ m, m < n + 1 → MainPack m) :
    ∀ e, WFexpr e → ∀ t, TailOf tailSetA t →
      pAtom (n + 1) (wrapA e ++ t) = .ok e (dropSpaces t) ∨
        pAtom (n + 1) (wrapA e ++ t) = .out := by
  intro e he t ht
  by_cases hUB : e.isUB = true
  · rw [show wrapA e ++ t = '(' :: (render e ++ ')' :: t) from by
      rw [wrapA, if_pos (by simp [hUB])]; simp]
    have hP : pParens n ('(' :: (render e ++ ')' :: t)) = .ok e (dropSpaces t) ∨
        pParens n ('(' :: (render e ++ ')' :: t)) = .out := by
      cases n with
      | zero => exact Or.inr rfl
      | succ m =>
          rw [pParens_succ]
          simp only
          rw [if_pos (by trivial), dropSpaces_goodHead_append (render_head e he)]
          have hE := (ih m (by omega)).expr e he (')' :: t)
            (TailOf.of_mem (by decide) (by decide))
          rw [dropSpaces_cons_nonspace (by decide) t] at hE
          rcases hE with hE | hE <;> rw [hE]
          · simp only
            rw [if_pos (by trivial)]
            exact Or.inl rfl
          · exact Or.inr rfl
    rw [pAtom_succ]
    rcases hP with hP | hP <;> rw [hP]
    · exact Or.inl rfl
    · exact Or.inr rfl
  · cases e with
    | Number num =>
        obtain ⟨q, hq, h0, hden, hred, hdvd⟩ := (he : WFnum num)
        subst hq
        rw [show wrapA (Expression.Number (F64.finite q)) ++ t = numChars q ++ t from by
          rw [wrapA_not_UB (show (Expression.Number (F64.finite q)).isUB = false from rfl)]
          rfl]
        obtain ⟨c, r, hcr, hcd⟩ := numChars_head q
        have hnp : noParenHead (numChars q ++ t) := by
          rw [hcr, List.cons_append]
          exact digit_ne_of hcd (by decide)
        rw [pAtom_succ]
        rcases @stopParens n _ hnp with hP | hP <;> rw [hP]
        · simp only
          rw [pNumber_numChars q h0 hden hred hdvd t (numStop_of_A ht)]
          exact Or.inl rfl
        · exact Or.inr rfl
    | Variable x =>
        rw [show wrapA (Expression.Variable x) ++ t = x.data ++ t from by
          rw [wrapA_not_UB (show (Expression.Variable x).isUB = false from rfl)]
          rfl]
        obtain ⟨c, cs, hdata, hstart, hcs⟩ := (he : WFident x)
        have hnp : noParenHead (x.data ++ t) := by
          rw [hdata, List.cons_append]
          exact identStart_ne_of hstart (by decide)
        have hnn : noNumHead (x.data ++ t) := by
          rw [hdata, List.cons_append]
          exact ⟨identStart_not_digit hstart, identStart_ne_of hstart (by decide)⟩
        have hident : pIdent (x.data ++ t) = .ok x (dropSpaces t) :=
          pIdent_chars x ⟨c, cs, hdata, hstart, hcs⟩ t (identStop_of_A ht)
        have hA : pApplyFunc n (x.data ++ t) = .err true ∨
            pApplyFunc n (x.data ++ t) = .out := by
          cases n with
          | zero => exact Or.inr rfl
          | succ m =>
              rw [pApplyFunc_succ, hident]
              simp only
              rcases hdt : dropSpaces t with _ | ⟨c2, r2⟩
              · exact Or.inl rfl
              · simp only
                have hc2 := ht.head_mem hdt
                rw [if_neg (tailSetA_atomfree c2 hc2).2.2.2]
                exact Or.inl rfl
        rw [pAtom_succ]
        rcases @stopParens n _ hnp with hP | hP <;> rw [hP]
        · simp only
          rw [stopNumber hnn]
          simp only
          rcases hA with hA | hA <;> rw [hA]
          · simp only
            rw [hident]
            exact Or.inl rfl
          · exact Or.inr rfl
        · exact Or.inr rfl
    | Function name fargs =>
        obtain ⟨hWname, hWargs⟩ := (he : WFident name ∧ WFlist fargs)
        rw [show wrapA (Expression.Function name fargs) ++ t =
            name.data ++ ('(' :: (renderArgs fargs ++ ')' :: t)) from by
          rw [wrapA_not_UB (show (Expression.Function name fargs).isUB = false from rfl),
            show render (Expression.Function name fargs) =
              name.data ++ '(' :: renderArgs fargs ++ [')'] from rfl]
          simp]
        obtain ⟨c, cs, hdata, hstart, hcs⟩ := hWname
        have hnp : noParenHead (name.data ++ ('(' :: (renderArgs fargs ++ ')' :: t))) := by
          rw [hdata, List.cons_append]
          exact identStart_ne_of hstart (by decide)
        have hnn : noNumHead (name.data ++ ('(' :: (renderArgs fargs ++ ')' :: t))) := by
          rw [hdata, List.cons_append]
          exact ⟨identStart_not_digit hstart, identStart_ne_of hstart (by decide)⟩
        have hident : pIdent (name.data ++ ('(' :: (renderArgs fargs ++ ')' :: t))) =
            .ok name ('(' :: (renderArgs fargs ++ ')' :: t)) := by
          have h1 := pIdent_chars name ⟨c, cs, hdata, hstart, hcs⟩
            ('(' :: (renderArgs fargs ++ ')' :: t))
            (by exact (by decide : isIdentChar '(' = false))
          rw [dropSpaces_cons_nonspace (by decide) (renderArgs fargs ++ ')' :: t)] at h1
          exact h1
        have hA : pApplyFunc n (name.data ++ ('(' :: (renderArgs fargs ++ ')' :: t))) =
            .ok (.Function name fargs) (dropSpaces t) ∨
            pApplyFunc n (name.data ++ ('(' :: (renderArgs fargs ++ ')' :: t))) = .out := by
          cases n with
          | zero => exact Or.inr rfl
          | succ m =>
              rw [pApplyFunc_succ, hident]
              simp only
              rw [if_pos (by trivial), dropSpaces_renderArgs_paren hWargs t]
              have hAR := (ih m (by omega)).args fargs hWargs t
              rcases hAR with hAR | hAR <;> rw [hAR]
              · simp only
                rw [if_pos (by trivial)]
                exact Or.inl rfl
              · exact Or.inr rfl
        rw [pAtom_succ]
        rcases @stopParens n _ hnp with hP | hP <;> rw [hP]
        · simp only
          rw [stopNumber hnn]
          simp only
          rcases hA with hA | hA <;> rw [hA]
          · exact Or.inl rfl
          · exact Or.inr rfl
        · exact Or.inr rfl
    | UnaryOp op x => exact absurd rfl hUB
    | BinaryOp op a b => exact absurd rfl hUB

theorem pack_fact (n : ℕ) (ih : ∀ m, m < n + 1 → MainPack m) :
    ∀ e, WFexpr e → ∀ t, TailOf tailSetF t →
      pFactorial (n + 1) (wrapA e ++ t) = .ok e (dropSpaces t) ∨
        pFactorial (n + 1) (wrapA e ++ t) = .out := by
  intro e he t ht
  rw [pFactorial_succ]
  have hA := (ih n (by omega)).atom e he t (ht.mono tailSetF_sub)
  rcases hA with hA | hA <;> rw [hA]
  · rcases hdt : dropSpaces t with _ | ⟨c, r⟩
    · exact Or.inl rfl
    · simp only
      have hc := ht.head_mem hdt
      rw [if_neg (tailSetF_no_bang c hc),
        dropSpaces_cons_nonspace (tailSetA_nonspace c (tailSetF_sub c hc)) r]
      exact Or.inl rfl
  · exact Or.inr rfl

theorem pack_expW (n : ℕ) (ih : ∀ m, m < n + 1 → MainPack m) :
    ∀ e, WFexpr e → ∀ t, TailOf tailSetM t →
      pExp (n + 1) (wrapA e ++ t) = .ok e (dropSpaces t) ∨
        pExp (n + 1) (wrapA e ++ t) = .out := by
  intro e he t ht
  rw [pExp_succ]
  have hF := (ih n (by omega)).fact e he t (ht.mono tailSetM_sub)
  rcases hF with hF | hF <;> rw [hF]
  · simp only
    exact stopExpLoop_of_M ht
  · exact Or.inr rfl

theorem pack_exp (n : ℕ) (ih : ∀ m, m < n + 1 → MainPack m) :
    ∀ e, WFexpr e → ∀ t, TailOf tailSetM t →
      pExp (n + 1) (renderExpPos e ++ t) = .ok e (dropSpaces t) ∨
        pExp (n + 1) (renderExpPos e ++ t) = .out := by
  intro e he t ht
  cases e with
  | BinaryOp op a b =>
      cases op with
      | Power =>
          rw [show renderExpPos (.BinaryOp .Power a b) ++ t =
              wrapA a ++ '^' :: (wrapA b ++ t) from by
            rw [show renderExpPos (.BinaryOp .Power a b) = wrapA a ++ '^' :: wrapA b from rfl]
            simp]
          rw [pExp_succ]
          have hF := (ih n (by omega)).fact a (he : WFexpr a ∧ WFexpr b).1
            ('^' :: (wrapA b ++ t)) (TailOf.of_mem (by decide) (by decide))
          rw [dropSpaces_cons_nonspace (by decide) (wrapA b ++ t)] at hF
          rcases hF with hF | hF <;> rw [hF]
          · simp only
            cases n with
            | zero => exact Or.inr rfl
            | succ m =>
                rw [pExpLoop_succ]
                simp only
                rw [if_pos (by trivial), dropSpaces_goodHead_append
                  (wrapA_head b (he : WFexpr a ∧ WFexpr b).2)]
                have hB := (ih m (by omega)).fact b (he : WFexpr a ∧ WFexpr b).2 t
                  (ht.mono tailSetM_sub)
                rcases hB with hB | hB <;> rw [hB]
                · simp only
                  rw [List.nil_append]
                  exact stopExpLoop_of_M ht
                · exact Or.inr rfl
          · exact Or.inr rfl
      | Add =>
          rw [show renderExpPos (.BinaryOp .Add a b) = wrapA (.BinaryOp .Add a b) from rfl]
          exact pack_expW n ih _ he t ht
      | Subtract =>
          rw [show renderExpPos (.BinaryOp .Subtract a b) =
            wrapA (.BinaryOp .Subtract a b) from rfl]
          exact pack_expW n ih _ he t ht
      | Multiply =>
          rw [show renderExpPos (.BinaryOp .Multiply a b) =
            wrapA (.BinaryOp .Multiply a b) from rfl]
          exact pack_expW n ih _ he t ht
      | Divide =>
          rw [show renderExpPos (.BinaryOp .Divide a b) =
            wrapA (.BinaryOp .Divide a b) from rfl]
          exact pack_expW n ih _ he t ht
      | Modulo =>
          rw [show renderExpPos (.BinaryOp .Modulo a b) =
            wrapA (.BinaryOp .Modulo a b) from rfl]
          exact pack_expW n ih _ he t ht
  | UnaryOp op x =>
      cases op with
      | Negate =>
          rw [show renderExpPos (.UnaryOp .Negate x) = wrapA (.UnaryOp .Negate x) from rfl]
          exact pack_expW n ih _ he t ht
      | Factorial =>
          rw [show renderExpPos (.UnaryOp .Factorial x) ++ t = wrapA x ++ '!' :: t from by
            rw [show renderExpPos (.UnaryOp .Factorial x) = wrapA x ++ ['!'] from rfl]
            simp]
          rw [pExp_succ]
          have hF : pFactorial n (wrapA x ++ '!' :: t) =
              .ok (.UnaryOp .Factorial x) (dropSpaces t) ∨
              pFactorial n (wrapA x ++ '!' :: t) = .out := by
            cases n with
            | zero => exact Or.inr rfl
            | succ m =>
                rw [pFactorial_succ]
                have hA := (ih m (by omega)).atom x (he : WFexpr x) ('!' :: t)
                  (TailOf.of_mem (by decide) (by decide))
                rw [dropSpaces_cons_nonspace (by decide) t] at hA
                rcases hA with hA | hA <;> rw [hA]
                · simp only
                  rw [if_pos (by trivial)]
                  exact Or.inl rfl
                · exact Or.inr rfl
          rcases hF with hF | hF <;> rw [hF]
          · simp only
            exact stopExpLoop_of_M ht
          · exact Or.inr rfl
  | Number num =>
      rw [show renderExpPos (.Number num) = wrapA (.Number num) from rfl]
      exact pack_expW n ih _ he t ht
  | Variable x =>
      rw [show renderExpPos (.Variable x) = wrapA (.Variable x) from rfl]
      exact pack_expW n ih _ he t ht
  | Function name fargs =>
      rw [show renderExpPos (.Function name fargs) = wrapA (.Function name fargs) from rfl]
      exact pack_expW n ih _ he t ht

theorem negNonNeg (n : ℕ) (ih : ∀ m, m < n + 1 → MainPack m)
    {e : Expression} (he : WFexpr e) {t : List Char} (ht : TailOf tailSetM t)
    (hNP : renderNegPos e = renderExpPos e) :
    pNegate (n + 1) (renderNegPos e ++ t) = .ok e (dropSpaces t) ∨
      pNegate (n + 1) (renderNegPos e ++ t) = .out := by
  obtain ⟨c, r, hcr, hg⟩ := renderExpPos_headAtom e he
  have hprops := headAtom_props hg
  rw [hNP]
  have hI : pImplicitMul n (renderExpPos e ++ t) = .ok e (dropSpaces t) ∨
      pImplicitMul n (renderExpPos e ++ t) = .out := by
    cases n with
    | zero => exact Or.inr rfl
    | succ m =>
        rw [pImplicitMul_succ]
        have hE := (ih m (by omega)).exp e he t ht
        rcases hE with hE | hE <;> rw [hE]
        · simp only
          exact stopImplLoop_of_M ht
        · exact Or.inr rfl
  rw [hcr, List.cons_append, pNegate_succ]
  simp only
  rw [if_neg hprops.1, if_neg hprops.2.1, ← List.cons_append, ← hcr]
  rcases hI with hI | hI <;> rw [hI]
  · simp only
    rw [dropSpaces_idem]
    exact Or.inl rfl
  · exact Or.inr rfl

theorem pack_neg (n : ℕ) (ih : ∀ m, m < n + 1 → MainPack m) :
    ∀ e, WFexpr e → ∀ t, TailOf tailSetM t →
      pNegate (n + 1) (renderNegPos e ++ t) = .ok e (dropSpaces t) ∨
        pNegate (n + 1) (renderNegPos e ++ t) = .out := by
  intro e he t ht
  cases e with
  | UnaryOp op x =>
      cases op with
      | Negate =>
          rw [show renderNegPos (.UnaryOp .Negate x) ++ t = '-' :: (wrapA x ++ t) from by
            rw [renderNegPos_not
              (show (Expression.UnaryOp UnaryOp.Negate x).isMulAdd = false from rfl),
              render_neg]
            rfl]
          rw [pNegate_succ]
          simp only
          rw [if_pos (by trivial), dropSpaces_goodHead_append (wrapA_head x (he : WFexpr x))]
          have hI : pImplicitMul n (wrapA x ++ t) = .ok x (dropSpaces t) ∨
              pImplicitMul n (wrapA x ++ t) = .out := by
            cases n with
            | zero => exact Or.inr rfl
            | succ m =>
                rw [pImplicitMul_succ]
                have hE := (ih m (by omega)).expW x (he : WFexpr x) t ht
                rcases hE with hE | hE <;> rw [hE]
                · simp only
                  exact stopImplLoop_of_M ht
                · exact Or.inr rfl
          rcases hI with hI | hI <;> rw [hI]
          · simp only
            rw [dropSpaces_idem]
            exact Or.inl rfl
          · exact Or.inr rfl
      | Factorial =>
          exact negNonNeg n ih he ht (by
            rw [renderNegPos_not
              (show (Expression.UnaryOp UnaryOp.Factorial x).isMulAdd = false from rfl),
              render_fact,
              show renderExpPos (.UnaryOp .Factorial x) = wrapA x ++ ['!'] from rfl])
  | Number num =>
      exact negNonNeg n ih he ht (by
        rw [renderNegPos_not (show (Expression.Number num).isMulAdd = false from rfl),
          show renderExpPos (.Number num) = wrapA (.Number num)
          from rfl, wrapA_not_UB (show (Expression.Number num).isUB = false from rfl)])
  | Variable x =>
      exact negNonNeg n ih he ht (by
        rw [renderNegPos_not (show (Expression.Variable x).isMulAdd = false from rfl),
          show renderExpPos (.Variable x) = wrapA (.Variable x)
          from rfl, wrapA_not_UB (show (Expression.Variable x).isUB = false from rfl)])
  | Function name fargs =>
      exact negNonNeg n ih he ht (by
        rw [renderNegPos_not
          (show (Expression.Function name fargs).isMulAdd = false from rfl),
          show renderExpPos (.Function name fargs) = wrapA (.Function name fargs) from rfl,
          wrapA_not_UB (show (Expression.Function name fargs).isUB = false from rfl)])
  | BinaryOp op a b =>
      cases op with
      | Power =>
          exact negNonNeg n ih he ht (by
            rw [renderNegPos_not
              (show (Expression.BinaryOp BinaryOp.Power a b).isMulAdd = false from rfl),
              render_pow,
              show renderExpPos (.BinaryOp .Power a b) = wrapA a ++ '^' :: wrapA b from rfl])
      | Add =>
          exact negNonNeg n ih he ht (by
            rw [renderNegPos_is
              (show (Expression.BinaryOp BinaryOp.Add a b).isMulAdd = true from rfl)
              (show (Expression.BinaryOp BinaryOp.Add a b).isUB = true from rfl),
              show renderExpPos (.BinaryOp .Add a b) = wrapA (.BinaryOp .Add a b) from rfl])
      | Subtract =>
          exact negNonNeg n ih he ht (by
            rw [renderNegPos_is
              (show (Expression.BinaryOp BinaryOp.Subtract a b).isMulAdd = true from rfl)
              (show (Expression.BinaryOp BinaryOp.Subtract a b).isUB = true from rfl),
              show renderExpPos (.BinaryOp .Subtract a b) =
              wrapA (.BinaryOp .Subtract a b) from rfl])
      | Multiply =>
          exact negNonNeg n ih he ht (by
            rw [renderNegPos_is
              (show (Expression.BinaryOp BinaryOp.Multiply a b).isMulAdd = true from rfl)
              (show (Expression.BinaryOp BinaryOp.Multiply a b).isUB = true from rfl),
              show renderExpPos (.BinaryOp .Multiply a b) =
              wrapA (.BinaryOp .Multiply a b) from rfl])
      | Divide =>
          exact negNonNeg n ih he ht (by
            rw [renderNegPos_is
              (show (Expression.BinaryOp BinaryOp.Divide a b).isMulAdd = true from rfl)
              (show (Expression.BinaryOp BinaryOp.Divide a b).isUB = true from rfl),
              show renderExpPos (.BinaryOp .Divide a b) =
              wrapA (.BinaryOp .Divide a b) from rfl])
      | Modulo =>
          exact negNonNeg n ih he ht (by
            rw [renderNegPos_is
              (show (Expression.BinaryOp BinaryOp.Modulo a b).isMulAdd = true from rfl)
              (show (Expression.BinaryOp BinaryOp.Modulo a b).isUB = true from rfl),
              show renderExpPos (.BinaryOp .Modulo a b) =
              wrapA (.BinaryOp .Modulo a b) from rfl])

theorem pack_mulLoop (n : ℕ) (ih : ∀ m, m < n + 1 → MainPack m) :
    ∀ items, (∀ p ∈ items, WFexpr p.2 ∧
        (p.1 = BinaryOp.Multiply ∨ p.1 = BinaryOp.Divide ∨ p.1 = BinaryOp.Modulo)) →
      ∀ acc t, TailOf tailSetAD t →
      pMulLoop (n + 1) acc (dropSpaces (renderMulOps items ++ t)) =
          .ok (foldOps acc items) (dropSpaces t) ∨
        pMulLoop (n + 1) acc (dropSpaces (renderMulOps items ++ t)) = .out := by
  intro items hitems acc t ht
  cases items with
  | nil =>
      rw [show renderMulOps [] ++ t = t from by
        rw [show renderMulOps [] = ([] : List Char) from rfl]; simp]
      exact stopMulLoop_of_AD ht
  | cons p rest =>
      obtain ⟨op, b⟩ := p
      have hpb := hitems (op, b) (by simp)
      have hrest : ∀ p ∈ rest, WFexpr p.2 ∧
          (p.1 = BinaryOp.Multiply ∨ p.1 = BinaryOp.Divide ∨ p.1 = BinaryOp.Modulo) :=
        fun p hp => hitems p (by simp [hp])
      have hwb : WFexpr b := hpb.1
      have hopm : op = BinaryOp.Multiply ∨ op = BinaryOp.Divide ∨ op = BinaryOp.Modulo :=
        hpb.2
      rw [show renderMulOps ((op, b) :: rest) ++ t =
          ' ' :: (op.opChar :: (' ' :: (renderNegPos b ++ (renderMulOps rest ++ t)))) from by
        simp [renderMulOps]]
      rw [dropSpaces_cons_space (by decide),
        dropSpaces_cons_nonspace (opChar_mulop_mem hopm).2]
      rw [pMulLoop_succ]
      simp only
      have hN : pNegate n (dropSpaces (' ' :: (renderNegPos b ++ (renderMulOps rest ++ t)))) =
          .ok b (dropSpaces (renderMulOps rest ++ t)) ∨
          pNegate n (dropSpaces (' ' :: (renderNegPos b ++ (renderMulOps rest ++ t)))) =
            .out := by
        rw [dropSpaces_cons_space (by decide),
          dropSpaces_goodHead_append (renderNegPos_head b hwb)]
        exact (ih n (by omega)).neg b hwb _ (tailOf_mulOps (fun p hp => (hrest p hp).2) ht)
      rcases hopm with rfl | rfl | rfl
      · rw [show BinaryOp.opChar BinaryOp.Multiply = '×' from rfl, if_pos (by decide)]
        rcases hN with hN | hN <;> rw [hN]
        · simp only
          exact (ih n (by omega)).mulLoop rest hrest (.BinaryOp .Multiply acc b) t ht
        · exact Or.inr rfl
      · rw [show BinaryOp.opChar BinaryOp.Divide = '/' from rfl, if_neg (by decide),
          if_pos (by decide)]
        rcases hN with hN | hN <;> rw [hN]
        · simp only
          exact (ih n (by omega)).mulLoop rest hrest (.BinaryOp .Divide acc b) t ht
        · exact Or.inr rfl
      · rw [show BinaryOp.opChar BinaryOp.Modulo = '%' from rfl, if_neg (by decide),
          if_neg (by decide), if_pos rfl]
        rcases hN with hN | hN <;> rw [hN]
        · simp only
          exact (ih n (by omega)).mulLoop rest hrest (.BinaryOp .Modulo acc b) t ht
        · exact Or.inr rfl

theorem pack_mul (n : ℕ) (ih : ∀ m, m < n + 1 → MainPack m) :
    ∀ e, WFexpr e → ∀ t, TailOf tailSetAD t →
      pMul (n + 1) (renderMulPos e ++ t) = .ok e (dropSpaces t) ∨
        pMul (n + 1) (renderMulPos e ++ t) = .out := by
  intro e he t ht
  obtain ⟨hwbase, hwops⟩ := mulSpine_WF e he
  rw [renderMulPos_mulSpine e, List.append_assoc, pMul_succ]
  have hN := (ih n (by omega)).neg (mulSpineBase e) hwbase
    (renderMulOps (mulSpineOps e) ++ t) (tailOf_mulOps (fun p hp => (hwops p hp).2) ht)
  rcases hN with hN | hN <;> rw [hN]
  · simp only
    have hL := (ih n (by omega)).mulLoop (mulSpineOps e) hwops (mulSpineBase e) t ht
    rw [foldOps_mulSpine] at hL
    exact hL
  · exact Or.inr rfl

theorem pack_addLoop (n : ℕ) (ih : ∀ m, m < n + 1 → MainPack m) :
    ∀ items, (∀ p ∈ items, WFexpr p.2 ∧
        (p.1 = BinaryOp.Add ∨ p.1 = BinaryOp.Subtract)) →
      ∀ acc t, TailOf tailSetE t →
      pAddLoop (n + 1) acc (dropSpaces (renderAddOps items ++ t)) =
          .ok (foldOps acc items) (dropSpaces t) ∨
        pAddLoop (n + 1) acc (dropSpaces (renderAddOps items ++ t)) = .out := by
  intro items hitems acc t ht
  cases items with
  | nil =>
      rw [show renderAddOps [] ++ t = t from by
        rw [show renderAddOps [] = ([] : List Char) from rfl]; simp]
      exact stopAddLoop_of_E ht
  | cons p rest =>
      obtain ⟨op, b⟩ := p
      have hpb := hitems (op, b) (by simp)
      have hrest : ∀ p ∈ rest, WFexpr p.2 ∧
          (p.1 = BinaryOp.Add ∨ p.1 = BinaryOp.Subtract) :=
        fun p hp => hitems p (by simp [hp])
      have hwb : WFexpr b := hpb.1
      have hopm : op = BinaryOp.Add ∨ op = BinaryOp.Subtract := hpb.2
      rw [show renderAddOps ((op, b) :: rest) ++ t =
          ' ' :: (op.opChar :: (' ' :: (renderMulPos b ++ (renderAddOps rest ++ t)))) from by
        simp [renderAddOps]]
      rw [dropSpaces_cons_space (by decide),
        dropSpaces_cons_nonspace (opChar_addop_mem hopm).2]
      rw [pAddLoop_succ]
      simp only
      have hM : pMul n (dropSpaces (' ' :: (renderMulPos b ++ (renderAddOps rest ++ t)))) =
          .ok b (dropSpaces (renderAddOps rest ++ t)) ∨
          pMul n (dropSpaces (' ' :: (renderMulPos b ++ (renderAddOps rest ++ t)))) =
            .out := by
        rw [dropSpaces_cons_space (by decide),
          dropSpaces_goodHead_append (renderMulPos_head b hwb)]
        exact (ih n (by omega)).mul b hwb _ (tailOf_addOps (fun p hp => (hrest p hp).2) ht)
      rcases hopm with rfl | rfl
      · rw [show BinaryOp.opChar BinaryOp.Add = '+' from rfl, if_pos rfl]
        rcases hM with hM | hM <;> rw [hM]
        · simp only
          exact (ih n (by omega)).addLoop rest hrest (.BinaryOp .Add acc b) t ht
        · exact Or.inr rfl
      · rw [show BinaryOp.opChar BinaryOp.Subtract = '-' from rfl, if_neg (by decide),
          if_pos rfl]
        rcases hM with hM | hM <;> rw [hM]
        · simp only
          exact (ih n (by omega)).addLoop rest hrest (.BinaryOp .Subtract acc b) t ht
        · exact Or.inr rfl

theorem pack_add (n : ℕ) (ih : ∀ m, m < n + 1 → MainPack m) :
    ∀ e, WFexpr e → ∀ t, TailOf tailSetE t →
      pAdd (n + 1) (render e ++ t) = .ok e (dropSpaces t) ∨
        pAdd (n + 1) (render e ++ t) = .out := by
  intro e he t ht
  obtain ⟨hwbase, hwops⟩ := addSpine_WF e he
  rw [render_addSpine e, List.append_assoc, pAdd_succ]
  have hM := (ih n (by omega)).mul (addSpineBase e) hwbase
    (renderAddOps (addSpineOps e) ++ t) (tailOf_addOps (fun p hp => (hwops p hp).2) ht)
  rcases hM with hM | hM <;> rw [hM]
  · simp only
    have hL := (ih n (by omega)).addLoop (addSpineOps e) hwops (addSpineBase e) t ht
    rw [foldOps_addSpine] at hL
    exact hL
  · exact Or.inr rfl

theorem pack_expr (n : ℕ) (ih : ∀ m, m < n + 1 → MainPack m) :
    ∀ e, WFexpr e → ∀ t, TailOf tailSetE t →
      pExpr (n + 1) (render e ++ t) = .ok e (dropSpaces t) ∨
        pExpr (n + 1) (render e ++ t) = .out := by
  intro e he t ht
  rw [pExpr_succ]
  have hA := (ih n (by omega)).add e he t ht
  rcases hA with hA | hA <;> rw [hA]
  · simp only
    rw [dropSpaces_idem]
    exact Or.inl rfl
  · exact Or.inr rfl

theorem pack_argsL (n : ℕ) (ih : ∀ m, m < n + 1 → MainPack m) :
    ∀ args, WFlist args → ∀ (acc : List Expression) (r : List Char),
      pArgsLoop (n + 1) acc (renderArgsRest args ++ ')' :: r) =
          .ok (acc ++ args) (')' :: r) ∨
        pArgsLoop (n + 1) acc (renderArgsRest args ++ ')' :: r) = .out := by
  intro args hargs acc r
  cases args with
  | nil =>
      rw [show renderArgsRest [] ++ ')' :: r = ')' :: r from by
        rw [show renderArgsRest [] = ([] : List Char) from rfl]; simp]
      rw [pArgsLoop_succ]
      simp only
      rw [if_neg (by decide), List.append_nil]
      exact Or.inl rfl
  | cons a rest =>
      rw [show renderArgsRest (a :: rest) ++ ')' :: r =
          ',' :: (' ' :: (render a ++ (renderArgsRest rest ++ ')' :: r))) from by
        simp [renderArgsRest]]
      rw [pArgsLoop_succ]
      simp only
      rw [if_pos (by trivial)]
      have hE : pExpr n (dropSpaces (' ' :: (render a ++ (renderArgsRest rest ++ ')' :: r)))) =
          .ok a (renderArgsRest rest ++ ')' :: r) ∨
          pExpr n (dropSpaces (' ' :: (render a ++ (renderArgsRest rest ++ ')' :: r)))) =
            .out := by
        rw [dropSpaces_cons_space (by decide),
          dropSpaces_goodHead_append (render_head a (hargs : WFexpr a ∧ WFlist rest).1)]
        have h1 := (ih n (by omega)).expr a (hargs : WFexpr a ∧ WFlist rest).1
          (renderArgsRest rest ++ ')' :: r) (tailOf_argsRest rest r)
        rw [dropSpaces_argsRest] at h1
        exact h1
      rcases hE with hE | hE <;> rw [hE]
      · simp only
        have hL := (ih n (by omega)).argsL rest (hargs : WFexpr a ∧ WFlist rest).2
          (acc ++ [a]) r
        rw [show (acc ++ [a]) ++ rest = acc ++ a :: rest from by simp] at hL
        exact hL
      · exact Or.inr rfl

theorem pack_args (n : ℕ) (ih : ∀ m, m < n + 1 → MainPack m) :
    ∀ args, WFlist args → ∀ r : List Char,
      pArgs (n + 1) (renderArgs args ++ ')' :: r) = .ok args (')' :: r) ∨
        pArgs (n + 1) (renderArgs args ++ ')' :: r) = .out := by
  intro args hargs r
  cases args with
  | nil =>
      rw [show renderArgs ([] : List Expression) ++ ')' :: r = ')' :: r from by
        rw [show renderArgs [] = ([] : List Char) from rfl]; simp]
      rw [pArgs_succ]
      have hE := @stopExprFam n (')' :: r)
        ⟨by decide, by decide, by decide, by decide, by decide, by decide⟩
      rcases hE with hE | hE <;> rw [hE]
      · exact Or.inl rfl
      · exact Or.inr rfl
  | cons a rest =>
      rw [renderArgs_eq a rest, List.append_assoc, pArgs_succ]
      have hE := (ih n (by omega)).expr a (hargs : WFexpr a ∧ WFlist rest).1
        (renderArgsRest rest ++ ')' :: r) (tailOf_argsRest rest r)
      rw [dropSpaces_argsRest] at hE
      rcases hE with hE | hE <;> rw [hE]
      · simp only
        have hL := (ih n (by omega)).argsL rest (hargs : WFexpr a ∧ WFlist rest).2 [a] r
        rw [show ([a] : List Expression) ++ rest = a :: rest from rfl] at hL
        exact hL
      · exact Or.inr rfl

theorem mainPack : ∀ fuel, MainPack fuel := by
  intro fuel
  induction fuel using Nat.strong_induction_on with
  | _ fuel ih =>
      cases fuel with
      | zero =>
          exact ⟨fun e _ t _ => Or.inr rfl, fun e _ t _ => Or.inr rfl,
            fun e _ t _ => Or.inr rfl, fun e _ t _ => Or.inr rfl,
            fun e _ t _ => Or.inr rfl, fun items _ acc t _ => Or.inr rfl,
            fun e _ t _ => Or.inr rfl, fun items _ acc t _ => Or.inr rfl,
            fun e _ t _ => Or.inr rfl, fun e _ t _ => Or.inr rfl,
            fun args _ acc r => Or.inr rfl, fun args _ r => Or.inr rfl⟩
      | succ n =>
          exact ⟨pack_atom n ih, pack_fact n ih, pack_expW n ih, pack_exp n ih,
            pack_neg n ih, pack_mulLoop n ih, pack_mul n ih, pack_addLoop n ih,
            pack_add n ih, pack_expr n ih, pack_argsL n ih, pack_args n ih⟩


/-! ### Unfueled parsers never run out, and token parsers consume input -/

theorem pNumberExp_ne_out (intD fracD : List Char) :
    ∀ s, pNumberExp intD fracD s ≠ .out := by
  intro s h
  cases s with
  | nil => exact PRes.noConfusion h
  | cons c rest =>
      by_cases hc : (c = 'e' || c = 'E') = true
      · simp only [pNumberExp, hc, if_true] at h
        by_cases hE : (scanDigits (signSplit rest).2).1.isEmpty = true
        · simp [hE] at h
        · simp only [hE, if_false] at h
          exact PRes.noConfusion h
      · simp only [pNumberExp, hc, if_false] at h
        exact PRes.noConfusion h

theorem pNumber_ne_out : ∀ s, pNumber s ≠ .out := by
  intro s h
  cases s with
  | nil => exact PRes.noConfusion h
  | cons c rest =>
      rw [pNumber] at h
      split at h
      · rcases hsd : scanDigits rest with ⟨ds, r0⟩
        rw [hsd] at h
        simp only at h
        split at h
        · exact PRes.noConfusion h
        · exact pNumberExp_ne_out _ _ _ h
      · split at h
        · rcases hsd : (scanDigits rest).2 with _ | ⟨c2, r2⟩ <;> rw [hsd] at h <;>
            simp only at h
          · exact pNumberExp_ne_out _ _ _ h
          · split at h
            · exact pNumberExp_ne_out _ _ _ h
            · exact pNumberExp_ne_out _ _ _ h
        · exact PRes.noConfusion h

theorem pIdent_ne_out : ∀ s, pIdent s ≠ .out := by
  intro s h
  cases s with
  | nil => exact PRes.noConfusion h
  | cons c rest =>
      rw [pIdent] at h
      split at h
      · rcases hsi : scanIdent rest with ⟨cs, r2⟩
        rw [hsi] at h
        simp only at h
        exact PRes.noConfusion h
      · exact PRes.noConfusion h

theorem strict_pIdent : ∀ s x r, pIdent s = .ok x r → r.length < s.length := by
  intro s x r h
  cases s with
  | nil => exact absurd h (by simp [pIdent])
  | cons c rest =>
      rw [pIdent] at h
      split at h
      · rcases hsi : scanIdent rest with ⟨cs, r2⟩
        rw [hsi] at h
        simp only at h
        cases h
        have h1 : r2.length ≤ rest.length := by
          have h2 := Suf.length_le (suf_scanIdent rest)
          rw [hsi] at h2
          exact h2
        have h2 := Suf.length_le (suf_dropSpaces r2)
        simp only [List.length_cons]
        omega
      · exact absurd h (by simp)

theorem strict_pNumber : ∀ s x r, pNumber s = .ok x r → r.length < s.length := by
  intro s x r h
  have key : ∀ intD fracD (t rest : List Char), t.length ≤ rest.length →
      pNumberExp intD fracD t = .ok x r → r.length ≤ rest.length := by
    intro intD fracD t rest2 hlen hexp
    have h2 := Suf.length_le (suf_pNumberExp hexp)
    omega
  cases s with
  | nil => exact absurd h (by simp [pNumber])
  | cons c rest =>
      rw [pNumber] at h
      simp only [List.length_cons]
      split at h
      · rcases hsd : scanDigits rest with ⟨ds, r0⟩
        rw [hsd] at h
        simp only at h
        split at h
        · exact absurd h (by simp)
        · have hl : r0.length ≤ rest.length := by
            have h2 := Suf.length_le (suf_scanDigits rest)
            rw [hsd] at h2
            exact h2
          have := key _ _ _ _ hl h
          omega
      · split at h
        · rcases hsd : (scanDigits rest).2 with _ | ⟨c2, r2⟩ <;> rw [hsd] at h <;>
            simp only at h
          · have := key _ _ _ rest (by simp) h
            omega
          · have hsdl : (c2 :: r2).length ≤ rest.length := by
              have h2 := Suf.length_le (suf_scanDigits rest)
              rw [hsd] at h2
              exact h2
            simp only [List.length_cons] at hsdl
            split at h
            · have hl2 : (scanDigits r2).2.length ≤ rest.length := by
                have h2 := Suf.length_le (suf_scanDigits r2)
                omega
              have := key _ _ _ _ hl2 h
              omega
            · have := key _ _ (c2 :: r2) rest (show (c2 :: r2).length ≤ rest.length from by
                simp only [List.length_cons]; omega) h
              omega
        · exact absurd h (by simp)

theorem strict_pParens (fuel : ℕ) : ∀ s x r, pParens fuel s = .ok x r →
    r.length < s.length := by
  intro s x r h
  cases fuel with
  | zero => exact absurd h (by rw [show pParens 0 s = .out from rfl]; simp)
  | succ m =>
      cases s with
      | nil => rw [pParens_succ] at h; exact absurd h (by simp)
      | cons c rest =>
          rw [pParens_succ] at h
          simp only at h
          split at h
          · rcases hE : pExpr m (dropSpaces rest) with ⟨e2, r2⟩ | b | _ <;> rw [hE] at h <;>
              simp only at h
            · cases r2 with
              | nil => exact absurd h (by simp)
              | cons c2 r3 =>
                  simp only at h
                  split at h
                  · cases h
                    have s1 := Suf.length_le ((sufExprPack m).expr _ _ _ hE)
                    have s2 := Suf.length_le (suf_dropSpaces rest)
                    have s3 := Suf.length_le (suf_dropSpaces r3)
                    simp only [List.length_cons] at s1 ⊢
                    omega
                  · exact absurd h (by simp)
            · exact absurd h (by simp)
            · exact absurd h (by simp)
          · exact absurd h (by simp)

theorem strict_pApplyFunc (fuel : ℕ) : ∀ s x r, pApplyFunc fuel s = .ok x r →
    r.length < s.length := by
  intro s x r h
  cases fuel with
  | zero => exact absurd h (by rw [show pApplyFunc 0 s = .out from rfl]; simp)
  | succ m =>
      rw [pApplyFunc_succ] at h
      rcases hI : pIdent s with ⟨name, r1⟩ | b | _ <;> rw [hI] at h <;> (try simp only at h)
      · cases r1 with
        | nil => exact absurd h (by simp)
        | cons c2 r2 =>
            simp only at h
            split at h
            · rcases hA : pArgs m (dropSpaces r2) with ⟨args2, r4⟩ | b | _ <;>
                rw [hA] at h <;> (try simp only at h)
              · cases r4 with
                | nil => exact absurd h (by simp)
                | cons c3 r5 =>
                    simp only at h
                    split at h
                    · cases h
                      have t1 := strict_pIdent s name (c2 :: r2) hI
                      have t2 := Suf.length_le ((sufExprPack m).args _ _ _ hA)
                      have t3 := Suf.length_le (suf_dropSpaces r2)
                      have t4 := Suf.length_le (suf_dropSpaces r5)
                      simp only [List.length_cons] at t1 t2
                      omega
                    · exact absurd h (by simp)
              · exact absurd h (by simp)
              · exact absurd h (by simp)
            · exact absurd h (by simp)
      · exact absurd h (by simp)
      · exact absurd h (by simp)

theorem strict_pAtom (fuel : ℕ) : ∀ s x r, pAtom fuel s = .ok x r →
    r.length < s.length := by
  intro s x r h
  cases fuel with
  | zero => exact absurd h (by rw [show pAtom 0 s = .out from rfl]; simp)
  | succ m =>
      rw [pAtom_succ] at h
      rcases hP : pParens m s with ⟨e2, r2⟩ | b | _ <;> rw [hP] at h <;> (try simp only at h)
      · cases h
        exact strict_pParens m s _ _ hP
      · cases b with
        | true => exact absurd h (by simp)
        | false =>
            simp only at h
            rcases hN : pNumber s with ⟨n2, r2⟩ | b | _ <;> rw [hN] at h <;> (try simp only at h)
            · cases h
              exact strict_pNumber s _ _ hN
            · cases b with
              | true => exact absurd h (by simp)
              | false =>
                  simp only at h
                  rcases hA : pApplyFunc m s with ⟨e2, r2⟩ | b | _ <;> rw [hA] at h <;>
                    simp only at h
                  · cases h
                    exact strict_pApplyFunc m s _ _ hA
                  · rcases hI : pIdent s with ⟨x2, r2⟩ | b | _ <;> rw [hI] at h <;>
                      simp only at h
                    · cases h
                      exact strict_pIdent s _ _ hI
                    · exact absurd h (by simp)
                    · exact absurd h (by simp)
                  · exact absurd h (by simp)
            · exact absurd hN (pNumber_ne_out s)
      · exact absurd h (by simp)

theorem strict_pFactorial (fuel : ℕ) : ∀ s x r, pFactorial fuel s = .ok x r →
    r.length < s.length := by
  intro s x r h
  cases fuel with
  | zero => exact absurd h (by rw [show pFactorial 0 s = .out from rfl]; simp)
  | succ m =>
      rw [pFactorial_succ] at h
      rcases hA : pAtom m s with ⟨e2, r2⟩ | b | _ <;> rw [hA] at h <;> (try simp only at h)
      · have hstrict := strict_pAtom m s _ _ hA
        cases r2 with
        | nil =>
            cases h
            exact hstrict
        | cons c2 r3 =>
            simp only at h
            split at h
            · cases h
              have t1 := Suf.length_le (suf_dropSpaces r3)
              simp only [List.length_cons] at hstrict
              omega
            · cases h
              have t1 := Suf.length_le (suf_dropSpaces (c2 :: r3))
              omega
      · exact absurd h (by simp)
      · exact absurd h (by simp)

theorem strict_pExp (fuel : ℕ) : ∀ s x r, pExp fuel s = .ok x r →
    r.length < s.length := by
  intro s x r h
  cases fuel with
  | zero => exact absurd h (by rw [show pExp 0 s = .out from rfl]; simp)
  | succ m =>
      rw [pExp_succ] at h
      rcases hF : pFactorial m s with ⟨e2, r2⟩ | b | _ <;> rw [hF] at h <;> (try simp only at h)
      · have t1 := strict_pFactorial m s _ _ hF
        have t2 := Suf.length_le ((sufExprPack m).powLoop _ _ _ _ _ h)
        omega
      · exact absurd h (by simp)
      · exact absurd h (by simp)

/-! ### Totality: with fuel `16·length + slack` no parser runs out -/

/-- Out-freedom of every parser, with a per-parser fuel slack over
`16 · length` (the grammar tower is at most 16 levels deep between two
consumed characters). -/
structure TotalPack (fuel : ℕ) : Prop where
  parens : ∀ s, 16 * s.length + 1 ≤ fuel → pParens fuel s ≠ .out
  call : ∀ s, 16 * s.length + 1 ≤ fuel → pApplyFunc fuel s ≠ .out
  atom : ∀ s, 16 * s.length + 2 ≤ fuel → pAtom fuel s ≠ .out
  fact : ∀ s, 16 * s.length + 3 ≤ fuel → pFactorial fuel s ≠ .out
  powLoop : ∀ hd items s, 16 * s.length + 1 ≤ fuel → pExpLoop fuel hd items s ≠ .out
  pow : ∀ s, 16 * s.length + 4 ≤ fuel → pExp fuel s ≠ .out
  implLoop : ∀ acc s, 16 * s.length + 5 ≤ fuel → pImplLoop fuel acc s ≠ .out
  impl : ∀ s, 16 * s.length + 6 ≤ fuel → pImplicitMul fuel s ≠ .out
  neg : ∀ s, 16 * s.length + 7 ≤ fuel → pNegate fuel s ≠ .out
  mulLoop : ∀ acc s, 16 * s.length + 1 ≤ fuel → pMulLoop fuel acc s ≠ .out
  mul : ∀ s, 16 * s.length + 8 ≤ fuel → pMul fuel s ≠ .out
  addLoop : ∀ acc s, 16 * s.length + 1 ≤ fuel → pAddLoop fuel acc s ≠ .out
  add : ∀ s, 16 * s.length + 9 ≤ fuel → pAdd fuel s ≠ .out
  expr : ∀ s, 16 * s.length + 10 ≤ fuel → pExpr fuel s ≠ .out
  argsLoop : ∀ acc s, 16 * s.length + 10 ≤ fuel → pArgsLoop fuel acc s ≠ .out
  args : ∀ s, 16 * s.length + 11 ≤ fuel → pArgs fuel s ≠ .out
  identListLoop : ∀ acc s, 16 * s.length + 1 ≤ fuel → pIdentListLoop fuel acc s ≠ .out
  identList : ∀ s, 16 * s.length + 2 ≤ fuel → pIdentList fuel s ≠ .out
  assignVar : ∀ s, 16 * s.length + 1 ≤ fuel → pAssignVar fuel s ≠ .out
  defFunc : ∀ s, 16 * s.length + 1 ≤ fuel → pDefFunc fuel s ≠ .out

theorem tot_parens (n : ℕ) (ih : TotalPack n) :
    ∀ s, 16 * s.length + 1 ≤ n + 1 → pParens (n + 1) s ≠ .out := by
  intro s hb h
  cases s with
  | nil => rw [pParens_succ] at h; exact PRes.noConfusion h
  | cons c rest =>
      rw [pParens_succ] at h
      simp only at h
      split at h
      · rcases hE : pExpr n (dropSpaces rest) with ⟨e2, r2⟩ | b | _ <;> rw [hE] at h <;>
          (try simp only at h)
        · cases r2 with
          | nil => exact PRes.noConfusion h
          | cons c2 r3 =>
              simp only at h
              split at h
              · exact PRes.noConfusion h
              · exact PRes.noConfusion h
        · exact PRes.noConfusion h
        · refine ih.expr (dropSpaces rest) ?_ hE
          have t1 := Suf.length_le (suf_dropSpaces rest)
          simp only [List.length_cons] at hb
          omega
      · exact PRes.noConfusion h

theorem tot_call (n : ℕ) (ih : TotalPack n) :
    ∀ s, 16 * s.length + 1 ≤ n + 1 → pApplyFunc (n + 1) s ≠ .out := by
  intro s hb h
  rw [pApplyFunc_succ] at h
  rcases hI : pIdent s with ⟨name, r1⟩ | b | _ <;> rw [hI] at h <;> (try simp only at h)
  · cases r1 with
    | nil => exact PRes.noConfusion h
    | cons c2 r2 =>
        simp only at h
        split at h
        · rcases hA : pArgs n (dropSpaces r2) with ⟨args2, r4⟩ | b | _ <;> rw [hA] at h <;>
            (try simp only at h)
          · cases r4 with
            | nil => exact PRes.noConfusion h
            | cons c3 r5 =>
                simp only at h
                split at h
                · exact PRes.noConfusion h
                · exact PRes.noConfusion h
          · exact PRes.noConfusion h
          · refine ih.args (dropSpaces r2) ?_ hA
            have t1 := strict_pIdent s name (c2 :: r2) hI
            have t2 := Suf.length_le (suf_dropSpaces r2)
            simp only [List.length_cons] at t1
            omega
        · exact PRes.noConfusion h
  · exact PRes.noConfusion h
  · exact absurd hI (pIdent_ne_out s)

theorem tot_atom (n : ℕ) (ih : TotalPack n) :
    ∀ s, 16 * s.length + 2 ≤ n + 1 → pAtom (n + 1) s ≠ .out := by
  intro s hb h
  rw [pAtom_succ] at h
  rcases hP : pParens n s with ⟨e2, r2⟩ | b | _ <;> rw [hP] at h <;> (try simp only at h)
  · exact PRes.noConfusion h
  · cases b with
    | true => simp only at h; exact PRes.noConfusion h
    | false =>
        simp only at h
        rcases hN : pNumber s with ⟨n2, r2⟩ | b | _ <;> rw [hN] at h <;> (try simp only at h)
        · exact PRes.noConfusion h
        · cases b with
          | true => simp only at h; exact PRes.noConfusion h
          | false =>
              simp only at h
              rcases hA : pApplyFunc n s with ⟨e2, r2⟩ | b | _ <;> rw [hA] at h <;>
                (try simp only at h)
              · exact PRes.noConfusion h
              · rcases hI : pIdent s with ⟨x2, r2⟩ | b | _ <;> rw [hI] at h <;>
                  (try simp only at h)
                · exact PRes.noConfusion h
                · exact PRes.noConfusion h
                · exact absurd hI (pIdent_ne_out s)
              · exact ih.call s (by omega) hA
        · exact absurd hN (pNumber_ne_out s)
  · exact ih.parens s (by omega) hP

theorem tot_fact (n : ℕ) (ih : TotalPack n) :
    ∀ s, 16 * s.length + 3 ≤ n + 1 → pFactorial (n + 1) s ≠ .out := by
  intro s hb h
  rw [pFactorial_succ] at h
  rcases hA : pAtom n s with ⟨e2, r2⟩ | b | _ <;> rw [hA] at h <;> (try simp only at h)
  · cases r2 with
    | nil => exact PRes.noConfusion h
    | cons c2 r3 =>
        simp only at h
        split at h
        · exact PRes.noConfusion h
        · exact PRes.noConfusion h
  · exact PRes.noConfusion h
  · exact ih.atom s (by omega) hA

theorem tot_powLoop (n : ℕ) (ih : TotalPack n) :
    ∀ hd items s, 16 * s.length + 1 ≤ n + 1 → pExpLoop (n + 1) hd items s ≠ .out := by
  intro hd items s hb h
  cases s with
  | nil => rw [pExpLoop_succ] at h; exact PRes.noConfusion h
  | cons c rest =>
      rw [pExpLoop_succ] at h
      simp only [List.length_cons] at hb
      simp only at h
      split at h
      · rcases hF : pFactorial n (dropSpaces rest) with ⟨b2, r2⟩ | b | _ <;> rw [hF] at h <;>
          (try simp only at h)
        · refine ih.powLoop hd (items ++ [b2]) r2 ?_ h
          have t1 := Suf.length_le ((sufExprPack n).fact _ _ _ hF)
          have t2 := Suf.length_le (suf_dropSpaces rest)
          omega
        · exact PRes.noConfusion h
        · refine ih.fact (dropSpaces rest) ?_ hF
          have t2 := Suf.length_le (suf_dropSpaces rest)
          omega
      · split at h
        · cases rest with
          | nil => simp only at h; exact PRes.noConfusion h
          | cons c2 rest2 =>
              simp only at h
              split at h
              · rcases hF : pFactorial n (dropSpaces rest2) with ⟨b2, r2⟩ | b | _ <;>
                  rw [hF] at h <;> (try simp only at h)
                · refine ih.powLoop hd (items ++ [b2]) r2 ?_ h
                  have t1 := Suf.length_le ((sufExprPack n).fact _ _ _ hF)
                  have t2 := Suf.length_le (suf_dropSpaces rest2)
                  simp only [List.length_cons] at hb
                  omega
                · exact PRes.noConfusion h
                · refine ih.fact (dropSpaces rest2) ?_ hF
                  have t2 := Suf.length_le (suf_dropSpaces rest2)
                  simp only [List.length_cons] at hb
                  omega
              · exact PRes.noConfusion h
        · exact PRes.noConfusion h

theorem tot_pow (n : ℕ) (ih : TotalPack n) :
    ∀ s, 16 * s.length + 4 ≤ n + 1 → pExp (n + 1) s ≠ .out := by
  intro s hb h
  rw [pExp_succ] at h
  rcases hF : pFactorial n s with ⟨e2, r2⟩ | b | _ <;> rw [hF] at h <;> (try simp only at h)
  · refine ih.powLoop e2 [] r2 ?_ h
    have t1 := Suf.length_le ((sufExprPack n).fact _ _ _ hF)
    omega
  · exact PRes.noConfusion h
  · exact ih.fact s (by omega) hF

theorem tot_implLoop (n : ℕ) (ih : TotalPack n) :
    ∀ acc s, 16 * s.length + 5 ≤ n + 1 → pImplLoop (n + 1) acc s ≠ .out := by
  intro acc s hb h
  rw [pImplLoop_succ] at h
  rcases hE : pExp n (dropSpaces s) with ⟨b2, r2⟩ | b | _ <;> rw [hE] at h <;>
    (try simp only at h)
  · refine ih.implLoop (.BinaryOp .Multiply acc b2) r2 ?_ h
    have t1 := strict_pExp n _ _ _ hE
    have t2 := Suf.length_le (suf_dropSpaces s)
    omega
  · cases b with
    | true => simp only at h; exact PRes.noConfusion h
    | false =>
        simp only at h
        split at h
        · exact PRes.noConfusion h
        · exact PRes.noConfusion h
  · refine ih.pow (dropSpaces s) ?_ hE
    have t2 := Suf.length_le (suf_dropSpaces s)
    omega

theorem tot_impl (n : ℕ) (ih : TotalPack n) :
    ∀ s, 16 * s.length + 6 ≤ n + 1 → pImplicitMul (n + 1) s ≠ .out := by
  intro s hb h
  rw [pImplicitMul_succ] at h
  rcases hE : pExp n s with ⟨e2, r2⟩ | b | _ <;> rw [hE] at h <;> (try simp only at h)
  · refine ih.implLoop e2 r2 ?_ h
    have t1 := Suf.length_le ((sufExprPack n).pow _ _ _ hE)
    omega
  · exact PRes.noConfusion h
  · exact ih.pow s (by omega) hE

theorem tot_neg (n : ℕ) (ih : TotalPack n) :
    ∀ s, 16 * s.length + 7 ≤ n + 1 → pNegate (n + 1) s ≠ .out := by
  intro s hb h
  rw [pNegate_succ] at h
  cases s with
  | nil =>
      simp only at h
      rcases hI : pImplicitMul n [] with ⟨e2, r2⟩ | b | _ <;> rw [hI] at h <;>
        (try simp only at h)
      · exact PRes.noConfusion h
      · exact PRes.noConfusion h
      · exact ih.impl [] (by simp only [List.length_nil] at hb ⊢; omega) hI
  | cons c rest =>
      simp only [List.length_cons] at hb
      simp only at h
      split at h
      · rcases hI : pImplicitMul n (dropSpaces rest) with ⟨e2, r2⟩ | b | _ <;>
          rw [hI] at h <;> (try simp only at h)
        · exact PRes.noConfusion h
        · exact PRes.noConfusion h
        · refine ih.impl (dropSpaces rest) ?_ hI
          have t2 := Suf.length_le (suf_dropSpaces rest)
          omega
      · split at h
        · rcases hI : pImplicitMul n (dropSpaces rest) with ⟨e2, r2⟩ | b | _ <;>
            rw [hI] at h <;> (try simp only at h)
          · exact PRes.noConfusion h
          · exact PRes.noConfusion h
          · refine ih.impl (dropSpaces rest) ?_ hI
            have t2 := Suf.length_le (suf_dropSpaces rest)
            omega
        · rcases hI : pImplicitMul n (c :: rest) with ⟨e2, r2⟩ | b | _ <;>
            rw [hI] at h <;> (try simp only at h)
          · exact PRes.noConfusion h
          · exact PRes.noConfusion h
          · refine ih.impl (c :: rest) ?_ hI
            simp only [List.length_cons]
            omega

theorem tot_mulLoop (n : ℕ) (ih : TotalPack n) :
    ∀ acc s, 16 * s.length + 1 ≤ n + 1 → pMulLoop (n + 1) acc s ≠ .out := by
  intro acc s hb h
  cases s with
  | nil => rw [pMulLoop_succ] at h; exact PRes.noConfusion h
  | cons c rest =>
      rw [pMulLoop_succ] at h
      simp only [List.length_cons] at hb
      simp only at h
      have sub : ∀ acc2, pMulLoop (n + 1) acc2 (c :: rest) = .out →
          (match pNegate n (dropSpaces rest) with
            | PRes.ok b r2 => pMulLoop n acc2 r2
            | PRes.err b => PRes.err true
            | PRes.out => PRes.out) = .out → False := by
        intro acc2 _ h2
        rcases hN : pNegate n (dropSpaces rest) with ⟨b2, r2⟩ | b | _ <;> rw [hN] at h2 <;>
          (try simp only at h2)
        · refine ih.mulLoop acc2 r2 ?_ h2
          have t1 := Suf.length_le ((sufExprPack n).neg _ _ _ hN)
          have t2 := Suf.length_le (suf_dropSpaces rest)
          omega
        · exact PRes.noConfusion h2
        · refine ih.neg (dropSpaces rest) ?_ hN
          have t2 := Suf.length_le (suf_dropSpaces rest)
          omega
      split at h
      · rcases hN : pNegate n (dropSpaces rest) with ⟨b2, r2⟩ | b | _ <;> rw [hN] at h <;>
          (try simp only at h)
        · refine ih.mulLoop (.BinaryOp .Multiply acc b2) r2 ?_ h
          have t1 := Suf.length_le ((sufExprPack n).neg _ _ _ hN)
          have t2 := Suf.length_le (suf_dropSpaces rest)
          omega
        · exact PRes.noConfusion h
        · refine ih.neg (dropSpaces rest) ?_ hN
          have t2 := Suf.length_le (suf_dropSpaces rest)
          omega
      · split at h
        · rcases hN : pNegate n (dropSpaces rest) with ⟨b2, r2⟩ | b | _ <;> rw [hN] at h <;>
            (try simp only at h)
          · refine ih.mulLoop (.BinaryOp .Divide acc b2) r2 ?_ h
            have t1 := Suf.length_le ((sufExprPack n).neg _ _ _ hN)
            have t2 := Suf.length_le (suf_dropSpaces rest)
            omega
          · exact PRes.noConfusion h
          · refine ih.neg (dropSpaces rest) ?_ hN
            have t2 := Suf.length_le (suf_dropSpaces rest)
            omega
        · split at h
          · rcases hN : pNegate n (dropSpaces rest) with ⟨b2, r2⟩ | b | _ <;> rw [hN] at h <;>
              (try simp only at h)
            · refine ih.mulLoop (.BinaryOp .Modulo acc b2) r2 ?_ h
              have t1 := Suf.length_le ((sufExprPack n).neg _ _ _ hN)
              have t2 := Suf.length_le (suf_dropSpaces rest)
              omega
            · exact PRes.noConfusion h
            · refine ih.neg (dropSpaces rest) ?_ hN
              have t2 := Suf.length_le (suf_dropSpaces rest)
              omega
          · exact PRes.noConfusion h

theorem tot_mul (n : ℕ) (ih : TotalPack n) :
    ∀ s, 16 * s.length + 8 ≤ n + 1 → pMul (n + 1) s ≠ .out := by
  intro s hb h
  rw [pMul_succ] at h
  rcases hN : pNegate n s with ⟨e2, r2⟩ | b | _ <;> rw [hN] at h <;> (try simp only at h)
  · refine ih.mulLoop e2 r2 ?_ h
    have t1 := Suf.length_le ((sufExprPack n).neg _ _ _ hN)
    omega
  · exact PRes.noConfusion h
  · exact ih.neg s (by omega) hN

theorem tot_addLoop (n : ℕ) (ih : TotalPack n) :
    ∀ acc s, 16 * s.length + 1 ≤ n + 1 → pAddLoop (n + 1) acc s ≠ .out := by
  intro acc s hb h
  cases s with
  | nil => rw [pAddLoop_succ] at h; exact PRes.noConfusion h
  | cons c rest =>
      rw [pAddLoop_succ] at h
      simp only [List.length_cons] at hb
      simp only at h
      split at h
      · rcases hM : pMul n (dropSpaces rest) with ⟨b2, r2⟩ | b | _ <;> rw [hM] at h <;>
          (try simp only at h)
        · refine ih.addLoop (.BinaryOp .Add acc b2) r2 ?_ h
          have t1 := Suf.length_le ((sufExprPack n).mul _ _ _ hM)
          have t2 := Suf.length_le (suf_dropSpaces rest)
          omega
        · exact PRes.noConfusion h
        · refine ih.mul (dropSpaces rest) ?_ hM
          have t2 := Suf.length_le (suf_dropSpaces rest)
          omega
      · split at h
        · rcases hM : pMul n (dropSpaces rest) with ⟨b2, r2⟩ | b | _ <;> rw [hM] at h <;>
            (try simp only at h)
          · refine ih.addLoop (.BinaryOp .Subtract acc b2) r2 ?_ h
            have t1 := Suf.length_le ((sufExprPack n).mul _ _ _ hM)
            have t2 := Suf.length_le (suf_dropSpaces rest)
            omega
          · exact PRes.noConfusion h
          · refine ih.mul (dropSpaces rest) ?_ hM
            have t2 := Suf.length_le (suf_dropSpaces rest)
            omega
        · exact PRes.noConfusion h

theorem tot_add (n : ℕ) (ih : TotalPack n) :
    ∀ s, 16 * s.length + 9 ≤ n + 1 → pAdd (n + 1) s ≠ .out := by
  intro s hb h
  rw [pAdd_succ] at h
  rcases hM : pMul n s with ⟨e2, r2⟩ | b | _ <;> rw [hM] at h <;> (try simp only at h)
  · refine ih.addLoop e2 r2 ?_ h
    have t1 := Suf.length_le ((sufExprPack n).mul _ _ _ hM)
    omega
  · exact PRes.noConfusion h
  · exact ih.mul s (by omega) hM

theorem tot_expr (n : ℕ) (ih : TotalPack n) :
    ∀ s, 16 * s.length + 10 ≤ n + 1 → pExpr (n + 1) s ≠ .out := by
  intro s hb h
  rw [pExpr_succ] at h
  rcases hA : pAdd n s with ⟨e2, r2⟩ | b | _ <;> rw [hA] at h <;> (try simp only at h)
  · exact PRes.noConfusion h
  · exact PRes.noConfusion h
  · exact ih.add s (by omega) hA

theorem tot_argsLoop (n : ℕ) (ih : TotalPack n) :
    ∀ acc s, 16 * s.length + 10 ≤ n + 1 → pArgsLoop (n + 1) acc s ≠ .out := by
  intro acc s hb h
  cases s with
  | nil => rw [pArgsLoop_succ] at h; exact PRes.noConfusion h
  | cons c rest =>
      rw [pArgsLoop_succ] at h
      simp only [List.length_cons] at hb
      simp only at h
      split at h
      · rcases hE : pExpr n (dropSpaces rest) with ⟨b2, r2⟩ | b | _ <;> rw [hE] at h <;>
          (try simp only at h)
        · refine ih.argsLoop (acc ++ [b2]) r2 ?_ h
          have t1 := Suf.length_le ((sufExprPack n).expr _ _ _ hE)
          have t2 := Suf.length_le (suf_dropSpaces rest)
          omega
        · exact PRes.noConfusion h
        · refine ih.expr (dropSpaces rest) ?_ hE
          have t2 := Suf.length_le (suf_dropSpaces rest)
          omega
      · exact PRes.noConfusion h

theorem tot_args (n : ℕ) (ih : TotalPack n) :
    ∀ s, 16 * s.length + 11 ≤ n + 1 → pArgs (n + 1) s ≠ .out := by
  intro s hb h
  rw [pArgs_succ] at h
  rcases hE : pExpr n s with ⟨e2, r2⟩ | b | _ <;> rw [hE] at h <;> (try simp only at h)
  · refine ih.argsLoop [e2] r2 ?_ h
    have t1 := Suf.length_le ((sufExprPack n).expr _ _ _ hE)
    omega
  · cases b with
    | true => simp only at h; exact PRes.noConfusion h
    | false => simp only at h; exact PRes.noConfusion h
  · exact ih.expr s (by omega) hE

theorem tot_identListLoop (n : ℕ) (ih : TotalPack n) :
    ∀ acc s, 16 * s.length + 1 ≤ n + 1 → pIdentListLoop (n + 1) acc s ≠ .out := by
  intro acc s hb h
  cases s with
  | nil => rw [pIdentListLoop_succ] at h; exact PRes.noConfusion h
  | cons c rest =>
      rw [pIdentListLoop_succ] at h
      simp only [List.length_cons] at hb
      simp only at h
      split at h
      · rcases hI : pIdent (dropSpaces rest) with ⟨id2, r2⟩ | b | _ <;> rw [hI] at h <;>
          (try simp only at h)
        · refine ih.identListLoop (acc ++ [id2]) r2 ?_ h
          have t1 := Suf.length_le (suf_pIdent hI)
          have t2 := Suf.length_le (suf_dropSpaces rest)
          omega
        · exact PRes.noConfusion h
        · exact absurd hI (pIdent_ne_out _)
      · exact PRes.noConfusion h

theorem tot_identList (n : ℕ) (ih : TotalPack n) :
    ∀ s, 16 * s.length + 2 ≤ n + 1 → pIdentList (n + 1) s ≠ .out := by
  intro s hb h
  rw [pIdentList_succ] at h
  rcases hI : pIdent s with ⟨id2, r2⟩ | b | _ <;> rw [hI] at h <;> (try simp only at h)
  · refine ih.identListLoop [id2] r2 ?_ h
    have t1 := Suf.length_le (suf_pIdent hI)
    omega
  · cases b with
    | true => simp only at h; exact PRes.noConfusion h
    | false => simp only at h; exact PRes.noConfusion h
  · exact absurd hI (pIdent_ne_out s)

theorem tot_assignVar (n : ℕ) (ih : TotalPack n) :
    ∀ s, 16 * s.length + 1 ≤ n + 1 → pAssignVar (n + 1) s ≠ .out := by
  intro s hb h
  rw [pAssignVar_succ] at h
  rcases hI : pIdent s with ⟨name, r1⟩ | b | _ <;> rw [hI] at h <;> (try simp only at h)
  · cases r1 with
    | nil => exact PRes.noConfusion h
    | cons c2 r2 =>
        simp only at h
        split at h
        · rcases hE : pExpr n (dropSpaces r2) with ⟨e2, r3⟩ | b | _ <;> rw [hE] at h <;>
            (try simp only at h)
          · exact PRes.noConfusion h
          · exact PRes.noConfusion h
          · refine ih.expr (dropSpaces r2) ?_ hE
            have t1 := strict_pIdent s name (c2 :: r2) hI
            have t2 := Suf.length_le (suf_dropSpaces r2)
            simp only [List.length_cons] at t1
            omega
        · exact PRes.noConfusion h
  · exact PRes.noConfusion h
  · exact absurd hI (pIdent_ne_out s)

theorem tot_defFunc (n : ℕ) (ih : TotalPack n) :
    ∀ s, 16 * s.length + 1 ≤ n + 1 → pDefFunc (n + 1) s ≠ .out := by
  intro s hb h
  rw [pDefFunc_succ] at h
  rcases hI : pIdent s with ⟨name, r1⟩ | b | _ <;> rw [hI] at h <;> (try simp only at h)
  · cases r1 with
    | nil => exact PRes.noConfusion h
    | cons c2 r2 =>
        simp only at h
        split at h
        · have t1 := strict_pIdent s name (c2 :: r2) hI
          simp only [List.length_cons] at t1
          have t2 := Suf.length_le (suf_dropSpaces r2)
          rcases hIL : pIdentList n (dropSpaces r2) with ⟨args2, r4⟩ | b | _ <;>
            rw [hIL] at h <;> (try simp only at h)
          · cases r4 with
            | nil => exact PRes.noConfusion h
            | cons c3 r5 =>
                simp only at h
                split at h
                · have t3 := Suf.length_le ((suf_pIdentList_pack n).1 _ _ _ hIL)
                  simp only [List.length_cons] at t3
                  rcases hdr : dropSpaces r5 with _ | ⟨c4, r7⟩ <;> rw [hdr] at h <;>
                    (try simp only at h)
                  · exact PRes.noConfusion h
                  · have t4 : (c4 :: r7).length ≤ r5.length := by
                      have t5 := Suf.length_le (suf_dropSpaces r5)
                      rw [hdr] at t5
                      exact t5
                    simp only [List.length_cons] at t4
                    split at h
                    · rcases hE : pExpr n (dropSpaces r7) with ⟨e2, r9⟩ | b | _ <;>
                        rw [hE] at h <;> (try simp only at h)
                      · exact PRes.noConfusion h
                      · exact PRes.noConfusion h
                      · refine ih.expr (dropSpaces r7) ?_ hE
                        have t6 := Suf.length_le (suf_dropSpaces r7)
                        omega
                    · exact PRes.noConfusion h
                · exact PRes.noConfusion h
          · exact PRes.noConfusion h
          · refine ih.identList (dropSpaces r2) ?_ hIL
            omega
        · exact PRes.noConfusion h
  · exact PRes.noConfusion h
  · exact absurd hI (pIdent_ne_out s)

theorem totalPack : ∀ fuel, TotalPack fuel := by
  intro fuel
  induction fuel with
  | zero =>
      exact ⟨fun s hb => absurd hb (by omega), fun s hb => absurd hb (by omega),
        fun s hb => absurd hb (by omega), fun s hb => absurd hb (by omega),
        fun hd items s hb => absurd hb (by omega), fun s hb => absurd hb (by omega),
        fun acc s hb => absurd hb (by omega), fun s hb => absurd hb (by omega),
        fun s hb => absurd hb (by omega), fun acc s hb => absurd hb (by omega),
        fun s hb => absurd hb (by omega), fun acc s hb => absurd hb (by omega),
        fun s hb => absurd hb (by omega), fun s hb => absurd hb (by omega),
        fun acc s hb => absurd hb (by omega), fun s hb => absurd hb (by omega),
        fun acc s hb => absurd hb (by omega), fun s hb => absurd hb (by omega),
        fun s hb => absurd hb (by omega), fun s hb => absurd hb (by omega)⟩
  | succ n ih =>
      exact ⟨tot_parens n ih, tot_call n ih, tot_atom n ih, tot_fact n ih,
        tot_powLoop n ih, tot_pow n ih, tot_implLoop n ih, tot_impl n ih,
        tot_neg n ih, tot_mulLoop n ih, tot_mul n ih, tot_addLoop n ih,
        tot_add n ih, tot_expr n ih, tot_argsLoop n ih, tot_args n ih,
        tot_identListLoop n ih, tot_identList n ih, tot_assignVar n ih, tot_defFunc n ih⟩

/-! ### Well-formedness of parser outputs -/

theorem scanIdent_chars : ∀ s, ∀ c ∈ (scanIdent s).1, isIdentChar c = true := by
  intro s
  induction s with
  | nil => intro c hc; simp [scanIdent] at hc
  | cons c0 rest ih =>
      intro c hc
      rw [scanIdent] at hc
      split at hc
      · rename_i hcond
        rcases hsi : scanIdent rest with ⟨ds, r⟩
        rw [hsi] at hc
        simp only at hc
        rcases List.mem_cons.mp hc with rfl | hc2
        · exact hcond
        · exact ih c (by rw [hsi]; exact hc2)
      · simp at hc

theorem WF_pIdent : ∀ s x r, pIdent s = .ok x r → WFident x := by
  intro s x r h
  cases s with
  | nil => exact absurd h (by simp [pIdent])
  | cons c rest =>
      rw [pIdent] at h
      split at h
      · rename_i hstart
        rcases hsi : scanIdent rest with ⟨cs, r2⟩
        rw [hsi] at h
        simp only at h
        cases h
        exact ⟨c, cs, rfl, hstart, fun d hd => scanIdent_chars rest d (by rw [hsi]; exact hd)⟩
      · exact absurd h (by simp)

theorem norm_pow_ten_WF (m k : ℕ) :
    0 ≤ (MRat.norm (m : ℤ) (10 ^ k)).num ∧ (MRat.norm (m : ℤ) (10 ^ k)).den ≠ 0 ∧
      Int.gcd (MRat.norm (m : ℤ) (10 ^ k)).num ((MRat.norm (m : ℤ) (10 ^ k)).den : ℤ) = 1 ∧
      ∃ j, (MRat.norm (m : ℤ) (10 ^ k)).den ∣ 10 ^ j := by
  have hdpos : 0 < (10 : ℕ) ^ k := by positivity
  have hgpos : 0 < Nat.gcd m (10 ^ k) := Nat.gcd_pos_of_pos_right m hdpos
  obtain ⟨u, hu⟩ := Nat.gcd_dvd_left m (10 ^ k)
  obtain ⟨v, hv⟩ := Nat.gcd_dvd_right m (10 ^ k)
  have hcop := Nat.coprime_div_gcd_div_gcd hgpos
  have hmg : m / Nat.gcd m (10 ^ k) = u := by
    nth_rewrite 1 [hu]
    exact Nat.mul_div_cancel_left u hgpos
  have hdg : 10 ^ k / Nat.gcd m (10 ^ k) = v := by
    nth_rewrite 1 [hv]
    exact Nat.mul_div_cancel_left v hgpos
  have hcast : (m : ℤ) = (Nat.gcd m (10 ^ k) : ℤ) * (u : ℤ) := by
    exact_mod_cast congrArg (fun z : ℕ => (z : ℤ)) hu
  have hnorm : MRat.norm (m : ℤ) (10 ^ k) = ⟨(u : ℤ), v⟩ := by
    rw [MRat.norm, if_neg (Nat.pos_iff_ne_zero.mp hdpos)]
    simp only [Int.gcd_natCast_natCast]
    have h1 : (m : ℤ).tdiv (Nat.gcd m (10 ^ k)) = (u : ℤ) := by
      rw [hcast]
      exact Int.mul_tdiv_cancel_left _ (by exact_mod_cast Nat.pos_iff_ne_zero.mp hgpos)
    rw [h1, hdg]
  rw [hnorm]
  refine ⟨Int.natCast_nonneg u, ?_, ?_, k, ?_⟩
  · show v ≠ 0
    intro h0
    rw [h0, Nat.mul_zero] at hv
    omega
  · show Int.gcd (u : ℤ) (v : ℤ) = 1
    rw [Int.gcd_natCast_natCast]
    rw [← hmg, ← hdg]
    exact hcop
  · show v ∣ 10 ^ k
    refine ⟨Nat.gcd m (10 ^ k), ?_⟩
    rw [Nat.mul_comm]
    exact hv

theorem numValue_WF (intD fracD : List Char) (eopt : Option (Bool × ℕ)) :
    WFnum (.finite (numValue intD fracD eopt)) := by
  have key : ∀ (a b : ℕ), WFnum (.finite (MRat.norm (a : ℤ) (10 ^ b))) := by
    intro a b
    obtain ⟨h1, h2, h3, h4⟩ := norm_pow_ten_WF a b
    exact ⟨_, rfl, h1, h2, h3, h4⟩
  rcases eopt with _ | ⟨negE, e⟩
  · exact key _ _
  · cases negE
    · exact key _ _
    · exact key _ _

theorem WF_pNumber : ∀ s num r, pNumber s = .ok num r → WFnum num := by
  intro s num r h
  have key : ∀ intD fracD t, pNumberExp intD fracD t = .ok num r → WFnum num := by
    intro intD fracD t hexp
    cases t with
    | nil =>
        simp only [pNumberExp] at hexp
        cases hexp
        exact numValue_WF _ _ _
    | cons c rest =>
        by_cases hc : (c = 'e' || c = 'E') = true
        · simp only [pNumberExp, hc, if_true] at hexp
          by_cases hE : (scanDigits (signSplit rest).2).1.isEmpty = true
          · simp [hE] at hexp
          · simp only [hE, if_false] at hexp
            cases hexp
            exact numValue_WF _ _ _
        · simp only [pNumberExp, hc, if_false] at hexp
          cases hexp
          exact numValue_WF _ _ _
  cases s with
  | nil => exact absurd h (by simp [pNumber])
  | cons c rest =>
      rw [pNumber] at h
      split at h
      · rcases hsd : scanDigits rest with ⟨ds, r0⟩
        rw [hsd] at h
        simp only at h
        split at h
        · exact absurd h (by simp)
        · exact key _ _ _ h
      · split at h
        · rcases hsd : (scanDigits rest).2 with _ | ⟨c2, r2⟩ <;> rw [hsd] at h <;>
            simp only at h
          · exact key _ _ _ h
          · split at h
            · exact key _ _ _ h
            · exact key _ _ _ h
        · exact absurd h (by simp)

theorem foldPower_WF : ∀ (items : List Expression) (hd : Expression), WFexpr hd →
    (∀ x ∈ items, WFexpr x) → WFexpr (foldPower hd items) := by
  intro items
  induction items with
  | nil => intro hd h _; exact h
  | cons y rest ih =>
      intro hd h hall
      exact ⟨h, ih y (hall y (by simp)) (fun x hx => hall x (by simp [hx]))⟩

theorem WFlist_append : ∀ l1 l2, WFlist l1 → WFlist l2 → WFlist (l1 ++ l2) := by
  intro l1
  induction l1 with
  | nil => intro l2 _ h2; exact h2
  | cons a rest ih =>
      intro l2 h1 h2
      exact ⟨(h1 : WFexpr a ∧ WFlist rest).1, ih l2 (h1 : WFexpr a ∧ WFlist rest).2 h2⟩

/-- Every expression parser only produces well-formed expressions. -/
structure WFPack (fuel : ℕ) : Prop where
  parens : ∀ s e r, pParens fuel s = .ok e r → WFexpr e
  call : ∀ s e r, pApplyFunc fuel s = .ok e r → WFexpr e
  atom : ∀ s e r, pAtom fuel s = .ok e r → WFexpr e
  fact : ∀ s e r, pFactorial fuel s = .ok e r → WFexpr e
  powLoop : ∀ hd items s e r, WFexpr hd → (∀ x ∈ items, WFexpr x) →
    pExpLoop fuel hd items s = .ok e r → WFexpr e
  pow : ∀ s e r, pExp fuel s = .ok e r → WFexpr e
  implLoop : ∀ acc s e r, WFexpr acc → pImplLoop fuel acc s = .ok e r → WFexpr e
  impl : ∀ s e r, pImplicitMul fuel s = .ok e r → WFexpr e
  neg : ∀ s e r, pNegate fuel s = .ok e r → WFexpr e
  mulLoop : ∀ acc s e r, WFexpr acc → pMulLoop fuel acc s = .ok e r → WFexpr e
  mul : ∀ s e r, pMul fuel s = .ok e r → WFexpr e
  addLoop : ∀ acc s e r, WFexpr acc → pAddLoop fuel acc s = .ok e r → WFexpr e
  add : ∀ s e r, pAdd fuel s = .ok e r → WFexpr e
  expr : ∀ s e r, pExpr fuel s = .ok e r → WFexpr e
  argsLoop : ∀ acc s l r, WFlist acc → pArgsLoop fuel acc s = .ok l r → WFlist l
  args : ∀ s l r, pArgs fuel s = .ok l r → WFlist l

theorem wf_parens (n : ℕ) (ih : WFPack n) :
    ∀ s e r, pParens (n + 1) s = .ok e r → WFexpr e := by
  intro s e r h
  cases s with
  | nil => rw [pParens_succ] at h; exact PRes.noConfusion h
  | cons c rest =>
      rw [pParens_succ] at h
      simp only at h
      split at h
      · rcases hE : pExpr n (dropSpaces rest) with ⟨e2, r2⟩ | b | _ <;> rw [hE] at h <;>
          (try simp only at h)
        · cases r2 with
          | nil => exact PRes.noConfusion h
          | cons c2 r3 =>
              simp only at h
              split at h
              · cases h
                exact ih.expr _ _ _ hE
              · exact PRes.noConfusion h
        · exact PRes.noConfusion h
        · exact PRes.noConfusion h
      · exact PRes.noConfusion h

theorem wf_call (n : ℕ) (ih : WFPack n) :
    ∀ s e r, pApplyFunc (n + 1) s = .ok e r → WFexpr e := by
  intro s e r h
  rw [pApplyFunc_succ] at h
  rcases hI : pIdent s with ⟨name, r1⟩ | b | _ <;> rw [hI] at h <;> (try simp only at h)
  · cases r1 with
    | nil => exact PRes.noConfusion h
    | cons c2 r2 =>
        simp only at h
        split at h
        · rcases hA : pArgs n (dropSpaces r2) with ⟨args2, r4⟩ | b | _ <;> rw [hA] at h <;>
            (try simp only at h)
          · cases r4 with
            | nil => exact PRes.noConfusion h
            | cons c3 r5 =>
                simp only at h
                split at h
                · cases h
                  exact ⟨WF_pIdent _ _ _ hI, ih.args _ _ _ hA⟩
                · exact PRes.noConfusion h
          · exact PRes.noConfusion h
          · exact PRes.noConfusion h
        · exact PRes.noConfusion h
  · exact PRes.noConfusion h
  · exact PRes.noConfusion h

theorem wf_atom (n : ℕ) (ih : WFPack n) :
    ∀ s e r, pAtom (n + 1) s = .ok e r → WFexpr e := by
  intro s e r h
  rw [pAtom_succ] at h
  rcases hP : pParens n s with ⟨e2, r2⟩ | b | _ <;> rw [hP] at h <;> (try simp only at h)
  · cases h
    exact ih.parens _ _ _ hP
  · cases b with
    | true => simp only at h; exact PRes.noConfusion h
    | false =>
        simp only at h
        rcases hN : pNumber s with ⟨n2, r2⟩ | b | _ <;> rw [hN] at h <;> (try simp only at h)
        · cases h
          exact WF_pNumber _ _ _ hN
        · cases b with
          | true => simp only at h; exact PRes.noConfusion h
          | false =>
              simp only at h
              rcases hA : pApplyFunc n s with ⟨e2, r2⟩ | b | _ <;> rw [hA] at h <;>
                (try simp only at h)
              · cases h
                exact ih.call _ _ _ hA
              · rcases hI : pIdent s with ⟨x2, r2⟩ | b | _ <;> rw [hI] at h <;>
                  (try simp only at h)
                · cases h
                  exact WF_pIdent _ _ _ hI
                · exact PRes.noConfusion h
                · exact PRes.noConfusion h
              · exact PRes.noConfusion h
        · exact PRes.noConfusion h
  · exact PRes.noConfusion h

theorem wf_fact (n : ℕ) (ih : WFPack n) :
    ∀ s e r, pFactorial (n + 1) s = .ok e r → WFexpr e := by
  intro s e r h
  rw [pFactorial_succ] at h
  rcases hA : pAtom n s with ⟨e2, r2⟩ | b | _ <;> rw [hA] at h <;> (try simp only at h)
  · cases r2 with
    | nil =>
        cases h
        exact ih.atom _ _ _ hA
    | cons c2 r3 =>
        simp only at h
        split at h
        · cases h
          exact show WFexpr e2 from ih.atom _ _ _ hA
        · cases h
          exact ih.atom _ _ _ hA
  · exact PRes.noConfusion h
  · exact PRes.noConfusion h

theorem wf_powLoop (n : ℕ) (ih : WFPack n) :
    ∀ hd items s e r, WFexpr hd → (∀ x ∈ items, WFexpr x) →
      pExpLoop (n + 1) hd items s = .ok e r → WFexpr e := by
  intro hd items s e r hhd hall h
  cases s with
  | nil =>
      rw [pExpLoop_succ] at h
      cases h
      exact foldPower_WF items hd hhd hall
  | cons c rest =>
      rw [pExpLoop_succ] at h
      simp only at h
      split at h
      · rcases hF : pFactorial n (dropSpaces rest) with ⟨b2, r2⟩ | b | _ <;> rw [hF] at h <;>
          (try simp only at h)
        · refine ih.powLoop hd (items ++ [b2]) r2 e r hhd ?_ h
          intro x hx
          rcases List.mem_append.mp hx with hx | hx
          · exact hall x hx
          · rw [List.mem_singleton] at hx
            subst hx
            exact ih.fact _ _ _ hF
        · exact PRes.noConfusion h
        · exact PRes.noConfusion h
      · split at h
        · cases rest with
          | nil =>
              simp only at h
              cases h
              exact foldPower_WF items hd hhd hall
          | cons c2 rest2 =>
              simp only at h
              split at h
              · rcases hF : pFactorial n (dropSpaces rest2) with ⟨b2, r2⟩ | b | _ <;>
                  rw [hF] at h <;> (try simp only at h)
                · refine ih.powLoop hd (items ++ [b2]) r2 e r hhd ?_ h
                  intro x hx
                  rcases List.mem_append.mp hx with hx | hx
                  · exact hall x hx
                  · rw [List.mem_singleton] at hx
                    subst hx
                    exact ih.fact _ _ _ hF
                · exact PRes.noConfusion h
                · exact PRes.noConfusion h
              · cases h
                exact foldPower_WF items hd hhd hall
        · cases h
          exact foldPower_WF items hd hhd hall

theorem wf_pow (n : ℕ) (ih : WFPack n) :
    ∀ s e r, pExp (n + 1) s = .ok e r → WFexpr e := by
  intro s e r h
  rw [pExp_succ] at h
  rcases hF : pFactorial n s with ⟨e2, r2⟩ | b | _ <;> rw [hF] at h <;> (try simp only at h)
  · exact ih.powLoop e2 [] r2 e r (ih.fact _ _ _ hF) (by intro x hx; simp at hx) h
  · exact PRes.noConfusion h
  · exact PRes.noConfusion h

theorem wf_implLoop (n : ℕ) (ih : WFPack n) :
    ∀ acc s e r, WFexpr acc → pImplLoop (n + 1) acc s = .ok e r → WFexpr e := by
  intro acc s e r hacc h
  rw [pImplLoop_succ] at h
  rcases hE : pExp n (dropSpaces s) with ⟨b2, r2⟩ | b | _ <;> rw [hE] at h <;>
    (try simp only at h)
  · exact ih.implLoop (.BinaryOp .Multiply acc b2) r2 e r ⟨hacc, ih.pow _ _ _ hE⟩ h
  · cases b with
    | true => simp only at h; exact PRes.noConfusion h
    | false =>
        simp only at h
        split at h
        · cases h
          exact hacc
        · exact PRes.noConfusion h
  · exact PRes.noConfusion h

theorem wf_impl (n : ℕ) (ih : WFPack n) :
    ∀ s e r, pImplicitMul (n + 1) s = .ok e r → WFexpr e := by
  intro s e r h
  rw [pImplicitMul_succ] at h
  rcases hE : pExp n s with ⟨e2, r2⟩ | b | _ <;> rw [hE] at h <;> (try simp only at h)
  · exact ih.implLoop e2 r2 e r (ih.pow _ _ _ hE) h
  · exact PRes.noConfusion h
  · exact PRes.noConfusion h

theorem wf_neg (n : ℕ) (ih : WFPack n) :
    ∀ s e r, pNegate (n + 1) s = .ok e r → WFexpr e := by
  intro s e r h
  rw [pNegate_succ] at h
  cases s with
  | nil =>
      simp only at h
      rcases hI : pImplicitMul n [] with ⟨e2, r2⟩ | b | _ <;> rw [hI] at h <;>
        (try simp only at h)
      · cases h
        exact ih.impl _ _ _ hI
      · exact PRes.noConfusion h
      · exact PRes.noConfusion h
  | cons c rest =>
      simp only at h
      split at h
      · rcases hI : pImplicitMul n (dropSpaces rest) with ⟨e2, r2⟩ | b | _ <;>
          rw [hI] at h <;> (try simp only at h)
        · cases h
          exact show WFexpr e2 from ih.impl _ _ _ hI
        · exact PRes.noConfusion h
        · exact PRes.noConfusion h
      · split at h
        · rcases hI : pImplicitMul n (dropSpaces rest) with ⟨e2, r2⟩ | b | _ <;>
            rw [hI] at h <;> (try simp only at h)
          · cases h
            exact ih.impl _ _ _ hI
          · exact PRes.noConfusion h
          · exact PRes.noConfusion h
        · rcases hI : pImplicitMul n (c :: rest) with ⟨e2, r2⟩ | b | _ <;>
            rw [hI] at h <;> (try simp only at h)
          · cases h
            exact ih.impl _ _ _ hI
          · exact PRes.noConfusion h
          · exact PRes.noConfusion h

theorem wf_mulLoop (n : ℕ) (ih : WFPack n) :
    ∀ acc s e r, WFexpr acc → pMulLoop (n + 1) acc s = .ok e r → WFexpr e := by
  intro acc s e r hacc h
  cases s with
  | nil =>
      rw [pMulLoop_succ] at h
      cases h
      exact hacc
  | cons c rest =>
      rw [pMulLoop_succ] at h
      simp only at h
      split at h
      · rcases hN : pNegate n (dropSpaces rest) with ⟨b2, r2⟩ | b | _ <;> rw [hN] at h <;>
          (try simp only at h)
        · exact ih.mulLoop (.BinaryOp .Multiply acc b2) r2 e r ⟨hacc, ih.neg _ _ _ hN⟩ h
        · exact PRes.noConfusion h
        · exact PRes.noConfusion h
      · split at h
        · rcases hN : pNegate n (dropSpaces rest) with ⟨b2, r2⟩ | b | _ <;> rw [hN] at h <;>
            (try simp only at h)
          · exact ih.mulLoop (.BinaryOp .Divide acc b2) r2 e r ⟨hacc, ih.neg _ _ _ hN⟩ h
          · exact PRes.noConfusion h
          · exact PRes.noConfusion h
        · split at h
          · rcases hN : pNegate n (dropSpaces rest) with ⟨b2, r2⟩ | b | _ <;> rw [hN] at h <;>
              (try simp only at h)
            · exact ih.mulLoop (.BinaryOp .Modulo acc b2) r2 e r ⟨hacc, ih.neg _ _ _ hN⟩ h
            · exact PRes.noConfusion h
            · exact PRes.noConfusion h
          · cases h
            exact hacc

theorem wf_mul (n : ℕ) (ih : WFPack n) :
    ∀ s e r, pMul (n + 1) s = .ok e r → WFexpr e := by
  intro s e r h
  rw [pMul_succ] at h
  rcases hN : pNegate n s with ⟨e2, r2⟩ | b | _ <;> rw [hN] at h <;> (try simp only at h)
  · exact ih.mulLoop e2 r2 e r (ih.neg _ _ _ hN) h
  · exact PRes.noConfusion h
  · exact PRes.noConfusion h

theorem wf_addLoop (n : ℕ) (ih : WFPack n) :
    ∀ acc s e r, WFexpr acc → pAddLoop (n + 1) acc s = .ok e r → WFexpr e := by
  intro acc s e r hacc h
  cases s with
  | nil =>
      rw [pAddLoop_succ] at h
      cases h
      exact hacc
  | cons c rest =>
      rw [pAddLoop_succ] at h
      simp only at h
      split at h
      · rcases hM : pMul n (dropSpaces rest) with ⟨b2, r2⟩ | b | _ <;> rw [hM] at h <;>
          (try simp only at h)
        · exact ih.addLoop (.BinaryOp .Add acc b2) r2 e r ⟨hacc, ih.mul _ _ _ hM⟩ h
        · exact PRes.noConfusion h
        · exact PRes.noConfusion h
      · split at h
        · rcases hM : pMul n (dropSpaces rest) with ⟨b2, r2⟩ | b | _ <;> rw [hM] at h <;>
            (try simp only at h)
          · exact ih.addLoop (.BinaryOp .Subtract acc b2) r2 e r ⟨hacc, ih.mul _ _ _ hM⟩ h
          · exact PRes.noConfusion h
          · exact PRes.noConfusion h
        · cases h
          exact hacc

theorem wf_add (n : ℕ) (ih : WFPack n) :
    ∀ s e r, pAdd (n + 1) s = .ok e r → WFexpr e := by
  intro s e r h
  rw [pAdd_succ] at h
  rcases hM : pMul n s with ⟨e2, r2⟩ | b | _ <;> rw [hM] at h <;> (try simp only at h)
  · exact ih.addLoop e2 r2 e r (ih.mul _ _ _ hM) h
  · exact PRes.noConfusion h
  · exact PRes.noConfusion h

theorem wf_expr (n : ℕ) (ih : WFPack n) :
    ∀ s e r, pExpr (n + 1) s = .ok e r → WFexpr e := by
  intro s e r h
  rw [pExpr_succ] at h
  rcases hA : pAdd n s with ⟨e2, r2⟩ | b | _ <;> rw [hA] at h <;> (try simp only at h)
  · cases h
    exact ih.add _ _ _ hA
  · exact PRes.noConfusion h
  · exact PRes.noConfusion h

theorem wf_argsLoop (n : ℕ) (ih : WFPack n) :
    ∀ acc s l r, WFlist acc → pArgsLoop (n + 1) acc s = .ok l r → WFlist l := by
  intro acc s l r hacc h
  cases s with
  | nil =>
      rw [pArgsLoop_succ] at h
      cases h
      exact hacc
  | cons c rest =>
      rw [pArgsLoop_succ] at h
      simp only at h
      split at h
      · rcases hE : pExpr n (dropSpaces rest) with ⟨b2, r2⟩ | b | _ <;> rw [hE] at h <;>
          (try simp only at h)
        · exact ih.argsLoop (acc ++ [b2]) r2 l r
            (WFlist_append acc [b2] hacc ⟨ih.expr _ _ _ hE, trivial⟩) h
        · exact PRes.noConfusion h
        · exact PRes.noConfusion h
      · cases h
        exact hacc

theorem wf_args (n : ℕ) (ih : WFPack n) :
    ∀ s l r, pArgs (n + 1) s = .ok l r → WFlist l := by
  intro s l r h
  rw [pArgs_succ] at h
  rcases hE : pExpr n s with ⟨e2, r2⟩ | b | _ <;> rw [hE] at h <;> (try simp only at h)
  · exact ih.argsLoop [e2] r2 l r ⟨ih.expr _ _ _ hE, trivial⟩ h
  · cases b with
    | true => simp only at h; exact PRes.noConfusion h
    | false =>
        simp only at h
        cases h
        trivial
  · exact PRes.noConfusion h

theorem wfPack : ∀ fuel, WFPack fuel := by
  intro fuel
  induction fuel with
  | zero =>
      exact ⟨fun s e r h => PRes.noConfusion h, fun s e r h => PRes.noConfusion h,
        fun s e r h => PRes.noConfusion h, fun s e r h => PRes.noConfusion h,
        fun hd items s e r _ _ h => PRes.noConfusion h, fun s e r h => PRes.noConfusion h,
        fun acc s e r _ h => PRes.noConfusion h, fun s e r h => PRes.noConfusion h,
        fun s e r h => PRes.noConfusion h, fun acc s e r _ h => PRes.noConfusion h,
        fun s e r h => PRes.noConfusion h, fun acc s e r _ h => PRes.noConfusion h,
        fun s e r h => PRes.noConfusion h, fun s e r h => PRes.noConfusion h,
        fun acc s l r _ h => PRes.noConfusion h, fun s l r h => PRes.noConfusion h⟩
  | succ n ih =>
      exact ⟨wf_parens n ih, wf_call n ih, wf_atom n ih, wf_fact n ih, wf_powLoop n ih,
        wf_pow n ih, wf_implLoop n ih, wf_impl n ih, wf_neg n ih, wf_mulLoop n ih,
        wf_mul n ih, wf_addLoop n ih, wf_add n ih, wf_expr n ih, wf_argsLoop n ih,
        wf_args n ih⟩

theorem WF_pIdentList_pack : ∀ fuel,
    (∀ s l r, pIdentList fuel s = .ok l r → ∀ x ∈ l, WFident x) ∧
    (∀ acc s l r, (∀ x ∈ acc, WFident x) → pIdentListLoop fuel acc s = .ok l r →
      ∀ x ∈ l, WFident x) := by
  intro fuel
  induction fuel with
  | zero =>
      exact ⟨fun s l r h => PRes.noConfusion h, fun acc s l r _ h => PRes.noConfusion h⟩
  | succ n ih =>
      constructor
      · intro s l r h
        rw [pIdentList_succ] at h
        rcases hI : pIdent s with ⟨id2, r2⟩ | b | _ <;> rw [hI] at h <;> (try simp only at h)
        · refine ih.2 [id2] r2 l r ?_ h
          intro x hx
          rw [List.mem_singleton] at hx
          subst hx
          exact WF_pIdent _ _ _ hI
        · cases b with
          | true => simp only at h; exact PRes.noConfusion h
          | false =>
              simp only at h
              cases h
              intro x hx
              simp at hx
        · exact absurd hI (pIdent_ne_out s)
      · intro acc s l r hacc h
        cases s with
        | nil =>
            rw [pIdentListLoop_succ] at h
            cases h
            exact hacc
        | cons c rest =>
            rw [pIdentListLoop_succ] at h
            simp only at h
            split at h
            · rcases hI : pIdent (dropSpaces rest) with ⟨id2, r2⟩ | b | _ <;> rw [hI] at h <;>
                (try simp only at h)
              · refine ih.2 (acc ++ [id2]) r2 l r ?_ h
                intro x hx
                rcases List.mem_append.mp hx with hx | hx
                · exact hacc x hx
                · rw [List.mem_singleton] at hx
                  subst hx
                  exact WF_pIdent _ _ _ hI
              · exact PRes.noConfusion h
              · exact absurd hI (pIdent_ne_out _)
            · cases h
              exact hacc

theorem WF_pAssignVar (fuel : ℕ) : ∀ s a r, pAssignVar fuel s = .ok a r →
    WFident a.name ∧ WFexpr a.expr := by
  intro s a r h
  cases fuel with
  | zero => exact absurd h (by rw [show pAssignVar 0 s = .out from rfl]; simp)
  | succ n =>
      rw [pAssignVar_succ] at h
      rcases hI : pIdent s with ⟨name, r1⟩ | b | _ <;> rw [hI] at h <;> (try simp only at h)
      · cases r1 with
        | nil => exact PRes.noConfusion h
        | cons c2 r2 =>
            simp only at h
            split at h
            · rcases hE : pExpr n (dropSpaces r2) with ⟨e2, r3⟩ | b | _ <;> rw [hE] at h <;>
                (try simp only at h)
              · cases h
                exact ⟨WF_pIdent _ _ _ hI, (wfPack n).expr _ _ _ hE⟩
              · exact PRes.noConfusion h
              · exact PRes.noConfusion h
            · exact PRes.noConfusion h
      · exact PRes.noConfusion h
      · exact PRes.noConfusion h

theorem WF_pDefFunc (fuel : ℕ) : ∀ s d r, pDefFunc fuel s = .ok d r →
    WFident d.name ∧ (∀ x ∈ d.arg_names, WFident x) ∧ WFexpr d.expr := by
  intro s d r h
  cases fuel with
  | zero => exact absurd h (by rw [show pDefFunc 0 s = .out from rfl]; simp)
  | succ n =>
      rw [pDefFunc_succ] at h
      rcases hI : pIdent s with ⟨name, r1⟩ | b | _ <;> rw [hI] at h <;> (try simp only at h)
      · cases r1 with
        | nil => exact PRes.noConfusion h
        | cons c2 r2 =>
            simp only at h
            split at h
            · rcases hIL : pIdentList n (dropSpaces r2) with ⟨args2, r4⟩ | b | _ <;>
                rw [hIL] at h <;> (try simp only at h)
              · cases r4 with
                | nil => exact PRes.noConfusion h
                | cons c3 r5 =>
                    simp only at h
                    split at h
                    · rcases hdr : dropSpaces r5 with _ | ⟨c4, r7⟩ <;> rw [hdr] at h <;>
                        (try simp only at h)
                      · exact PRes.noConfusion h
                      · split at h
                        · rcases hE : pExpr n (dropSpaces r7) with ⟨e2, r9⟩ | b | _ <;>
                            rw [hE] at h <;> (try simp only at h)
                          · cases h
                            exact ⟨WF_pIdent _ _ _ hI, (WF_pIdentList_pack n).1 _ _ _ hIL,
                              (wfPack n).expr _ _ _ hE⟩
                          · exact PRes.noConfusion h
                          · exact PRes.noConfusion h
                        · exact PRes.noConfusion h
                    · exact PRes.noConfusion h
              · exact PRes.noConfusion h
              · exact PRes.noConfusion h
            · exact PRes.noConfusion h
      · exact PRes.noConfusion h
      · exact PRes.noConfusion h

theorem WF_pStmt (fuel : ℕ) : ∀ s st r, pStmt fuel s = .ok st r → WFstmt st := by
  intro s st r h
  cases fuel with
  | zero => exact absurd h (by rw [show pStmt 0 s = .out from rfl]; simp)
  | succ n =>
      rw [pStmt_succ] at h
      rcases hD : pDefFunc n s with ⟨d, r2⟩ | b | _ <;> rw [hD] at h <;> (try simp only at h)
      · cases h
        exact WF_pDefFunc n _ _ _ hD
      · rcases hA : pAssignVar n s with ⟨a, r2⟩ | b | _ <;> rw [hA] at h <;>
          (try simp only at h)
        · cases h
          exact WF_pAssignVar n _ _ _ hA
        · rcases hE : pExpr n s with ⟨e2, r2⟩ | b | _ <;> rw [hE] at h <;>
            (try simp only at h)
          · cases h
            exact (wfPack n).expr _ _ _ hE
          · exact PRes.noConfusion h
          · exact PRes.noConfusion h
        · exact PRes.noConfusion h
      · exact PRes.noConfusion h

theorem WF_pStmtItem (fuel : ℕ) : ∀ s v r, pStmtItem fuel s = .ok v r →
    ∀ st, v = some st → WFstmt st := by
  intro s v r h
  cases fuel with
  | zero => exact absurd h (by rw [show pStmtItem 0 s = .out from rfl]; simp)
  | succ n =>
      rw [pStmtItem_succ] at h
      rcases hS : pStmt n (dropSpaces s) with ⟨st2, r2⟩ | b | _ <;> rw [hS] at h <;>
        (try simp only at h)
      · cases h
        intro st hst
        rw [Option.some.injEq] at hst
        subst hst
        exact WF_pStmt n _ _ _ hS
      · cases b with
        | true => simp only at h; exact PRes.noConfusion h
        | false =>
            simp only at h
            cases h
            intro st hst
            exact Option.noConfusion hst
      · exact PRes.noConfusion h

theorem WF_pStmtList_pack : ∀ fuel,
    (∀ s l r, pStmtList fuel s = .ok l r → ∀ v ∈ l, ∀ st, v = some st → WFstmt st) ∧
    (∀ acc s l r, (∀ v ∈ acc, ∀ st, v = some st → WFstmt st) →
      pStmtListLoop fuel acc s = .ok l r → ∀ v ∈ l, ∀ st, v = some st → WFstmt st) := by
  intro fuel
  induction fuel with
  | zero =>
      exact ⟨fun s l r h => PRes.noConfusion h, fun acc s l r _ h => PRes.noConfusion h⟩
  | succ n ih =>
      constructor
      · intro s l r h
        rw [pStmtList_succ] at h
        rcases hSI : pStmtItem n s with ⟨v, r2⟩ | b | _ <;> rw [hSI] at h <;>
          (try simp only at h)
        · refine ih.2 [v] r2 l r ?_ h
          intro v2 hv2
          rw [List.mem_singleton] at hv2
          subst hv2
          exact WF_pStmtItem n _ _ _ hSI
        · exact PRes.noConfusion h
        · exact PRes.noConfusion h
      · intro acc s l r hacc h
        rw [pStmtListLoop_succ] at h
        rcases hSep : pSep s with ⟨u, r2⟩ | b | _ <;> rw [hSep] at h <;> (try simp only at h)
        · rcases hSI : pStmtItem n r2 with ⟨v, r3⟩ | b | _ <;> rw [hSI] at h <;>
            (try simp only at h)
          · refine ih.2 (acc ++ [v]) r3 l r ?_ h
            intro v2 hv2
            rcases List.mem_append.mp hv2 with hx | hx
            · exact hacc v2 hx
            · rw [List.mem_singleton] at hx
              subst hx
              exact WF_pStmtItem n _ _ _ hSI
          · exact PRes.noConfusion h
          · exact PRes.noConfusion h
        · cases b with
          | true => simp only at h; exact PRes.noConfusion h
          | false =>
              simp only at h
              cases h
              exact hacc
        · exact PRes.noConfusion h

theorem WF_pScript (fuel : ℕ) : ∀ s l r, pScript fuel s = .ok l r →
    ∀ st ∈ l, WFstmt st := by
  intro s l r h
  cases fuel with
  | zero => exact absurd h (by rw [show pScript 0 s = .out from rfl]; simp)
  | succ n =>
      rw [pScript_succ] at h
      rcases hSL : pStmtList n s with ⟨vs, r2⟩ | b | _ <;> rw [hSL] at h <;>
        (try simp only at h)
      · have hvs := (WF_pStmtList_pack n).1 s vs r2 hSL
        have hl : l = vs.filterMap id := by
          rcases r2 with _ | ⟨c, rest⟩
          · simp only at h
            cases h
            rfl
          · simp only at h
            split at h
            · cases h; rfl
            · split at h
              · cases h; rfl
              · cases h; rfl
        subst hl
        intro st hst
        rw [List.mem_filterMap] at hst
        obtain ⟨v, hv, hid⟩ := hst
        exact hvs v hv st hid
      · exact PRes.noConfusion h
      · exact PRes.noConfusion h

theorem parse_WF {input : List Char} {stmts : List Statement}
    (h : parse input = some stmts) : ∀ st ∈ stmts, WFstmt st := by
  rw [parse] at h
  rcases hS : pScript (16 * input.length + 16) input with ⟨l, r⟩ | b | _ <;> rw [hS] at h <;>
    (try simp only at h)
  · split at h
    · rw [Option.some.injEq] at h
      subst h
      exact WF_pScript _ _ _ _ hS
    · exact Option.noConfusion h
  · exact Option.noConfusion h
  · exact Option.noConfusion h

/-! ### The display of a well-formed expression never contains `=` -/

theorem numChars_no_eq (q : MRat) : ('=' : Char) ∉ numChars q := by
  intro hc
  rw [numChars] at hc
  split at hc
  · exact absurd (natToChars_digits _ _ hc) (by decide)
  · simp only [List.mem_append, List.mem_cons] at hc
    rcases hc with hc | hc | hc
    · exact absurd (natToChars_digits _ _ hc) (by decide)
    · exact absurd hc (by decide)
    · exact absurd (fracDigits_digits _ _ _ hc) (by decide)

theorem identData_no_eq {x : Identifier} (h : WFident x) : ('=' : Char) ∉ x.data := by
  obtain ⟨c, cs, hdata, hstart, hcs⟩ := h
  rw [hdata]
  intro hc
  rcases List.mem_cons.mp hc with heq | hc2
  · cases heq
    exact absurd hstart (by decide)
  · exact absurd (hcs _ hc2) (by decide)

theorem wrapA_no_eq {x : Expression} (h : ('=' : Char) ∉ render x) :
    ('=' : Char) ∉ wrapA x := by
  intro hc
  rw [wrapA] at hc
  split at hc
  · simp only [List.mem_cons, List.mem_append, List.mem_singleton] at hc
    have h3 : ¬(('=' : Char) = '(') := by decide
    have h4 : ¬(('=' : Char) = ')') := by decide
    tauto
  · exact h hc

theorem renderMulPos_no_eq {x : Expression} (h : ('=' : Char) ∉ render x) :
    ('=' : Char) ∉ renderMulPos x := by
  intro hc
  rw [renderMulPos] at hc
  split at hc
  · simp only [List.mem_cons, List.mem_append, List.mem_singleton] at hc
    have h3 : ¬(('=' : Char) = '(') := by decide
    have h4 : ¬(('=' : Char) = ')') := by decide
    tauto
  · exact h hc

theorem renderNegPos_no_eq {x : Expression} (h : ('=' : Char) ∉ render x) :
    ('=' : Char) ∉ renderNegPos x := by
  intro hc
  rw [renderNegPos] at hc
  split at hc
  · simp only [List.mem_cons, List.mem_append, List.mem_singleton] at hc
    have h3 : ¬(('=' : Char) = '(') := by decide
    have h4 : ¬(('=' : Char) = ')') := by decide
    tauto
  · exact h hc

mutual

theorem render_no_eq : ∀ e, WFexpr e → ('=' : Char) ∉ render e
  | .Number num, h => by
      obtain ⟨q, rfl, _⟩ := (h : WFnum num)
      exact numChars_no_eq q
  | .Variable x, h => identData_no_eq (h : WFident x)
  | .Function name args, h => by
      intro hc
      rw [show render (.Function name args) = name.data ++ '(' :: renderArgs args ++ [')']
        from rfl] at hc
      simp only [List.mem_append, List.mem_cons, List.mem_singleton] at hc
      have h1 := identData_no_eq (h : WFident name ∧ WFlist args).1
      have h2 := renderArgs_no_eq args (h : WFident name ∧ WFlist args).2
      have h3 : ¬(('=' : Char) = '(') := by decide
      have h4 : ¬(('=' : Char) = ')') := by decide
      tauto
  | .UnaryOp .Negate x, h => by
      intro hc
      rw [render_neg] at hc
      rcases List.mem_cons.mp hc with hc | hc
      · exact absurd hc (by decide)
      · exact wrapA_no_eq (render_no_eq x (h : WFexpr x)) hc
  | .UnaryOp .Factorial x, h => by
      intro hc
      rw [render_fact] at hc
      rcases List.mem_append.mp hc with hc | hc
      · exact wrapA_no_eq (render_no_eq x (h : WFexpr x)) hc
      · exact absurd (List.mem_singleton.mp hc) (by decide)
  | .BinaryOp .Power a b, h => by
      intro hc
      rw [render_pow] at hc
      rcases List.mem_append.mp hc with hc | hc
      · exact wrapA_no_eq (render_no_eq a (h : WFexpr a ∧ WFexpr b).1) hc
      · rcases List.mem_cons.mp hc with hc | hc
        · exact absurd hc (by decide)
        · exact wrapA_no_eq (render_no_eq b (h : WFexpr a ∧ WFexpr b).2) hc
  | .BinaryOp .Add a b, h => by
      intro hc
      rw [render_add_eq .Add a b (Or.inl rfl),
        show BinaryOp.opChar .Add = '+' from rfl] at hc
      simp only [List.mem_append, List.mem_cons] at hc
      have h1 := render_no_eq a (h : WFexpr a ∧ WFexpr b).1
      have h2 := renderMulPos_no_eq (render_no_eq b (h : WFexpr a ∧ WFexpr b).2)
      have h3 : ¬(('=' : Char) = ' ') := by decide
      have h4 : ¬(('=' : Char) = '+') := by decide
      tauto
  | .BinaryOp .Subtract a b, h => by
      intro hc
      rw [render_add_eq .Subtract a b (Or.inr rfl),
        show BinaryOp.opChar .Subtract = '-' from rfl] at hc
      simp only [List.mem_append, List.mem_cons] at hc
      have h1 := render_no_eq a (h : WFexpr a ∧ WFexpr b).1
      have h2 := renderMulPos_no_eq (render_no_eq b (h : WFexpr a ∧ WFexpr b).2)
      have h3 : ¬(('=' : Char) = ' ') := by decide
      have h4 : ¬(('=' : Char) = '-') := by decide
      tauto
  | .BinaryOp .Multiply a b, h => by
      intro hc
      rw [render_mul_eq .Multiply a b (Or.inl rfl),
        show BinaryOp.opChar .Multiply = '×' from rfl] at hc
      simp only [List.mem_append, List.mem_cons] at hc
      have h1 := renderMulPos_no_eq (render_no_eq a (h : WFexpr a ∧ WFexpr b).1)
      have h2 := renderNegPos_no_eq (render_no_eq b (h : WFexpr a ∧ WFexpr b).2)
      have h3 : ¬(('=' : Char) = ' ') := by decide
      have h4 : ¬(('=' : Char) = '×') := by decide
      tauto
  | .BinaryOp .Divide a b, h => by
      intro hc
      rw [render_mul_eq .Divide a b (Or.inr (Or.inl rfl)),
        show BinaryOp.opChar .Divide = '/' from rfl] at hc
      simp only [List.mem_append, List.mem_cons] at hc
      have h1 := renderMulPos_no_eq (render_no_eq a (h : WFexpr a ∧ WFexpr b).1)
      have h2 := renderNegPos_no_eq (render_no_eq b (h : WFexpr a ∧ WFexpr b).2)
      have h3 : ¬(('=' : Char) = ' ') := by decide
      have h4 : ¬(('=' : Char) = '/') := by decide
      tauto
  | .BinaryOp .Modulo a b, h => by
      intro hc
      rw [render_mul_eq .Modulo a b (Or.inr (Or.inr rfl)),
        show BinaryOp.opChar .Modulo = '%' from rfl] at hc
      simp only [List.mem_append, List.mem_cons] at hc
      have h1 := renderMulPos_no_eq (render_no_eq a (h : WFexpr a ∧ WFexpr b).1)
      have h2 := renderNegPos_no_eq (render_no_eq b (h : WFexpr a ∧ WFexpr b).2)
      have h3 : ¬(('=' : Char) = ' ') := by decide
      have h4 : ¬(('=' : Char) = '%') := by decide
      tauto

theorem renderArgs_no_eq : ∀ l, WFlist l → ('=' : Char) ∉ renderArgs l
  | [], _ => by
      intro hc
      simp [renderArgs] at hc
  | [a], h => render_no_eq a (h : WFexpr a ∧ WFlist []).1
  | a :: b :: rest, h => by
      intro hc
      rw [show renderArgs (a :: b :: rest) = render a ++ ',' :: ' ' :: renderArgs (b :: rest)
        from rfl] at hc
      simp only [List.mem_append, List.mem_cons] at hc
      have h1 := render_no_eq a (h : WFexpr a ∧ WFlist (b :: rest)).1
      have h2 := renderArgs_no_eq (b :: rest) (h : WFexpr a ∧ WFlist (b :: rest)).2
      have h3 : ¬(('=' : Char) = ',') := by decide
      have h4 : ¬(('=' : Char) = ' ') := by decide
      tauto

end

/-! ### A successful assignment or definition parse saw an `=` -/

theorem pAssignVar_eq_mem (fuel : ℕ) : ∀ s a r, pAssignVar fuel s = .ok a r →
    ('=' : Char) ∈ s := by
  intro s a r h
  cases fuel with
  | zero => exact absurd h (by rw [show pAssignVar 0 s = .out from rfl]; simp)
  | succ n =>
      rw [pAssignVar_succ] at h
      rcases hI : pIdent s with ⟨name, r1⟩ | b | _ <;> rw [hI] at h <;> (try simp only at h)
      · cases r1 with
        | nil => exact PRes.noConfusion h
        | cons c2 r2 =>
            simp only at h
            split at h
            · rename_i hc2
              subst hc2
              exact (suf_pIdent hI).mem (List.mem_cons_self _ _)
            · exact PRes.noConfusion h
      · exact PRes.noConfusion h
      · exact PRes.noConfusion h

theorem pDefFunc_eq_mem (fuel : ℕ) : ∀ s d r, pDefFunc fuel s = .ok d r →
    ('=' : Char) ∈ s := by
  intro s d r h
  cases fuel with
  | zero => exact absurd h (by rw [show pDefFunc 0 s = .out from rfl]; simp)
  | succ n =>
      rw [pDefFunc_succ] at h
      rcases hI : pIdent s with ⟨name, r1⟩ | b | _ <;> rw [hI] at h <;> (try simp only at h)
      · cases r1 with
        | nil => exact PRes.noConfusion h
        | cons c2 r2 =>
            simp only at h
            split at h
            · rcases hIL : pIdentList n (dropSpaces r2) with ⟨args2, r4⟩ | b | _ <;>
                rw [hIL] at h <;> (try simp only at h)
              · cases r4 with
                | nil => exact PRes.noConfusion h
                | cons c3 r5 =>
                    simp only at h
                    split at h
                    · rcases hdr : dropSpaces r5 with _ | ⟨c4, r7⟩ <;> rw [hdr] at h <;>
                        (try simp only at h)
                      · exact PRes.noConfusion h
                      · split at h
                        · rename_i hc4
                          subst hc4
                          have m1 : ('=' : Char) ∈ dropSpaces r5 := by
                            rw [hdr]
                            exact List.mem_cons_self _ _
                          have m2 : ('=' : Char) ∈ r5 := (suf_dropSpaces r5).mem m1
                          have m3 : ('=' : Char) ∈ c3 :: r5 := List.mem_cons_of_mem _ m2
                          have m4 : ('=' : Char) ∈ dropSpaces r2 :=
                            ((suf_pIdentList_pack n).1 _ _ _ hIL).mem m3
                          have m5 : ('=' : Char) ∈ r2 := (suf_dropSpaces r2).mem m4
                          have m6 : ('=' : Char) ∈ c2 :: r2 := List.mem_cons_of_mem _ m5
                          exact (suf_pIdent hI).mem m6
                        · exact PRes.noConfusion h
                    · exact PRes.noConfusion h
              · exact PRes.noConfusion h
              · exact PRes.noConfusion h
            · exact PRes.noConfusion h
      · exact PRes.noConfusion h
      · exact PRes.noConfusion h

/-! ### Re-parsing a displayed statement -/

/-- The `", "`-separated continuation of a parameter list after the
first name. -/
def renderParamsRest : List Identifier → List Char
  | [] => []
  | a :: rest => ',' :: ' ' :: a.data ++ renderParamsRest rest

theorem renderParams_eq : ∀ (a : Identifier) (rest : List Identifier),
    renderParams (a :: rest) = a.data ++ renderParamsRest rest
  | a, [] => by simp [renderParams, renderParamsRest]
  | a, b :: rest => by
      rw [show renderParams (a :: b :: rest) = a.data ++ ',' :: ' ' :: renderParams (b :: rest)
        from rfl, renderParams_eq b rest]
      simp [renderParamsRest]

theorem paramsRest_identStop (rest : List Identifier) (r : List Char) :
    identStop (renderParamsRest rest ++ ')' :: r) := by
  cases rest with
  | nil =>
      rw [show renderParamsRest [] ++ ')' :: r = ')' :: r from by
        rw [show renderParamsRest [] = ([] : List Char) from rfl]; simp]
      exact (by decide : isIdentChar ')' = false)
  | cons a rest2 =>
      rw [show renderParamsRest (a :: rest2) ++ ')' :: r =
          ',' :: (' ' :: a.data ++ renderParamsRest rest2 ++ ')' :: r) from by
        simp [renderParamsRest]]
      exact (by decide : isIdentChar ',' = false)

theorem paramsRest_dropSpaces (rest : List Identifier) (r : List Char) :
    dropSpaces (renderParamsRest rest ++ ')' :: r) = renderParamsRest rest ++ ')' :: r := by
  cases rest with
  | nil =>
      rw [show renderParamsRest [] ++ ')' :: r = ')' :: r from by
        rw [show renderParamsRest [] = ([] : List Char) from rfl]; simp]
      exact dropSpaces_cons_nonspace (by decide) r
  | cons a rest2 =>
      rw [show renderParamsRest (a :: rest2) ++ ')' :: r =
          ',' :: (' ' :: a.data ++ renderParamsRest rest2 ++ ')' :: r) from by
        simp [renderParamsRest]]
      exact dropSpaces_cons_nonspace (by decide) _

theorem renderParams_dropSpaces {ids : List Identifier} (hids : ∀ x ∈ ids, WFident x)
    (r : List Char) :
    dropSpaces (renderParams ids ++ ')' :: r) = renderParams ids ++ ')' :: r := by
  cases ids with
  | nil =>
      rw [show renderParams ([] : List Identifier) ++ ')' :: r = ')' :: r from by
        rw [show renderParams [] = ([] : List Char) from rfl]; simp]
      exact dropSpaces_cons_nonspace (by decide) r
  | cons a rest =>
      obtain ⟨c, cs, hdata, hstart, _⟩ := hids a (by simp)
      rw [renderParams_eq a rest, List.append_assoc, hdata, List.cons_append]
      exact dropSpaces_cons_nonspace (identStart_not_space hstart) _

theorem pIdentListLoop_renderParams : ∀ fuel (acc ids : List Identifier),
    (∀ x ∈ ids, WFident x) → ∀ r,
    pIdentListLoop fuel acc (renderParamsRest ids ++ ')' :: r) =
        .ok (acc ++ ids) (')' :: r) ∨
      pIdentListLoop fuel acc (renderParamsRest ids ++ ')' :: r) = .out := by
  intro fuel
  induction fuel with
  | zero => intro acc ids _ r; exact Or.inr rfl
  | succ n ih =>
      intro acc ids hids r
      cases ids with
      | nil =>
          rw [show renderParamsRest [] ++ ')' :: r = ')' :: r from by
            rw [show renderParamsRest [] = ([] : List Char) from rfl]; simp]
          rw [pIdentListLoop_succ]
          simp only
          rw [if_neg (by decide), List.append_nil]
          exact Or.inl rfl
      | cons a rest =>
          rw [show renderParamsRest (a :: rest) ++ ')' :: r =
              ',' :: (' ' :: (a.data ++ (renderParamsRest rest ++ ')' :: r))) from by
            simp [renderParamsRest]]
          rw [pIdentListLoop_succ]
          simp only
          rw [if_pos (by trivial)]
          have ha := hids a (by simp)
          obtain ⟨c0, cs0, hdata, hstart, hcs0⟩ := ha
          have hident : pIdent (dropSpaces (' ' :: (a.data ++ (renderParamsRest rest ++
              ')' :: r)))) = .ok a (renderParamsRest rest ++ ')' :: r) := by
            rw [dropSpaces_cons_space (by decide), hdata, List.cons_append,
              dropSpaces_cons_nonspace (identStart_not_space hstart), ← List.cons_append,
              ← hdata, pIdent_chars a ⟨c0, cs0, hdata, hstart, hcs0⟩ _
                (paramsRest_identStop rest r),
              paramsRest_dropSpaces]
          rw [hident]
          simp only
          have hL := ih (acc ++ [a]) rest (fun x hx => hids x (by simp [hx])) r
          rw [show (acc ++ [a]) ++ rest = acc ++ a :: rest from by simp] at hL
          exact hL

theorem pIdentList_renderParams (fuel : ℕ) (ids : List Identifier)
    (hids : ∀ x ∈ ids, WFident x) (r : List Char) :
    pIdentList fuel (renderParams ids ++ ')' :: r) = .ok ids (')' :: r) ∨
      pIdentList fuel (renderParams ids ++ ')' :: r) = .out := by
  cases fuel with
  | zero => exact Or.inr rfl
  | succ n =>
      cases ids with
      | nil =>
          rw [show renderParams ([] : List Identifier) ++ ')' :: r = ')' :: r from by
            rw [show renderParams [] = ([] : List Char) from rfl]; simp]
          rw [pIdentList_succ,
            stopIdent (show noIdentHead (')' :: r) from
              (by decide : isIdentStartChar ')' = false))]
          simp only
          exact Or.inl trivial
      | cons a rest =>
          rw [renderParams_eq a rest, List.append_assoc, pIdentList_succ]
          have ha := hids a (by simp)
          have hident : pIdent (a.data ++ (renderParamsRest rest ++ ')' :: r)) =
              .ok a (renderParamsRest rest ++ ')' :: r) := by
            rw [pIdent_chars a ha _ (paramsRest_identStop rest r), paramsRest_dropSpaces]
          rw [hident]
          simp only
          have hL := pIdentListLoop_renderParams n [a] rest
            (fun x hx => hids x (by simp [hx])) r
          rw [show ([a] : List Identifier) ++ rest = a :: rest from rfl] at hL
          exact hL

theorem dropSpaces_render {e : Expression} (he : WFexpr e) :
    dropSpaces (render e) = render e := by
  obtain ⟨c, r, hcr, hg⟩ := render_head e he
  rw [hcr]
  exact dropSpaces_cons_nonspace (goodHead_nonspace hg) r

theorem renderStmt_head (st : Statement) (h : WFstmt st) :
    dropSpaces (renderStmt st) = renderStmt st := by
  cases st with
  | Expression e => exact dropSpaces_render h
  | VariableAssignment va =>
      obtain ⟨c, cs, hdata, hstart, _⟩ := (h : WFident va.name ∧ WFexpr va.expr).1
      rw [show renderStmt (Statement.VariableAssignment va) =
        va.name.data ++ (' ' :: '=' :: ' ' :: render va.expr) from rfl, hdata,
        List.cons_append]
      exact dropSpaces_cons_nonspace (identStart_not_space hstart) _
  | FunctionDefinition fd =>
      obtain ⟨c, cs, hdata, hstart, _⟩ :=
        (h : WFident fd.name ∧ (∀ a ∈ fd.arg_names, WFident a) ∧ WFexpr fd.expr).1
      rw [show renderStmt (Statement.FunctionDefinition fd) =
        fd.name.data ++ ('(' :: (renderParams fd.arg_names ++
          ')' :: ' ' :: '=' :: ' ' :: render fd.expr)) from by simp [renderStmt], hdata,
        List.cons_append]
      exact dropSpaces_cons_nonspace (identStart_not_space hstart) _

theorem pStmt_renderStmt {st : Statement} (h : WFstmt st) (M : ℕ)
    (hM : 16 * (renderStmt st).length + 12 ≤ M) :
    pStmt M (renderStmt st) = .ok st [] := by
  cases M with
  | zero => exact absurd hM (by omega)
  | succ m =>
      rw [pStmt_succ]
      cases st with
      | Expression e =>
          have he : WFexpr e := h
          rw [show renderStmt (Statement.Expression e) = render e from rfl] at hM ⊢
          have hE : pExpr m (render e) = .ok e [] := by
            have h1 := (mainPack m).expr e he [] (TailOf.nil _)
            rw [List.append_nil, show dropSpaces ([] : List Char) = [] from rfl] at h1
            rcases h1 with h1 | h1
            · exact h1
            · exact absurd h1 ((totalPack m).expr (render e) (by omega))
          rcases hD : pDefFunc m (render e) with ⟨d, r2⟩ | b | _
          · exact absurd (pDefFunc_eq_mem m _ _ _ hD) (render_no_eq e he)
          · simp only
            rcases hAV : pAssignVar m (render e) with ⟨a, r2⟩ | b | _
            · exact absurd (pAssignVar_eq_mem m _ _ _ hAV) (render_no_eq e he)
            · simp only
              rw [hE]
              rfl
            · exact absurd hAV ((totalPack m).assignVar (render e) (by omega))
          · exact absurd hD ((totalPack m).defFunc (render e) (by omega))
      | VariableAssignment va =>
          obtain ⟨hWn, hWe⟩ := (h : WFident va.name ∧ WFexpr va.expr)
          rw [show renderStmt (Statement.VariableAssignment va) =
            va.name.data ++ (' ' :: '=' :: ' ' :: render va.expr) from rfl] at hM ⊢
          have hlen2 : (va.name.data ++ (' ' :: '=' :: ' ' :: render va.expr)).length =
              va.name.data.length + ((render va.expr).length + 3) := by
            simp [List.length_append, List.length_cons]
            try omega
          have hident : pIdent (va.name.data ++ (' ' :: '=' :: ' ' :: render va.expr)) =
              .ok va.name ('=' :: ' ' :: render va.expr) := by
            rw [pIdent_chars va.name hWn _ (by exact (by decide : isIdentChar ' ' = false)),
              dropSpaces_cons_space (by decide),
              dropSpaces_cons_nonspace (by decide) (' ' :: render va.expr)]
          cases m with
          | zero => exact absurd hM (by omega)
          | succ k =>
              have hE : pExpr k (render va.expr) = .ok va.expr [] := by
                have h1 := (mainPack k).expr va.expr hWe [] (TailOf.nil _)
                rw [List.append_nil, show dropSpaces ([] : List Char) = [] from rfl] at h1
                rcases h1 with h1 | h1
                · exact h1
                · refine absurd h1 ((totalPack k).expr (render va.expr) ?_)
                  rw [hlen2] at hM
                  omega
              have hD : pDefFunc (k + 1) (va.name.data ++ (' ' :: '=' :: ' ' ::
                  render va.expr)) = .err true := by
                rw [pDefFunc_succ, hident]
                simp only
                rw [if_neg (by decide)]
              have hAV : pAssignVar (k + 1) (va.name.data ++ (' ' :: '=' :: ' ' ::
                  render va.expr)) = .ok va [] := by
                rw [pAssignVar_succ, hident]
                simp only
                rw [if_pos (by trivial), dropSpaces_cons_space (by decide),
                  dropSpaces_render hWe, hE]
              rw [hD]
              simp only
              rw [hAV]
              rfl
      | FunctionDefinition fd =>
          obtain ⟨hWn, hWargs, hWe⟩ :=
            (h : WFident fd.name ∧ (∀ a ∈ fd.arg_names, WFident a) ∧ WFexpr fd.expr)
          have hshape : renderStmt (Statement.FunctionDefinition fd) =
              fd.name.data ++ ('(' :: (renderParams fd.arg_names ++
                ')' :: ' ' :: '=' :: ' ' :: render fd.expr)) := by
            simp [renderStmt]
          rw [hshape] at hM ⊢
          have hlen3 : (fd.name.data ++ ('(' :: (renderParams fd.arg_names ++
              ')' :: ' ' :: '=' :: ' ' :: render fd.expr))).length =
              fd.name.data.length + ((renderParams fd.arg_names).length +
                ((render fd.expr).length + 5)) := by
            simp [List.length_append, List.length_cons]
            try omega
          have hident : pIdent (fd.name.data ++ ('(' :: (renderParams fd.arg_names ++
              ')' :: ' ' :: '=' :: ' ' :: render fd.expr))) =
              .ok fd.name ('(' :: (renderParams fd.arg_names ++
                ')' :: ' ' :: '=' :: ' ' :: render fd.expr)) := by
            rw [pIdent_chars fd.name hWn _ (by exact (by decide : isIdentChar '(' = false)),
              dropSpaces_cons_nonspace (by decide)]
          cases m with
          | zero => exact absurd hM (by omega)
          | succ k =>
              have hE : pExpr k (render fd.expr) = .ok fd.expr [] := by
                have h1 := (mainPack k).expr fd.expr hWe [] (TailOf.nil _)
                rw [List.append_nil, show dropSpaces ([] : List Char) = [] from rfl] at h1
                rcases h1 with h1 | h1
                · exact h1
                · refine absurd h1 ((totalPack k).expr (render fd.expr) ?_)
                  rw [hlen3] at hM
                  omega
              have hIL : pIdentList k (renderParams fd.arg_names ++
                  ')' :: ' ' :: '=' :: ' ' :: render fd.expr) =
                  .ok fd.arg_names (')' :: ' ' :: '=' :: ' ' :: render fd.expr) := by
                have h1 := pIdentList_renderParams k fd.arg_names hWargs
                  (' ' :: '=' :: ' ' :: render fd.expr)
                rcases h1 with h1 | h1
                · exact h1
                · refine absurd h1 ((totalPack k).identList _ ?_)
                  rw [hlen3] at hM
                  have hlen4 : (renderParams fd.arg_names ++
                      ')' :: ' ' :: '=' :: ' ' :: render fd.expr).length =
                      (renderParams fd.arg_names).length + ((render fd.expr).length + 4) := by
                    simp [List.length_append, List.length_cons]
                    try omega
                  omega
              have hD : pDefFunc (k + 1) (fd.name.data ++ ('(' :: (renderParams
                  fd.arg_names ++ ')' :: ' ' :: '=' :: ' ' :: render fd.expr))) =
                  .ok fd [] := by
                rw [pDefFunc_succ, hident]
                simp only
                rw [if_pos (by trivial), renderParams_dropSpaces hWargs, hIL]
                simp only
                rw [if_pos (by trivial), dropSpaces_cons_space (by decide),
                  dropSpaces_cons_nonspace (by decide) (' ' :: render fd.expr)]
                simp only
                rw [if_pos (by trivial), dropSpaces_cons_space (by decide),
                  dropSpaces_render hWe, hE]
              rw [hD]
              rfl

theorem parse_renderStmt {st : Statement} (h : WFstmt st) :
    parse (renderStmt st) = some [st] := by
  rw [parse]
  rw [show 16 * (renderStmt st).length + 16 =
    (16 * (renderStmt st).length + 15) + 1 from by omega, pScript_succ]
  rw [show 16 * (renderStmt st).length + 15 =
    (16 * (renderStmt st).length + 14) + 1 from by omega, pStmtList_succ]
  rw [show 16 * (renderStmt st).length + 14 =
    (16 * (renderStmt st).length + 13) + 1 from by omega, pStmtItem_succ]
  rw [renderStmt_head st h,
    pStmt_renderStmt h (16 * (renderStmt st).length + 13) (by omega)]
  rfl

/-- C3: Round-trip. For every statement in the list produced by a
successful `parse` of any input, rendering that statement with the
Display pretty-printer (`renderStmt`) and re-parsing the rendered string
succeeds and yields exactly that statement back — the identical AST, so
in particular a structurally equivalent one that evaluates to the same
result in any identical environment. -/
theorem C3_roundtrip {input : List Char} {stmts : List Statement}
    (hp : parse input = some stmts) {s : Statement} (hs : s ∈ stmts) :
    parse (renderStmt s) = some [s] :=
  parse_renderStmt (parse_WF hp s hs)

theorem C3_roundtrip_witness :
    parse "2^3^2".toList
      = some [Statement.Expression (.BinaryOp .Power (.Number (.finite 2))
          (.BinaryOp .Power (.Number (.finite 3)) (.Number (.finite 2))))] ∧
    Statement.Expression (.BinaryOp .Power (.Number (.finite 2))
          (.BinaryOp .Power (.Number (.finite 3)) (.Number (.finite 2))))
      ∈ [Statement.Expression (.BinaryOp .Power (.Number (.finite 2))
          (.BinaryOp .Power (.Number (.finite 3)) (.Number (.finite 2))))] ∧
    parse (renderStmt (Statement.Expression (.BinaryOp .Power
          (.Number (.finite 2))
          (.BinaryOp .Power (.Number (.finite 3)) (.Number (.finite 2)))))) =
      some [Statement.Expression (.BinaryOp .Power (.Number (.finite 2))
          (.BinaryOp .Power (.Number (.finite 3)) (.Number (.finite 2))))] :=
  ⟨rfl, List.mem_singleton.mpr rfl,
    @C3_roundtrip "2^3^2".toList
      [Statement.Expression (.BinaryOp .Power (.Number (.finite 2))
          (.BinaryOp .Power (.Number (.finite 3)) (.Number (.finite 2))))]
      rfl
      (Statement.Expression (.BinaryOp .Power (.Number (.finite 2))
          (.BinaryOp .Power (.Number (.finite 3)) (.Number (.finite 2)))))
      (List.mem_singleton.mpr rfl)⟩
